import Mathlib

/-!
The bcachefs inode code (`libbcachefs/inode.c`).

A shallow embedding of the variable-length inode field codec, of the inode
packer and unpacker, of the key validator, and of the allocator, the remover and
the lookup that work on the B-trees.  Memory is a list of bytes (`List Nat`,
each entry below 256) addressed by offsets, pointers are offsets into that list,
and machine integers are natural numbers with the wrap-around written out.  A
`BUG()` and a `BUG_ON()` that fires are modelled by the result `none` of the
packing side; the return value `-1` of the decoding side is modelled by `none`
as well (it is the only error value those functions return).  A B-tree is the
list of its keys; what its operations return is given by an environment, and the
loop of the allocator runs on fuel.
-/

namespace Bcachefs

/-! ## Tables and bit helpers -/

/-- The table `byte_table[8]`: the encoded lengths. -/
def byte_table : List Nat := [1, 2, 3, 4, 6, 8, 10, 13]

/-- The table `bits_table[8]`: for each length, the number of data bits. -/
def bits_table : List Nat :=
  [1 * 8 - 1, 2 * 8 - 2, 3 * 8 - 3, 4 * 8 - 4, 6 * 8 - 5, 8 * 8 - 6, 10 * 8 - 7, 13 * 8 - 8]

/-- The bit-scan loop behind `fls64`: the number of halvings that bring `x` to `0`,
at most `fuel` of them. -/
def fls_loop : Nat → Nat → Nat
  | 0, _ => 0
  | fuel + 1, x => if x = 0 then 0 else fls_loop fuel (x / 2) + 1

/-- The kernel helper `fls64`: the 1-based position of the highest set bit of a `u64`,
`0` for `0`. -/
def fls64 (x : Nat) : Nat := fls_loop 64 x

/-- The kernel helper `__fls`: the 0-based index of the highest set bit
(the C helper is only defined on nonzero arguments). -/
def __fls (x : Nat) : Nat := fls64 x - 1

/-- Big-endian bytes of `v`, `n` of them (the low `8 * n` bits of `v`). -/
def be_bytes : Nat → Nat → List Nat
  | 0, _ => []
  | n + 1, v => be_bytes n (v / 256) ++ [v % 256]

/-- The number a big-endian byte string denotes. -/
def be_value (bs : List Nat) : Nat := bs.foldl (fun acc b => acc * 256 + b) 0

/-- The helper `cpu_to_be64`: the eight bytes of a `u64`, most significant first. -/
def cpu_to_be64 (x : Nat) : List Nat := be_bytes 8 (x % 2 ^ 64)

/-- The helper `be64_to_cpu`: the `u64` held in eight big-endian bytes. -/
def be64_to_cpu (bs : List Nat) : Nat := be_value bs

/-- The call `memcpy(mem + off, src, src.length)`. -/
def memcpy (mem : List Nat) (off : Nat) (src : List Nat) : List Nat :=
  mem.take off ++ src ++ mem.drop (off + src.length)

/-- The call `memset(mem + off, 0, n)`. -/
def memset0 (mem : List Nat) (off n : Nat) : List Nat :=
  mem.take off ++ List.replicate n 0 ++ mem.drop (off + n)

/-- The length marker `(1 << 8) >> shift`. -/
def marker (shift : Nat) : Nat := (1 <<< 8) >>> shift

/-! ## Field codec -/

/-- The initialiser of `bits` in `inode_encode_field`:
`likely(!hi) ? fls64(lo) : fls64(hi) + 64`, the bit length of the 128-bit value. -/
def field_bits (hi lo : Nat) : Nat := if hi = 0 then fls64 lo else fls64 hi + 64

/-- The loop `for (shift = 1; shift <= 8; shift++) if (bits < bits_table[shift - 1]) goto got_shift;`
of `inode_encode_field`: the first `shift` that passes the test, `none` when the loop falls
through to `BUG()`. -/
def find_shift (bits : Nat) : Option Nat :=
  (List.range' 1 8).find? (fun shift => decide (bits < bits_table.getD (shift - 1) 0))

/-- The function `inode_encode_field(out, end, hi, lo)`.  `mem` is the memory the pointers
`out` and `end` point into; the result is the memory after the call and the returned
byte count, or `none` when `BUG()` or `BUG_ON(out + bytes > end)` fires. -/
def inode_encode_field (mem : List Nat) (out «end» : Nat) (hi lo : Nat) :
    Option (List Nat × Nat) :=
  let inb := cpu_to_be64 hi ++ cpu_to_be64 lo
  let bits := field_bits hi lo
  match find_shift bits with
  | none => none
  | some shift =>
    let bytes := byte_table.getD (shift - 1) 0
    if out + bytes > «end» then none
    else
      let mem1 := memcpy mem out (inb.drop (16 - bytes))
      let mem2 := mem1.set out ((mem1.getD out 0 ||| marker shift) % 256)
      some (mem2, bytes)

/-- The bytes that `inode_encode_field` writes for `(hi, lo)`: what a call on a scratch
buffer of 13 bytes leaves at its start. -/
def encoded_field (hi lo : Nat) : List Nat :=
  match inode_encode_field (List.replicate 13 0) 0 13 hi lo with
  | some (mem, bytes) => mem.take bytes
  | none => []

/-- The out-parameters and return value of a successful `inode_decode_field`. -/
structure decoded where
  /-- the returned byte count -/
  ret : Nat
  /-- the word `out[0]` (the high half) -/
  hi : Nat
  /-- the word `out[1]` (the low half) -/
  lo : Nat
  /-- the value stored through `out_bits` -/
  out_bits : Nat
deriving DecidableEq

/-- The function `inode_decode_field(in, end, out, out_bits)` reading from `mem`;
`none` is the return value `-1`. -/
def inode_decode_field (mem : List Nat) («in» «end» : Nat) : Option decoded :=
  if «in» ≥ «end» then none
  else if mem.getD «in» 0 = 0 then none
  else
    let shift := 8 - __fls (mem.getD «in» 0)
    let bytes := byte_table.getD (shift - 1) 0
    if «in» + bytes > «end» then none
    else
      let be0 := List.replicate 16 0
      let be1 := memcpy be0 (16 - bytes) ((mem.drop «in»).take bytes)
      let be2 := be1.set (16 - bytes) ((be1.getD (16 - bytes) 0 ^^^ marker shift) % 256)
      let out0 := be64_to_cpu (be2.take 8)
      let out1 := be64_to_cpu (be2.drop 8)
      some { ret := bytes, hi := out0, lo := out1,
             out_bits := if out0 ≠ 0 then 64 + fls64 out0 else fls64 out1 }

/-! ## Keys, values and the schema -/

/-- Modelled from the spec: the key type tag `BCH_INODE_FS` (the header `bcachefs_format.h`
is not among the sources).  The spec only needs it to be above the type of a hole; the
number is the one of the on-disk format. -/
def BCH_INODE_FS : Nat := 128

/-- Modelled from the spec: `offsetof(struct bch_inode, fields)`, the fixed header in front of
the variable-length tail (the struct declaration is not among the sources).  Spec section 6
lays the value out as `u64 i_hash_seed`, `u32 i_flags`, `u16 i_mode`, then the tail. -/
def INODE_HEADER_BYTES : Nat := 8 + 4 + 2

/-- A `struct bkey_i_inode` (and, for the buffer `struct bkey_inode_buf`, the padding that
follows it): the members of the key that the inode code touches, the fixed header of the
value, and the memory that starts at `v.fields`. -/
structure bkey_i_inode where
  /-- the member `k.p.inode` -/
  p_inode : Nat
  /-- the member `k.p.offset` -/
  p_offset : Nat
  /-- the member `k.type` -/
  type : Nat
  /-- the value size in 64-bit words, `k.u64s - BKEY_U64s` -/
  val_u64s : Nat
  /-- the member `v.i_hash_seed` -/
  i_hash_seed : Nat
  /-- the member `v.i_flags` (in CPU byte order) -/
  i_flags : Nat
  /-- the member `v.i_mode` (in CPU byte order) -/
  i_mode : Nat
  /-- the bytes from `v.fields` on -/
  fields : List Nat
deriving DecidableEq

/-- Modelled from the spec: `bkey_val_bytes` (the header `bkey.h` is not among the sources);
the value length is counted in units of the B-tree alignment, 8 bytes. -/
def bkey_val_bytes (k : bkey_i_inode) : Nat := k.val_u64s * 8

/-- Modelled from the spec: `set_bkey_val_bytes` (the header `bkey.h` is not among the
sources); the value length is rounded up to the B-tree alignment unit, 8 bytes. -/
def set_bkey_val_bytes (k : bkey_i_inode) (bytes : Nat) : bkey_i_inode :=
  { k with val_u64s := (bytes + 7) / 8 }

/-- Modelled from the spec: the accessor `INODE_NR_FIELDS` (the header `bcachefs_format.h` is
not among the sources).  Spec section 6 keeps `NR_FIELDS` as a bitfield packed in the value's
bitfield header, which is `i_flags`; in the on-disk format it is
`LE32_BITMASK(INODE_NR_FIELDS, struct bch_inode, i_flags, 24, 32)`. -/
def INODE_NR_FIELDS (k : bkey_i_inode) : Nat := (k.i_flags / 2 ^ 24) % 2 ^ 8

/-- Modelled from the spec: the setter `SET_INODE_NR_FIELDS` that goes with `INODE_NR_FIELDS`:
it replaces bits 24 to 31 of the 32-bit `i_flags` by the low eight bits of `v` and keeps
bits 0 to 23. -/
def SET_INODE_NR_FIELDS (k : bkey_i_inode) (v : Nat) : bkey_i_inode :=
  { k with i_flags := k.i_flags % 2 ^ 24 + (v % 2 ^ 8) * 2 ^ 24 }

/-- Modelled from the spec: `bkey_inode_init` (generated by `BKEY_VAL_TYPE` in a header that is
not among the sources): a key at position `(0, 0)` of type `BCH_INODE_FS` with a zeroed fixed
header, whose value covers the fixed header.  `buf` is the memory from `v.fields` on. -/
def bkey_inode_init (buf : List Nat) : bkey_i_inode :=
  set_bkey_val_bytes
    { p_inode := 0, p_offset := 0, type := BCH_INODE_FS, val_u64s := 0,
      i_hash_seed := 0, i_flags := 0, i_mode := 0, fields := buf }
    INODE_HEADER_BYTES

/-- A `struct bch_inode_unpacked`.  The members generated by `BCH_INODE_FIELDS()` are kept as
the list `fields`, in schema order: member number `i` of the schema is `fields[i]`. -/
structure bch_inode_unpacked where
  /-- the member `inum` -/
  inum : Nat
  /-- the member `i_hash_seed` -/
  i_hash_seed : Nat
  /-- the member `i_flags` -/
  i_flags : Nat
  /-- the member `i_mode` -/
  i_mode : Nat
  /-- the schema members -/
  fields : List Nat
deriving DecidableEq

/-- The read `inode->_name` of schema member number `i`. -/
def bch_inode_unpacked.field (inode : bch_inode_unpacked) (i : Nat) : Nat :=
  inode.fields.getD i 0

/-- Modelled from the spec: the macro list `BCH_INODE_FIELDS()` (the header is not among the
sources): the members and widths of spec section 3, in the order in which
`bch2_inode_pack_test` initialises them. -/
def BCH_INODE_FIELDS : List (String × Nat) :=
  [("i_atime", 64), ("i_ctime", 64), ("i_mtime", 64), ("i_otime", 64),
   ("i_size", 64), ("i_sectors", 64),
   ("i_uid", 32), ("i_gid", 32), ("i_nlink", 32), ("i_generation", 32), ("i_dev", 32)]

/-! ## Packing -/

/-- The local variables of `bch2_inode_pack` while it walks the schema. -/
structure pack_state where
  /-- the memory that starts at `packed->inode.v.fields` -/
  mem : List Nat
  /-- the write cursor `out`, as an offset from `v.fields` -/
  out : Nat
  /-- the counter `nr_fields` -/
  nr_fields : Nat
  /-- the pointer `last_nonzero_field`, as an offset from `v.fields` -/
  last_nonzero_field : Nat
  /-- the counter `last_nonzero_fieldnr` -/
  last_nonzero_fieldnr : Nat
deriving DecidableEq

/-- One expansion of `BCH_INODE_FIELD(_name, _bits)` inside `bch2_inode_pack`, for a member
whose value is `val`. -/
def pack_field («end» : Nat) (st : pack_state) (val : Nat) : Option pack_state :=
  match inode_encode_field st.mem st.out «end» 0 val with
  | none => none
  | some (mem, bytes) =>
    let out := st.out + bytes
    let nr_fields := st.nr_fields + 1
    if val ≠ 0 then
      some { mem := mem, out := out, nr_fields := nr_fields,
             last_nonzero_field := out, last_nonzero_fieldnr := nr_fields }
    else
      some { st with mem := mem, out := out, nr_fields := nr_fields }

/-- The expansion of `BCH_INODE_FIELDS()` inside `bch2_inode_pack`: one `pack_field` per
schema entry, in order; `i` is the schema index of the first entry of the list. -/
def pack_fields (inode : bch_inode_unpacked) («end» : Nat) :
    List (String × Nat) → Nat → pack_state → Option pack_state
  | [], _, st => some st
  | _ :: rest, i, st =>
    match pack_field «end» st (inode.field i) with
    | none => none
    | some st1 => pack_fields inode «end» rest (i + 1) st1

/-- The function `bch2_inode_pack(packed, inode)` for the schema `schema`.  `buf` is the
content of the buffer from `packed->inode.v.fields` to `&packed[1]` on entry, so `end` is
`buf.length`.  The result is `none` when a `BUG_ON` of the encoder fires, and also when the
final `memset` would run past `&packed[1]`, which C leaves undefined.  The block under
`IS_ENABLED(CONFIG_BCACHEFS_DEBUG)` only asserts and is left out. -/
def bch2_inode_pack (schema : List (String × Nat)) (buf : List Nat)
    (inode : bch_inode_unpacked) : Option bkey_i_inode :=
  let «end» := buf.length
  let k0 := bkey_inode_init buf
  let k1 := { k0 with p_inode := inode.inum, i_hash_seed := inode.i_hash_seed,
                      i_flags := inode.i_flags, i_mode := inode.i_mode }
  match pack_fields inode «end» schema 0
      { mem := buf, out := 0, nr_fields := 0, last_nonzero_field := 0,
        last_nonzero_fieldnr := 0 } with
  | none => none
  | some st =>
    let out := st.last_nonzero_field
    let nr_fields := st.last_nonzero_fieldnr
    let k2 := set_bkey_val_bytes k1 (out + INODE_HEADER_BYTES)
    let n := bkey_val_bytes k2 - INODE_HEADER_BYTES - out
    if out + n > «end» then none
    else some (SET_INODE_NR_FIELDS { k2 with fields := memset0 st.mem out n } nr_fields)

/-! ## Unpacking -/

/-- The expansion of `BCH_INODE_FIELDS()` inside `bch2_inode_unpack`: `mem` is the memory
from `inode.v->fields` on, `nr` is `INODE_NR_FIELDS(inode.v)`, and the result lists the
schema members assigned from this entry on; `none` is a nonzero return value. -/
def unpack_fields (mem : List Nat) («end» nr : Nat) :
    List (String × Nat) → Nat → Nat → Option (List Nat)
  | [], _, _ => some []
  | (_, bits) :: rest, «in», fieldnr =>
    if fieldnr = nr then some (List.replicate (rest.length + 1) 0)
    else
      match inode_decode_field mem «in» «end» with
      | none => none
      | some d =>
        if d.out_bits > bits then none
        else
          match unpack_fields mem «end» nr rest («in» + d.ret) (fieldnr + 1) with
          | none => none
          | some vs => some (d.lo % 2 ^ bits :: vs)

/-- The function `bch2_inode_unpack(inode, unpacked)` for the schema `schema`: the record
it fills in when it returns `0`, `none` when it returns a nonzero value. -/
def bch2_inode_unpack (schema : List (String × Nat)) (k : bkey_i_inode) :
    Option bch_inode_unpacked :=
  let «end» := bkey_val_bytes k - INODE_HEADER_BYTES
  match unpack_fields k.fields «end» (INODE_NR_FIELDS k) schema 0 0 with
  | none => none
  | some vs =>
    some { inum := k.p_inode, i_hash_seed := k.i_hash_seed, i_flags := k.i_flags,
           i_mode := k.i_mode, fields := vs }

/-! ## Validation -/

/-- Modelled from the spec: the key type tag `BCH_INODE_BLOCKDEV`, the tag after
`BCH_INODE_FS` in the on-disk format (the header is not among the sources). -/
def BCH_INODE_BLOCKDEV : Nat := 129

/-- Modelled from the spec: `BLOCKDEV_INODE_MAX`, the first inode number of the filesystem
range (the header is not among the sources); the number is the one of the on-disk format. -/
def BLOCKDEV_INODE_MAX : Nat := 4096

/-- Modelled from the spec: `BCH_STR_HASH_NR`, the number of string-hash types (the header is
not among the sources).  No statement below depends on the number chosen. -/
def BCH_STR_HASH_NR : Nat := 3

/-- Modelled from the spec: the accessor `INODE_STR_HASH` (the header is not among the
sources): the four bits of `i_flags` from `INODE_STR_HASH_OFFSET` on, which the on-disk
format puts at bit 20. -/
def INODE_STR_HASH (k : bkey_i_inode) : Nat := (k.i_flags / 2 ^ 20) % 2 ^ 4

/-- Modelled from the spec: `sizeof(struct bch_inode)`, the fixed header size of an
`INODE_FS` value (the struct declaration is not among the sources). -/
def sizeof_bch_inode : Nat := INODE_HEADER_BYTES

/-- Modelled from the spec: `sizeof(struct bch_inode_blockdev)`, the fixed size of a blockdev
inode value (the struct declaration is not among the sources).  No statement below depends
on the number chosen. -/
def sizeof_bch_inode_blockdev : Nat := 80

/-- The function `bch2_inode_invalid(c, k)` for the schema `schema`: `none` is the return
value `NULL`, `some msg` is the static string it returns. -/
def bch2_inode_invalid (schema : List (String × Nat)) (k : bkey_i_inode) : Option String :=
  if k.p_offset ≠ 0 then some "nonzero offset"
  else if k.type = BCH_INODE_FS then
    if bkey_val_bytes k < sizeof_bch_inode then some "incorrect value size"
    else if k.p_inode < BLOCKDEV_INODE_MAX then some "fs inode in blockdev range"
    else if INODE_STR_HASH k ≥ BCH_STR_HASH_NR then some "invalid str hash type"
    else if (bch2_inode_unpack schema k).isNone then some "invalid variable length fields"
    else none
  else if k.type = BCH_INODE_BLOCKDEV then
    if bkey_val_bytes k ≠ sizeof_bch_inode_blockdev then some "incorrect value size"
    else if k.p_inode ≥ BLOCKDEV_INODE_MAX then some "blockdev inode in fs range"
    else none
  else some "invalid type"

/-! ## Descriptions used in the statements -/

/-- The bytes of a value after its fixed header: the memory from `v.fields` up to the end
of the value. -/
def bkey_i_inode.val_tail (k : bkey_i_inode) : List Nat :=
  k.fields.take (bkey_val_bytes k - INODE_HEADER_BYTES)

/-- The successive results of `inode_decode_field` on `mem`, starting at offset `in` and
each time advancing by the returned byte count: at most `n` of them, up to the first call
that fails. -/
def decode_run (mem : List Nat) («end» : Nat) : Nat → Nat → List decoded
  | 0, _ => []
  | n + 1, «in» =>
    match inode_decode_field mem «in» «end» with
    | none => []
    | some d => d :: decode_run mem «end» n («in» + d.ret)

/-- The number of fields `bch2_inode_unpack` decodes: `INODE_NR_FIELDS`, capped by the
number of schema members. -/
def stored_count (schema : List (String × Nat)) (k : bkey_i_inode) : Nat :=
  min (INODE_NR_FIELDS k) schema.length

/-- The fields decoded in order from the tail of the value `k`, `stored_count` of them
when every decode succeeds. -/
def decoded_fields (schema : List (String × Nat)) (k : bkey_i_inode) : List decoded :=
  decode_run k.fields (bkey_val_bytes k - INODE_HEADER_BYTES) (stored_count schema k) 0

/-- The concatenation, in schema order, of the encodings of the schema members number `0`
to `n - 1` of `inode`. -/
def encoded_fields (inode : bch_inode_unpacked) : Nat → List Nat
  | 0 => []
  | n + 1 => encoded_fields inode n ++ encoded_field 0 (inode.field n)

/-- One more than the schema index of the last nonzero member among the first `n` members
of `inode`, and `0` when they are all zero. -/
def last_nonzero (inode : bch_inode_unpacked) : Nat → Nat
  | 0 => 0
  | n + 1 => if inode.field n ≠ 0 then n + 1 else last_nonzero inode n

/-- The local variables of `bch2_inode_pack` after `n` expansions of `BCH_INODE_FIELD`,
started on the buffer `buf`. -/
def pack_state_after (inode : bch_inode_unpacked) (buf : List Nat) (n : Nat) : pack_state :=
  { mem := memcpy buf 0 (encoded_fields inode n),
    out := (encoded_fields inode n).length,
    nr_fields := n,
    last_nonzero_field := (encoded_fields inode (last_nonzero inode n)).length,
    last_nonzero_fieldnr := last_nonzero inode n }

/-- The buffer is large enough for a call of `bch2_inode_pack`: every schema member's
encoding fits below `&packed[1]`, and so does the zero padding of the value. -/
def pack_fits (schema : List (String × Nat)) (buf : List Nat) (inode : bch_inode_unpacked) :
    Prop :=
  (encoded_fields inode schema.length).length ≤ buf.length ∧
  ((encoded_fields inode (last_nonzero inode schema.length)).length
      + INODE_HEADER_BYTES + 7) / 8 * 8 ≤ buf.length + INODE_HEADER_BYTES

instance (schema : List (String × Nat)) (buf : List Nat) (inode : bch_inode_unpacked) :
    Decidable (pack_fits schema buf inode) := by
  unfold pack_fits
  exact inferInstance

/-- Every schema member of `inode` fits its declared width, the record has exactly the
schema's members, and the declared widths are those of the C types `u8` to `u64`. -/
def fields_fit (schema : List (String × Nat)) (inode : bch_inode_unpacked) : Prop :=
  List.Forall₂ (fun v f => v < 2 ^ f.2 ∧ f.2 ≤ 64) inode.fields schema

/-- The inode of `bch2_inode_pack_test`: every 64-bit member `U64_MAX`, every 32-bit member
`U32_MAX`, everything else zero. -/
def test_inode : bch_inode_unpacked :=
  { inum := 0, i_hash_seed := 0, i_flags := 0, i_mode := 0,
    fields := BCH_INODE_FIELDS.map (fun f => 2 ^ f.2 - 1) }

/-- A size for the buffer of `struct bkey_inode_buf` from `v.fields` on: `8 + bits / 8`
bytes for each member of `BCH_INODE_FIELDS`, more than any encoding of a member needs. -/
def inode_buf_bytes : Nat := (BCH_INODE_FIELDS.map (fun f => 8 + f.2 / 8)).sum

/-- An inode whose only nonzero member is `i_size = 42` (scenario S3 of the spec). -/
def inode_size_42 : bch_inode_unpacked :=
  { inum := 4096, i_hash_seed := 0, i_flags := 0, i_mode := 0,
    fields := [0, 0, 0, 0, 42, 0, 0, 0, 0, 0, 0] }

/-- An inode whose only nonzero member is `i_size = 256`. -/
def inode_size_256 : bch_inode_unpacked :=
  { inum := 4096, i_hash_seed := 0, i_flags := 0, i_mode := 0,
    fields := [0, 0, 0, 0, 256, 0, 0, 0, 0, 0, 0] }

/-- An inode all of whose schema members are zero (scenario S1 of the spec). -/
def inode_zero : bch_inode_unpacked :=
  { inum := 4096, i_hash_seed := 0, i_flags := 0, i_mode := 0,
    fields := [0, 0, 0, 0, 0, 0, 0, 0, 0, 0, 0] }

/-- A value whose tail starts with the byte `0x01`, which advertises a field of 13 bytes,
in a value that has only 10 bytes after the header (scenario S4 of the spec). -/
def truncated_key : bkey_i_inode :=
  { p_inode := 4096, p_offset := 0, type := BCH_INODE_FS, val_u64s := 3,
    i_hash_seed := 0, i_flags := 1 * 2 ^ 24, i_mode := 0,
    fields := [1, 0, 0, 0, 0, 0, 0, 0, 0, 0] }

/-- A value with two stored fields, `42` and `256`, followed by seven bytes that belong to
no field. -/
def sample_key : bkey_i_inode :=
  { p_inode := 4096, p_offset := 0, type := BCH_INODE_FS, val_u64s := 3,
    i_hash_seed := 7, i_flags := 2 * 2 ^ 24, i_mode := 0,
    fields := [170, 65, 0, 9, 9, 9, 9, 9, 9, 9] }

/-- The value `sample_key` with other bytes after its two stored fields. -/
def sample_key_other : bkey_i_inode :=
  { sample_key with fields := [170, 65, 0, 1, 2, 3, 4, 5, 6, 7] }

/-- A value with seven stored fields, the seventh of which (`i_uid`, 32 bits wide) holds
`2 ^ 32`. -/
def overwide_key : bkey_i_inode :=
  { p_inode := 4096, p_offset := 0, type := BCH_INODE_FS, val_u64s := 4,
    i_hash_seed := 0, i_flags := 7 * 2 ^ 24, i_mode := 0,
    fields := [128, 128, 128, 128, 128, 128, 8, 1, 0, 0, 0, 0, 0, 0, 0, 0, 0, 0] }

/-! ## Reads of the decoder -/

/-- The offsets of `mem` that `inode_decode_field(in, end, ...)` reads: the byte `*in` once
the test `in >= end` has passed, and the `bytes` bytes from `in` that `memcpy` copies once
the test `in + bytes > end` has passed. -/
def inode_decode_field_reads (mem : List Nat) («in» «end» : Nat) : List Nat :=
  if «in» ≥ «end» then []
  else if mem.getD «in» 0 = 0 then [«in»]
  else
    let shift := 8 - __fls (mem.getD «in» 0)
    let bytes := byte_table.getD (shift - 1) 0
    if «in» + bytes > «end» then [«in»]
    else «in» :: List.range' «in» bytes

/-- The offsets from `inode.v->fields` that the expansion of `BCH_INODE_FIELDS()` inside
`bch2_inode_unpack` reads, along the control flow of `unpack_fields`. -/
def unpack_fields_reads (mem : List Nat) («end» nr : Nat) :
    List (String × Nat) → Nat → Nat → List Nat
  | [], _, _ => []
  | (_, bits) :: rest, «in», fieldnr =>
    if fieldnr = nr then []
    else
      inode_decode_field_reads mem «in» «end» ++
        match inode_decode_field mem «in» «end» with
        | none => []
        | some d =>
          if d.out_bits > bits then []
          else unpack_fields_reads mem «end» nr rest («in» + d.ret) (fieldnr + 1)

/-- The offsets from `v.fields` that `bch2_inode_invalid(c, k)` reads, all of them inside
its call of `bch2_inode_unpack`. -/
def bch2_inode_invalid_reads (schema : List (String × Nat)) (k : bkey_i_inode) : List Nat :=
  if k.p_offset ≠ 0 then []
  else if k.type = BCH_INODE_FS then
    if bkey_val_bytes k < sizeof_bch_inode then []
    else if k.p_inode < BLOCKDEV_INODE_MAX then []
    else if INODE_STR_HASH k ≥ BCH_STR_HASH_NR then []
    else unpack_fields_reads k.fields (bkey_val_bytes k - INODE_HEADER_BYTES)
      (INODE_NR_FIELDS k) schema 0 0
  else []

/-! ## The B-tree collaborator -/

/-- The error number `EINTR`. -/
def EINTR : Int := 4

/-- The error number `ENOSPC`. -/
def ENOSPC : Int := 28

/-- The error number `ENOENT`. -/
def ENOENT : Int := 2

/-- The constant `ULLONG_MAX`. -/
def ULLONG_MAX : Nat := 2 ^ 64 - 1

/-- The constant `U32_MAX`. -/
def U32_MAX : Nat := 2 ^ 32 - 1

/-- Modelled from the spec: the key type `KEY_TYPE_DELETED` of a hole and of the empty key
that `bkey_init` makes (the header is not among the sources); the spec asks that a hole has
a type below `INODE_FS`. -/
def KEY_TYPE_DELETED : Nat := 0

/-- The macro `POS(inode, offset)`. -/
def POS (inode offset : Nat) : Nat × Nat := (inode, offset)

/-- Modelled from the spec: the synthetic key a holes-iterating cursor shows for an unoccupied
slot `(inum, 0)` of the inodes tree. -/
def hole_key (inum : Nat) : bkey_i_inode :=
  { p_inode := inum, p_offset := 0, type := KEY_TYPE_DELETED, val_u64s := 0,
    i_hash_seed := 0, i_flags := 0, i_mode := 0, fields := [] }

/-- Modelled from the spec: `bch2_btree_iter_peek_with_holes` of a cursor of the inodes tree
at `POS(inum, 0)` (the B-tree is a collaborator outside the sources): the key stored at the
slot, or the synthetic key of a hole.  The tree is the list of its keys, the most recently
inserted first. -/
def bch2_btree_iter_peek_with_holes (tree : List bkey_i_inode) (inum : Nat) : bkey_i_inode :=
  match tree.find? (fun k => decide (k.p_inode = inum ∧ k.p_offset = 0)) with
  | some k => k
  | none => hole_key inum

/-- Modelled from the spec: the effect of a successful insert of `k` into the inodes tree
(`insert_atomic` and `point_insert` of spec section 6): `k` replaces what was stored at its
position. -/
def btree_insert_key (tree : List bkey_i_inode) (k : bkey_i_inode) : List bkey_i_inode :=
  k :: tree.filter (fun x => !decide (x.p_inode = k.p_inode ∧ x.p_offset = k.p_offset))

/-- A key of the extents, dirents or xattrs tree: its position and type. -/
structure bkey where
  /-- the member `p.inode` -/
  p_inode : Nat
  /-- the member `p.offset` -/
  p_offset : Nat
  /-- the member `type` -/
  type : Nat
deriving DecidableEq

/-- The order of positions, `bkey_cmp(a, b) < 0`: by inode number, then by offset. -/
def bpos_lt (a b : Nat × Nat) : Bool :=
  decide (a.1 < b.1 ∨ (a.1 = b.1 ∧ a.2 < b.2))

/-- The key `k` lies in the range of positions from `start` up to, not including, `end`. -/
def in_range (k : bkey) (start «end» : Nat × Nat) : Bool :=
  !bpos_lt (k.p_inode, k.p_offset) start && bpos_lt (k.p_inode, k.p_offset) «end»

/-- Modelled from the spec: the effect of a successful `range_delete(tree_id, lo, hi)` (spec
section 6; `bch2_btree_delete_range` and `bch2_discard` are outside the sources): every key
in the range is gone. -/
def btree_delete_range (tree : List bkey) (start «end» : Nat × Nat) : List bkey :=
  tree.filter (fun k => !in_range k start «end»)

/-! ## The allocator -/

/-- What the collaborators of `bch2_inode_create` answer: the option `c->opts.inodes_32bit`,
the error `btree_iter_err(k)` of a peek at slot `(n, 0)` (`0` for none), and the return value
of the `i`-th call of `bch2_btree_insert_at`. -/
structure alloc_env where
  /-- the mount option `inodes_32bit` -/
  inodes_32bit : Bool
  /-- the error of the peek at a slot -/
  peek_err : Nat → Int
  /-- the return value of the `i`-th insert -/
  insert_ret : Nat → Int

/-- How the `while (1)` loop of `bch2_inode_create` is left: by a `return ret` (after a peek
error, with no slot, or after an insert at the slot `pos`), or by the `break` at `max`.
`calls` counts the calls of `bch2_btree_insert_at` so far. -/
inductive scan_exit where
  | returned (ret : Int) (pos : Option Nat) (calls : Nat)
  | broke (calls : Nat)
deriving DecidableEq

/-- The `while (1)` loop of `bch2_inode_create` with the cursor at `POS(pos, 0)`; `none` when
`fuel` iterations were not enough.  The cursor advances to the next inode number, a `u64`. -/
def scan_loop (env : alloc_env) (tree : List bkey_i_inode) (max : Nat) :
    Nat → Nat → Nat → Option scan_exit
  | 0, _, _ => none
  | fuel + 1, pos, calls =>
    let k := bch2_btree_iter_peek_with_holes tree pos
    if env.peek_err pos ≠ 0 then some (scan_exit.returned (env.peek_err pos) none calls)
    else if k.type < BCH_INODE_FS then
      if env.insert_ret calls = -EINTR then scan_loop env tree max fuel pos (calls + 1)
      else some (scan_exit.returned (env.insert_ret calls) (some k.p_inode) (calls + 1))
    else if pos = max then some (scan_exit.broke calls)
    else scan_loop env tree max fuel ((pos + 1) % 2 ^ 64) calls

/-- What `bch2_inode_create` leaves behind: its return value, `*hint`, the inodes tree and
the key `*inode`. -/
structure create_result where
  /-- the return value -/
  ret : Int
  /-- the value of `*hint` -/
  hint : Nat
  /-- the inodes tree -/
  tree : List bkey_i_inode
  /-- the key `*inode` -/
  inode : bkey_i_inode
deriving DecidableEq

/-- The end of `bch2_inode_create` after a `return ret` inside the loop. -/
def create_return (tree : List bkey_i_inode) (inode : bkey_i_inode) (hint : Nat)
    (ret : Int) (pos : Option Nat) : create_result :=
  match pos with
  | none => { ret := ret, hint := hint, tree := tree, inode := inode }
  | some n =>
    let inode1 := { inode with p_inode := n, p_offset := 0 }
    if ret = 0 then
      { ret := ret, hint := (n + 1) % 2 ^ 64, tree := btree_insert_key tree inode1,
        inode := inode1 }
    else { ret := ret, hint := hint, tree := tree, inode := inode1 }

/-- The function `bch2_inode_create(c, inode, min, max, hint)` on the inodes tree `tree`;
`none` when one of the two scans needs more than `fuel` iterations. -/
def bch2_inode_create (env : alloc_env) (fuel : Nat) (tree : List bkey_i_inode)
    (inode : bkey_i_inode) (min max hint : Nat) : Option create_result :=
  let max := if max = 0 then ULLONG_MAX else max
  let max := if env.inodes_32bit then Nat.min max U32_MAX else max
  let hint := if hint ≥ max ∨ hint < min then min else hint
  let searched_from_start := decide (hint = min)
  match scan_loop env tree max fuel hint 0 with
  | none => none
  | some (scan_exit.returned ret pos _) => some (create_return tree inode hint ret pos)
  | some (scan_exit.broke calls) =>
    if !searched_from_start then
      match scan_loop env tree max fuel min calls with
      | none => none
      | some (scan_exit.returned ret pos _) => some (create_return tree inode min ret pos)
      | some (scan_exit.broke _) =>
        some { ret := -ENOSPC, hint := min, tree := tree, inode := inode }
    else some { ret := -ENOSPC, hint := hint, tree := tree, inode := inode }

/-- The effective upper bound `max` of `bch2_inode_create` after its two clamps. -/
def effective_max (env : alloc_env) (max : Nat) : Nat :=
  let max := if max = 0 then ULLONG_MAX else max
  if env.inodes_32bit then Nat.min max U32_MAX else max

/-- The slot `(n, 0)` of the inodes tree is free for the allocator: the key a peek shows
there has a type below `BCH_INODE_FS`. -/
def slot_free (tree : List bkey_i_inode) (n : Nat) : Prop :=
  (bch2_btree_iter_peek_with_holes tree n).type < BCH_INODE_FS

instance (tree : List bkey_i_inode) (n : Nat) : Decidable (slot_free tree n) := by
  unfold slot_free
  exact inferInstance

/-! ## The remover and the lookup -/

/-- The four trees the inode code works on. -/
structure fs_trees where
  /-- the extents tree -/
  extents : List bkey
  /-- the inodes tree -/
  inodes : List bkey_i_inode
  /-- the dirents tree -/
  dirents : List bkey
  /-- the xattrs tree -/
  xattrs : List bkey
deriving DecidableEq

/-- The identifiers of the trees. -/
inductive btree_id where
  | BTREE_ID_EXTENTS
  | BTREE_ID_INODES
  | BTREE_ID_DIRENTS
  | BTREE_ID_XATTRS
deriving DecidableEq

/-- A call of a B-tree collaborator, as `bch2_inode_rm` issues it. -/
inductive btree_op where
  | discard (start «end» : Nat × Nat)
  | delete_range (id : btree_id) (start «end» : Nat × Nat)
  | insert (id : btree_id) (k : bkey_i_inode) (nofail : Bool)
deriving DecidableEq

/-- What the collaborators of `bch2_inode_rm` return: `bch2_discard`, the two calls of
`bch2_btree_delete_range`, and `bch2_btree_insert`.  A call that returns a negative value
is taken to leave its tree as it was. -/
structure rm_env where
  /-- the return value of `bch2_discard` -/
  discard_ret : Int
  /-- the return value of the range delete in the xattrs tree -/
  xattrs_ret : Int
  /-- the return value of the range delete in the dirents tree -/
  dirents_ret : Int
  /-- the return value of `bch2_btree_insert` -/
  insert_ret : Int

/-- What `bch2_inode_rm` leaves behind: its return value, the trees, and the collaborator
calls it issued, in order. -/
structure rm_result where
  /-- the return value -/
  ret : Int
  /-- the trees -/
  trees : fs_trees
  /-- the calls issued -/
  ops : List btree_op
deriving DecidableEq

/-- The function `bch2_inode_truncate(c, inode_nr, new_size, hook, journal_seq)`: one call of
`bch2_discard` from `POS(inode_nr, new_size)` to `POS(inode_nr + 1, 0)`. -/
def bch2_inode_truncate (env : rm_env) (t : fs_trees) (inode_nr new_size : Nat) : rm_result :=
  let start := POS inode_nr new_size
  let e := POS ((inode_nr + 1) % 2 ^ 64) 0
  { ret := env.discard_ret,
    trees := if env.discard_ret < 0 then t
             else { t with extents := btree_delete_range t.extents start e },
    ops := [btree_op.discard start e] }

/-- The empty key that `bch2_inode_rm` inserts: `bkey_init(&delete.k)` followed by
`delete.k.p.inode = inode_nr`. -/
def delete_key (inode_nr : Nat) : bkey_i_inode :=
  { hole_key 0 with p_inode := inode_nr }

/-- The function `bch2_inode_rm(c, inode_nr)`. -/
def bch2_inode_rm (env : rm_env) (t : fs_trees) (inode_nr : Nat) : rm_result :=
  let start := POS inode_nr 0
  let e := POS ((inode_nr + 1) % 2 ^ 64) 0
  let r1 := bch2_inode_truncate env t inode_nr 0
  if r1.ret < 0 then r1
  else
    let ops2 := r1.ops ++ [btree_op.delete_range btree_id.BTREE_ID_XATTRS start e]
    if env.xattrs_ret < 0 then { ret := env.xattrs_ret, trees := r1.trees, ops := ops2 }
    else
      let t2 := { r1.trees with xattrs := btree_delete_range r1.trees.xattrs start e }
      let ops3 := ops2 ++ [btree_op.delete_range btree_id.BTREE_ID_DIRENTS start e]
      if env.dirents_ret < 0 then { ret := env.dirents_ret, trees := t2, ops := ops3 }
      else
        let t3 := { t2 with dirents := btree_delete_range t2.dirents start e }
        let ops4 := ops3 ++
          [btree_op.insert btree_id.BTREE_ID_INODES (delete_key inode_nr) true]
        { ret := env.insert_ret,
          trees := if env.insert_ret < 0 then t3
                   else { t3 with inodes := btree_insert_key t3.inodes (delete_key inode_nr) },
          ops := ops4 }

/-- What the cursor of `bch2_inode_find_by_inum` reports: whether the peek gave no key
(`IS_ERR_OR_NULL`), and the return value of `bch2_btree_iter_unlock`. -/
structure find_env where
  /-- the peek gave an error instead of a key -/
  peek_failed : Bool
  /-- the return value of `bch2_btree_iter_unlock` -/
  unlock_ret : Int

/-- What `bch2_inode_find_by_inum` leaves behind: its return value, the record it unpacked
into `*inode` (if it did), and the positions it peeked. -/
structure find_result where
  /-- the return value -/
  ret : Int
  /-- the unpacked inode -/
  inode : Option bch_inode_unpacked
  /-- the positions peeked -/
  peeked : List (Nat × Nat)
deriving DecidableEq

/-- The function `bch2_inode_find_by_inum(c, inode_nr, inode)` for the schema `schema`. -/
def bch2_inode_find_by_inum (schema : List (String × Nat)) (env : find_env)
    (tree : List bkey_i_inode) (inode_nr : Nat) : find_result :=
  let k := bch2_btree_iter_peek_with_holes tree inode_nr
  let body : Int × Option bch_inode_unpacked :=
    if env.peek_failed then (-ENOENT, none)
    else if k.type = BCH_INODE_FS then
      match bch2_inode_unpack schema k with
      | some u => (0, some u)
      | none => (-1, none)
    else (-ENOENT, none)
  { ret := if env.unlock_ret ≠ 0 then env.unlock_ret else body.1,
    inode := body.2,
    peeked := [POS inode_nr 0] }

/-! ## Concrete trees -/

/-- An inode key of type `BCH_INODE_FS` at `(n, 0)` with an empty tail. -/
def fs_key (n : Nat) : bkey_i_inode :=
  { p_inode := n, p_offset := 0, type := BCH_INODE_FS, val_u64s := 2,
    i_hash_seed := 0, i_flags := 0, i_mode := 0, fields := [0, 0] }

/-- The inodes tree of scenario S5 of the spec: inodes at 100 to 109. -/
def tree_100_109 : List bkey_i_inode := (List.range' 100 10).map fs_key

/-- The inodes tree with inodes at 100 to 110. -/
def tree_100_110 : List bkey_i_inode := (List.range' 100 11).map fs_key

/-- Collaborators that report no error and whose inserts succeed. -/
def quiet_env : alloc_env :=
  { inodes_32bit := false, peek_err := fun _ => 0, insert_ret := fun _ => 0 }

/-- A key of type `KEY_TYPE_DELETED` at the position `(5, 1)`. -/
def stray_key : bkey_i_inode := { hole_key 5 with p_offset := 1 }

/-- The value `sample_key` in a memory where two more bytes follow the end of the value. -/
def sample_key_longer : bkey_i_inode :=
  { sample_key with fields := sample_key.fields ++ [77, 88] }

/-- The value of `*hint` after `if (*hint >= max || *hint < min) *hint = min;`. -/
def normalised_hint (env : alloc_env) (min max hint : Nat) : Nat :=
  if hint ≥ effective_max env max ∨ hint < min then min else hint

/-- What `bch2_inode_create` leaves behind when its insert at the slot `(n, 0)` returned 0:
the key at `(n, 0)` in the tree and in `*inode`, and `*hint` one past `n`. -/
def created_at (tree : List bkey_i_inode) (inode : bkey_i_inode) (n : Nat) : create_result :=
  { ret := 0, hint := (n + 1) % 2 ^ 64,
    tree := btree_insert_key tree { inode with p_inode := n, p_offset := 0 },
    inode := { inode with p_inode := n, p_offset := 0 } }

/-- An inodes tree with inodes at 100, 101 and 103 to 110: slot 102 is free. -/
def tree_gap_102 : List bkey_i_inode :=
  ([100, 101] ++ List.range' 103 8).map fs_key

/-- Collaborators of `bch2_inode_rm` that all return 0. -/
def rm_ok : rm_env :=
  { discard_ret := 0, xattrs_ret := 0, dirents_ret := 0, insert_ret := 0 }

/-- A cursor that reports no error. -/
def find_ok : find_env := { peek_failed := false, unlock_ret := 0 }

/-- The trees of scenario S6 of the spec: inode 4097 with an extent, an xattr and a dirent,
next to keys of the inodes 4096 and 4098. -/
def trees_s6 : fs_trees :=
  { extents := [{ p_inode := 4097, p_offset := 8, type := 1 },
                { p_inode := 4098, p_offset := 0, type := 1 }],
    inodes := [fs_key 4097, fs_key 4096],
    dirents := [{ p_inode := 4096, p_offset := 77, type := 1 },
                { p_inode := 4097, p_offset := 5, type := 1 }],
    xattrs := [{ p_inode := 4097, p_offset := 0, type := 1 }] }

/-- A blockdev inode key at `(7, 0)`. -/
def blockdev_key : bkey_i_inode :=
  { p_inode := 7, p_offset := 0, type := BCH_INODE_BLOCKDEV, val_u64s := 10,
    i_hash_seed := 0, i_flags := 0, i_mode := 0, fields := [] }

/-- Collaborators of `bch2_inode_rm` whose range delete in the xattrs tree fails with -5. -/
def rm_xattrs_fail : rm_env :=
  { discard_ret := 0, xattrs_ret := -5, dirents_ret := 0, insert_ret := 0 }

/-- Trees in which the inode with the last number, `U64_MAX`, has an extent, an xattr and a
dirent. -/
def trees_last : fs_trees :=
  { extents := [{ p_inode := ULLONG_MAX, p_offset := 8, type := 1 }],
    inodes := [fs_key ULLONG_MAX],
    dirents := [{ p_inode := ULLONG_MAX, p_offset := 5, type := 1 }],
    xattrs := [{ p_inode := ULLONG_MAX, p_offset := 0, type := 1 }] }

/-- An inodes tree with one inode, at `U64_MAX - 1`. -/
def tree_before_last : List bkey_i_inode := [fs_key (ULLONG_MAX - 1)]

/-! ## Lemmas -/

theorem fls_loop_le (fuel x k : Nat) (hx : x < 2 ^ fuel) : fls_loop fuel x ≤ k ↔ x < 2 ^ k := by
  induction fuel generalizing x k with
  | zero =>
    simp only [pow_zero, Nat.lt_one_iff] at hx
    subst hx
    simp [fls_loop]
  | succ fuel ih =>
    unfold fls_loop
    by_cases h0 : x = 0
    · subst h0; simp
    · rw [if_neg h0]
      have hx2 : x / 2 < 2 ^ fuel := by
        rw [Nat.div_lt_iff_lt_mul (by norm_num)]
        rw [pow_succ] at hx; exact hx
      cases k with
      | zero => simp; omega
      | succ k =>
        rw [Nat.succ_le_succ_iff, ih (x / 2) k hx2, pow_succ,
          Nat.div_lt_iff_lt_mul (by norm_num)]

theorem fls64_le (x k : Nat) (hx : x < 2 ^ 64) : fls64 x ≤ k ↔ x < 2 ^ k :=
  fls_loop_le 64 x k hx

theorem lt_two_pow_fls64 (x : Nat) (hx : x < 2 ^ 64) : x < 2 ^ fls64 x :=
  (fls64_le x _ hx).1 le_rfl

theorem be_bytes_length (n v : Nat) : (be_bytes n v).length = n := by
  induction n generalizing v with
  | zero => rfl
  | succ n ih => simp [be_bytes, ih]

theorem be_value_foldl (xs : List Nat) (a : Nat) :
    xs.foldl (fun acc b => acc * 256 + b) a = a * 256 ^ xs.length + be_value xs := by
  induction xs generalizing a with
  | nil => simp [be_value]
  | cons x xs ih =>
    simp only [List.foldl_cons, List.length_cons, be_value]
    rw [ih, ih (0 * 256 + x)]
    ring

theorem be_value_append (xs ys : List Nat) :
    be_value (xs ++ ys) = be_value xs * 256 ^ ys.length + be_value ys := by
  unfold be_value
  rw [List.foldl_append, be_value_foldl]
  rfl

theorem be_value_be_bytes (n v : Nat) : be_value (be_bytes n v) = v % 256 ^ n := by
  induction n generalizing v with
  | zero => simp [be_bytes, be_value, Nat.mod_one]
  | succ n ih =>
    simp only [be_bytes]
    rw [be_value_append, ih]
    simp only [List.length_singleton, pow_one]
    have h1 : be_value [v % 256] = v % 256 := by simp [be_value]
    rw [h1, pow_succ, mul_comm (256 ^ n) 256, Nat.mod_mul]
    ring

theorem be_bytes_add (m n v : Nat) :
    be_bytes (m + n) v = be_bytes m (v / 256 ^ n) ++ be_bytes n v := by
  induction n generalizing v with
  | zero => simp [be_bytes]
  | succ n ih =>
    rw [← Nat.add_assoc]
    simp only [be_bytes]
    rw [ih, List.append_assoc, Nat.div_div_eq_div_mul, pow_succ, mul_comm]

theorem be_bytes_mod (n v : Nat) : be_bytes n (v % 256 ^ n) = be_bytes n v := by
  induction n generalizing v with
  | zero => rfl
  | succ n ih =>
    simp only [be_bytes]
    have h1 : v % 256 ^ (n + 1) % 256 = v % 256 := by
      rw [pow_succ]; exact Nat.mod_mul_left_mod v (256 ^ n) 256
    have h2 : v % 256 ^ (n + 1) / 256 = (v / 256) % 256 ^ n := by
      rw [pow_succ, mul_comm, Nat.mod_mul_right_div_self]
    rw [h1, h2, ih]

theorem be_bytes_zero (n : Nat) : be_bytes n 0 = List.replicate n 0 := by
  induction n with
  | zero => rfl
  | succ n ih =>
    simp only [be_bytes, Nat.zero_div, Nat.zero_mod, ih]
    exact (List.replicate_succ' n 0).symm

theorem mem_split (mem : List Nat) (off : Nat) (h : off ≤ mem.length) :
    ∃ p r, mem = p ++ r ∧ p.length = off :=
  ⟨mem.take off, mem.drop off, (List.take_append_drop off mem).symm, by simp [h]⟩

theorem memcpy_append (p r src : List Nat) :
    memcpy (p ++ r) p.length src = p ++ src ++ r.drop src.length := by
  unfold memcpy
  rw [List.drop_append]
  simp

theorem memcpy_length (mem : List Nat) (off : Nat) (src : List Nat)
    (h : off + src.length ≤ mem.length) : (memcpy mem off src).length = mem.length := by
  simp only [memcpy, List.length_append, List.length_take, List.length_drop]
  omega

theorem memcpy_drop_take (mem : List Nat) (off : Nat) (src : List Nat) (h : off ≤ mem.length) :
    ((memcpy mem off src).drop off).take src.length = src := by
  obtain ⟨p, r, rfl, rfl⟩ := mem_split mem off h
  rw [memcpy_append, List.append_assoc, List.drop_left]
  simp

theorem memcpy_getD (mem : List Nat) (off : Nat) (x : Nat) (xs : List Nat)
    (h : off ≤ mem.length) : (memcpy mem off (x :: xs)).getD off 0 = x := by
  obtain ⟨p, r, rfl, rfl⟩ := mem_split mem off h
  rw [memcpy_append, List.append_assoc, List.getD_eq_getElem?_getD,
    List.getElem?_append_right (le_refl _)]
  simp

theorem memcpy_set (mem : List Nat) (off : Nat) (x y : Nat) (xs : List Nat)
    (h : off ≤ mem.length) :
    (memcpy mem off (x :: xs)).set off y = memcpy mem off (y :: xs) := by
  obtain ⟨p, r, rfl, rfl⟩ := mem_split mem off h
  rw [memcpy_append, memcpy_append, List.append_assoc, List.set_append_right _ _ (le_refl _)]
  simp

theorem memcpy_memcpy (mem : List Nat) (off : Nat) (a b : List Nat)
    (h : off + a.length ≤ mem.length) :
    memcpy (memcpy mem off a) (off + a.length) b = memcpy mem off (a ++ b) := by
  obtain ⟨p, r, rfl, rfl⟩ := mem_split mem off (by omega)
  rw [memcpy_append, memcpy_append]
  have e : p.length + a.length = (p ++ a).length := by simp
  rw [e, memcpy_append]
  simp [List.drop_drop, Nat.add_comm]

theorem lt_two_pow_field_bits (hi lo : Nat) (hhi : hi < 2 ^ 64) (hlo : lo < 2 ^ 64) :
    hi * 2 ^ 64 + lo < 2 ^ field_bits hi lo := by
  unfold field_bits
  by_cases h : hi = 0
  · subst h; simpa using lt_two_pow_fls64 lo hlo
  · rw [if_neg h, pow_add]
    have h1 := lt_two_pow_fls64 hi hhi
    have h2 : (hi + 1) * 2 ^ 64 ≤ 2 ^ fls64 hi * 2 ^ 64 := Nat.mul_le_mul_right _ h1
    linarith

theorem be16_eq (hi lo : Nat) (hhi : hi < 2 ^ 64) (hlo : lo < 2 ^ 64) :
    cpu_to_be64 hi ++ cpu_to_be64 lo = be_bytes 16 (hi * 2 ^ 64 + lo) := by
  unfold cpu_to_be64
  rw [Nat.mod_eq_of_lt hhi, Nat.mod_eq_of_lt hlo, show (16 : Nat) = 8 + 8 from rfl,
    be_bytes_add 8 8]
  have e1 : (hi * 2 ^ 64 + lo) / 256 ^ 8 = hi := by
    norm_num at hlo ⊢; omega
  have e2 : be_bytes 8 (hi * 2 ^ 64 + lo) = be_bytes 8 lo := by
    rw [← be_bytes_mod 8 (hi * 2 ^ 64 + lo)]
    congr 1
    norm_num at hlo ⊢; omega
  rw [e1, e2]

theorem be_bytes_drop (n m v : Nat) (h : m ≤ n) :
    (be_bytes n v).drop (n - m) = be_bytes m v := by
  have e : n = (n - m) + m := by omega
  conv_lhs => rw [e, be_bytes_add]
  have hl : (be_bytes (n - m) (v / 256 ^ m)).length = n - m := be_bytes_length _ _
  have e2 : n - m + m - m = (be_bytes (n - m) (v / 256 ^ m)).length := by omega
  rw [e2, List.drop_left]

theorem be_bytes_succ (n v : Nat) :
    be_bytes (n + 1) v = (v / 256 ^ n % 256) :: be_bytes n v := by
  rw [Nat.add_comm, be_bytes_add 1 n]
  simp [be_bytes]

theorem find_shift_some (bits s : Nat) (h : find_shift bits = some s) :
    1 ≤ s ∧ s ≤ 8 ∧ bits < bits_table.getD (s - 1) 0 := by
  unfold find_shift at h
  have h1 := List.find?_some h
  have h2 := List.mem_of_find?_eq_some h
  simp only [List.mem_range'_1] at h2
  simp only [decide_eq_true_eq] at h1
  omega

theorem encode_bytes (hi lo s : Nat) (hhi : hi < 2 ^ 64) (hlo : lo < 2 ^ 64)
    (hs : find_shift (field_bits hi lo) = some s) :
    1 ≤ s ∧ s ≤ 8 ∧ 1 ≤ byte_table.getD (s - 1) 0 ∧ byte_table.getD (s - 1) 0 ≤ 13 ∧
    (hi * 2 ^ 64 + lo) / 256 ^ (byte_table.getD (s - 1) 0 - 1) < marker s ∧
    hi * 2 ^ 64 + lo < 256 ^ byte_table.getD (s - 1) 0 ∧
    (cpu_to_be64 hi ++ cpu_to_be64 lo).drop (16 - byte_table.getD (s - 1) 0) =
      ((hi * 2 ^ 64 + lo) / 256 ^ (byte_table.getD (s - 1) 0 - 1)) ::
        be_bytes (byte_table.getD (s - 1) 0 - 1) (hi * 2 ^ 64 + lo) := by
  obtain ⟨h1, h8, hb⟩ := find_shift_some _ _ hs
  have hv := lt_two_pow_field_bits hi lo hhi hlo
  rw [be16_eq hi lo hhi hlo]
  generalize hi * 2 ^ 64 + lo = v at hv ⊢
  generalize field_bits hi lo = bits at hv hb
  have key : ∀ L c : Nat, 1 ≤ L → L ≤ 13 → bits < c → c + s = 8 * L → marker s = 2 ^ (8 - s) →
      1 ≤ L ∧ L ≤ 13 ∧ v / 256 ^ (L - 1) < marker s ∧ v < 256 ^ L ∧
      (be_bytes 16 v).drop (16 - L) = (v / 256 ^ (L - 1)) :: be_bytes (L - 1) v := by
    intro L c hL1 hL13 hbc hcs hm
    have hvc : v < 2 ^ c := lt_of_lt_of_le hv (Nat.pow_le_pow_right (by norm_num) hbc.le)
    have e256 : ∀ k : Nat, (256 : Nat) ^ k = 2 ^ (8 * k) := by
      intro k; rw [pow_mul]; norm_num
    have hd : v / 256 ^ (L - 1) < 2 ^ (8 - s) := by
      rw [Nat.div_lt_iff_lt_mul (by positivity), e256, ← pow_add]
      refine lt_of_lt_of_le hvc (Nat.pow_le_pow_right (by norm_num) ?_)
      omega
    have hvL : v < 256 ^ L := by
      rw [e256]
      exact lt_of_lt_of_le hvc (Nat.pow_le_pow_right (by norm_num) (by omega))
    refine ⟨hL1, hL13, hm ▸ hd, hvL, ?_⟩
    rw [be_bytes_drop 16 L v (by omega)]
    obtain ⟨L', rfl⟩ : ∃ L', L = L' + 1 := ⟨L - 1, by omega⟩
    rw [be_bytes_succ]
    simp only [Nat.add_sub_cancel]
    have hlt : v / 256 ^ L' < 256 := by
      refine lt_of_lt_of_le hd ?_
      calc 2 ^ (8 - s) ≤ 2 ^ 8 := Nat.pow_le_pow_right (by norm_num) (by omega)
        _ = 256 := by norm_num
    rw [Nat.mod_eq_of_lt hlt]
  refine ⟨h1, h8, ?_⟩
  interval_cases s
  · exact key 1 7 (by norm_num) (by norm_num) hb rfl rfl
  · exact key 2 14 (by norm_num) (by norm_num) hb rfl rfl
  · exact key 3 21 (by norm_num) (by norm_num) hb rfl rfl
  · exact key 4 28 (by norm_num) (by norm_num) hb rfl rfl
  · exact key 6 43 (by norm_num) (by norm_num) hb rfl rfl
  · exact key 8 58 (by norm_num) (by norm_num) hb rfl rfl
  · exact key 10 73 (by norm_num) (by norm_num) hb rfl rfl
  · exact key 13 96 (by norm_num) (by norm_num) hb rfl rfl

set_option maxRecDepth 1000000 in
theorem find_shift_spec : ∀ bits, bits < 96 →
    ∃ s, find_shift bits = some s ∧ 1 ≤ s ∧ s ≤ 8 ∧ bits < bits_table.getD (s - 1) 0 ∧
      ∀ t, t < s → 1 ≤ t → ¬ bits < bits_table.getD (t - 1) 0 := by
  intro bits h
  interval_cases bits <;> exact ⟨_, rfl, by decide, by decide, by decide, by decide⟩

set_option maxRecDepth 1000000 in
theorem marker_facts : ∀ s, s < 9 → ∀ d, d < 256 → 1 ≤ s → d < marker s →
    (d ||| marker s) % 256 = d + marker s ∧ __fls (d + marker s) = 8 - s ∧
    ((d + marker s) ^^^ marker s) % 256 = d := by
  decide

theorem marker_le (s : Nat) : marker s ≤ 256 := by
  unfold marker
  rw [Nat.shiftRight_eq_div_pow]
  exact Nat.div_le_self _ _

theorem encode_run (mem : List Nat) (out e hi lo s : Nat) (hhi : hi < 2 ^ 64)
    (hlo : lo < 2 ^ 64) (hs : find_shift (field_bits hi lo) = some s)
    (hout : out ≤ mem.length) :
    inode_encode_field mem out e hi lo =
      if out + byte_table.getD (s - 1) 0 > e then none
      else some (memcpy mem out
        (((hi * 2 ^ 64 + lo) / 256 ^ (byte_table.getD (s - 1) 0 - 1) + marker s) ::
          be_bytes (byte_table.getD (s - 1) 0 - 1) (hi * 2 ^ 64 + lo)),
        byte_table.getD (s - 1) 0) := by
  obtain ⟨h1, h8, hL1, hL13, hd, hv, hdrop⟩ := encode_bytes hi lo s hhi hlo hs
  unfold inode_encode_field
  simp only [hs]
  split
  · rfl
  · rw [hdrop, memcpy_getD _ _ _ _ hout, memcpy_set _ _ _ _ _ hout]
    have hm := marker_facts s (by omega) _ (lt_of_lt_of_le hd (marker_le s)) h1 hd
    rw [hm.1]

theorem encoded_field_eq (hi lo s : Nat) (hhi : hi < 2 ^ 64)
    (hlo : lo < 2 ^ 64) (hs : find_shift (field_bits hi lo) = some s) :
    encoded_field hi lo =
      ((hi * 2 ^ 64 + lo) / 256 ^ (byte_table.getD (s - 1) 0 - 1) + marker s) ::
          be_bytes (byte_table.getD (s - 1) 0 - 1) (hi * 2 ^ 64 + lo) := by
  obtain ⟨h1, h8, hL1, hL13, hd, hv, hdrop⟩ := encode_bytes hi lo s hhi hlo hs
  unfold encoded_field
  rw [encode_run _ 0 13 hi lo s hhi hlo hs (Nat.zero_le _), if_neg (by omega)]
  simp only
  have hlen : (((hi * 2 ^ 64 + lo) / 256 ^ (byte_table.getD (s - 1) 0 - 1) + marker s) ::
      be_bytes (byte_table.getD (s - 1) 0 - 1) (hi * 2 ^ 64 + lo)).length =
      byte_table.getD (s - 1) 0 := by
    rw [List.length_cons, be_bytes_length]; omega
  have h := memcpy_drop_take (List.replicate 13 0) 0
    (((hi * 2 ^ 64 + lo) / 256 ^ (byte_table.getD (s - 1) 0 - 1) + marker s) ::
      be_bytes (byte_table.getD (s - 1) 0 - 1) (hi * 2 ^ 64 + lo)) (Nat.zero_le _)
  rw [hlen, List.drop_zero] at h
  exact h

theorem encoded_field_length (hi lo s : Nat) (hhi : hi < 2 ^ 64)
    (hlo : lo < 2 ^ 64) (hs : find_shift (field_bits hi lo) = some s) :
    (encoded_field hi lo).length = byte_table.getD (s - 1) 0 := by
  obtain ⟨h1, h8, hL1, hL13, hd, hv, hdrop⟩ := encode_bytes hi lo s hhi hlo hs
  rw [encoded_field_eq hi lo s hhi hlo hs, List.length_cons, be_bytes_length]; omega

/-- The encoder on any memory: it writes `encoded_field hi lo` at `out`. -/
theorem encode_eq (mem : List Nat) (out e hi lo : Nat) (hhi : hi < 2 ^ 64)
    (hlo : lo < 2 ^ 64) (hbits : field_bits hi lo < 96)
    (hout : out ≤ mem.length) (hroom : out + (encoded_field hi lo).length ≤ e) :
    inode_encode_field mem out e hi lo =
      some (memcpy mem out (encoded_field hi lo), (encoded_field hi lo).length) := by
  obtain ⟨s, hs, -⟩ := find_shift_spec _ hbits
  rw [encoded_field_length hi lo s hhi hlo hs] at hroom
  rw [encode_run mem out e hi lo s hhi hlo hs hout, if_neg (by omega),
    encoded_field_length hi lo s hhi hlo hs, encoded_field_eq hi lo s hhi hlo hs]

theorem getD_of_drop_eq (mem : List Nat) (i x : Nat) (xs : List Nat)
    (h : mem.drop i = x :: xs) : mem.getD i 0 = x := by
  have h1 : (mem.drop i).getD 0 0 = x := by rw [h]; rfl
  rw [List.getD_eq_getElem?_getD, List.getElem?_drop] at h1
  rw [List.getD_eq_getElem?_getD]
  simpa using h1

theorem be16_of_lt (L v : Nat) (hL : L ≤ 16) (hv : v < 256 ^ L) :
    List.replicate (16 - L) 0 ++ be_bytes L v = be_bytes 16 v := by
  have e : 16 = (16 - L) + L := by omega
  conv_rhs => rw [e, be_bytes_add, Nat.div_eq_of_lt hv, be_bytes_zero]

theorem decode_bytes (L s d v : Nat) (h1 : 1 ≤ L) (hL : L ≤ 13)
    (hv : v < 256 ^ L) (hd : d = v / 256 ^ (L - 1)) :
    (memcpy (List.replicate 16 0) (16 - L) ((d + marker s) :: be_bytes (L - 1) v)).set
        (16 - L) d = be_bytes 16 v := by
  have hz : List.replicate 16 0 = List.replicate (16 - L) 0 ++ List.replicate L (0 : Nat) := by
    rw [List.append_replicate_replicate]; congr 1; omega
  have hl : (List.replicate (16 - L) (0 : Nat)).length = 16 - L := by simp
  rw [memcpy_set _ _ _ _ _ (by simp)]
  rw [hz]
  have hcp : ∀ src : List Nat, memcpy (List.replicate (16 - L) 0 ++ List.replicate L (0 : Nat))
      (16 - L) src = List.replicate (16 - L) 0 ++ src ++ (List.replicate L (0 : Nat)).drop
        src.length := by
    intro src
    have := memcpy_append (List.replicate (16 - L) 0) (List.replicate L (0 : Nat)) src
    rwa [hl] at this
  rw [hcp]
  rw [List.drop_of_length_le (by simp [be_bytes_length]; omega), List.append_nil,
    ← be16_of_lt L v (by omega) hv]
  congr 1
  obtain ⟨L', rfl⟩ : ∃ L', L = L' + 1 := ⟨L - 1, by omega⟩
  rw [be_bytes_succ, hd]
  simp only [Nat.add_sub_cancel]
  congr 1
  refine (Nat.mod_eq_of_lt ?_).symm
  rw [Nat.div_lt_iff_lt_mul (by positivity), ← pow_succ']
  exact hv

theorem be16_take (v : Nat) : be_value ((be_bytes 16 v).take 8) = v / 2 ^ 64 % 2 ^ 64 := by
  have e : be_bytes 16 v = be_bytes 8 (v / 256 ^ 8) ++ be_bytes 8 v := be_bytes_add 8 8 v
  rw [e, List.take_left' (be_bytes_length _ _), be_value_be_bytes]
  norm_num

theorem be16_drop (v : Nat) : be_value ((be_bytes 16 v).drop 8) = v % 2 ^ 64 := by
  have e : be_bytes 16 v = be_bytes 8 (v / 256 ^ 8) ++ be_bytes 8 v := be_bytes_add 8 8 v
  rw [e, List.drop_left' (be_bytes_length _ _), be_value_be_bytes]
  norm_num

/-- The decoder on memory that holds `encoded_field hi lo` at `in`. -/
theorem decode_encoded (mem : List Nat) (i e hi lo : Nat) (t : List Nat)
    (hhi : hi < 2 ^ 64) (hlo : lo < 2 ^ 64) (hbits : field_bits hi lo < 96)
    (hmem : mem.drop i = encoded_field hi lo ++ t)
    (hroom : i + (encoded_field hi lo).length ≤ e) :
    inode_decode_field mem i e =
      some { ret := (encoded_field hi lo).length, hi := hi, lo := lo,
             out_bits := field_bits hi lo } := by
  obtain ⟨s, hs, -⟩ := find_shift_spec _ hbits
  obtain ⟨h1, h8, hL1, hL13, hd, hv, -⟩ := encode_bytes hi lo s hhi hlo hs
  have hlen := encoded_field_length hi lo s hhi hlo hs
  have henc := encoded_field_eq hi lo s hhi hlo hs
  rw [hlen] at hroom ⊢
  generalize hLdef : byte_table.getD (s - 1) 0 = L at *
  generalize hvdef : hi * 2 ^ 64 + lo = v at *
  have hm := marker_facts s (by omega) _ (lt_of_lt_of_le hd (marker_le s)) h1 hd
  have hb : mem.getD i 0 = v / 256 ^ (L - 1) + marker s :=
    getD_of_drop_eq mem i _ _ (by rw [hmem, henc]; rfl)
  have hshift : 8 - __fls (mem.getD i 0) = s := by rw [hb, hm.2.1]; omega
  have htake : (mem.drop i).take L = encoded_field hi lo := by
    rw [hmem, ← hlen, List.take_left]
  unfold inode_decode_field
  rw [if_neg (by omega), if_neg (by rw [hb]; omega)]
  simp only [hshift, hLdef]
  rw [if_neg (by omega), htake, henc, memcpy_getD _ _ _ _ (by simp), hm.2.2,
    decode_bytes L s _ v hL1 hL13 hv rfl]
  simp only [be64_to_cpu, be16_take, be16_drop]
  have ehi : v / 2 ^ 64 % 2 ^ 64 = hi := by
    rw [← hvdef]; norm_num at hhi hlo ⊢; omega
  have elo : v % 2 ^ 64 = lo := by
    rw [← hvdef]; norm_num at hhi hlo ⊢; omega
  rw [ehi, elo]
  unfold field_bits
  by_cases h0 : hi = 0
  · simp [h0]
  · simp [h0, Nat.add_comm]

theorem field_bits_zero_hi (v : Nat) (hv : v < 2 ^ 64) : field_bits 0 v < 96 := by
  unfold field_bits
  simp only [if_true]
  have := (fls64_le v 64 hv).2 hv
  omega

theorem memcpy_nil (mem : List Nat) : memcpy mem 0 [] = mem := by
  simp [memcpy]

theorem last_nonzero_le (u : bch_inode_unpacked) (n : Nat) : last_nonzero u n ≤ n := by
  induction n with
  | zero => simp [last_nonzero]
  | succ n ih =>
    unfold last_nonzero
    split <;> omega

theorem encoded_fields_initial (u : bch_inode_unpacked) (n m : Nat) (h : n ≤ m) :
    ∃ t, encoded_fields u m = encoded_fields u n ++ t := by
  induction m with
  | zero =>
    have : n = 0 := by omega
    subst this
    exact ⟨[], by simp⟩
  | succ m ih =>
    rcases Nat.lt_or_ge n (m + 1) with h1 | h1
    · obtain ⟨t, ht⟩ := ih (by omega)
      exact ⟨t ++ encoded_field 0 (u.field m), by simp [encoded_fields, ht]⟩
    · have : n = m + 1 := by omega
      subst this
      exact ⟨[], by simp⟩

theorem encoded_fields_length_mono (u : bch_inode_unpacked) (n m : Nat) (h : n ≤ m) :
    (encoded_fields u n).length ≤ (encoded_fields u m).length := by
  obtain ⟨t, ht⟩ := encoded_fields_initial u n m h
  rw [ht, List.length_append]
  omega

theorem pack_field_step (u : bch_inode_unpacked) (buf : List Nat) (n : Nat)
    (hw : u.field n < 2 ^ 64)
    (hroom : (encoded_fields u (n + 1)).length ≤ buf.length) :
    pack_field buf.length (pack_state_after u buf n) (u.field n) =
      some (pack_state_after u buf (n + 1)) := by
  have hlen : (encoded_fields u (n + 1)).length =
      (encoded_fields u n).length + (encoded_field 0 (u.field n)).length := by
    simp [encoded_fields]
  have hml : (memcpy buf 0 (encoded_fields u n)).length = buf.length :=
    memcpy_length _ _ _ (by omega)
  unfold pack_field pack_state_after
  simp only
  rw [encode_eq _ _ _ 0 (u.field n) (by norm_num) hw (field_bits_zero_hi _ hw)
    (by rw [hml]; omega) (by omega)]
  simp only
  have hmm := memcpy_memcpy buf 0 (encoded_fields u n) (encoded_field 0 (u.field n))
    (by omega)
  rw [Nat.zero_add] at hmm
  rw [hmm]
  by_cases hz : u.field n = 0
  · simp [hz, last_nonzero, encoded_fields]
  · simp [hz, last_nonzero, encoded_fields]

theorem pack_fields_run (u : bch_inode_unpacked) (buf : List Nat) :
    ∀ (rest : List (String × Nat)) (i : Nat),
      (∀ j, j < i + rest.length → u.field j < 2 ^ 64) →
      (encoded_fields u (i + rest.length)).length ≤ buf.length →
      pack_fields u buf.length rest i (pack_state_after u buf i) =
        some (pack_state_after u buf (i + rest.length)) := by
  intro rest
  induction rest with
  | nil => intro i _ _; simp [pack_fields]
  | cons f rest ih =>
    intro i hw hroom
    simp only [List.length_cons] at hw hroom
    unfold pack_fields
    rw [pack_field_step u buf i (hw i (by omega))
      (le_trans (encoded_fields_length_mono u _ _ (by omega)) hroom)]
    simp only
    have := ih (i + 1) (fun j hj => hw j (by omega))
      (by rw [show i + 1 + rest.length = i + (rest.length + 1) by omega]; exact hroom)
    rw [this]
    simp only [List.length_cons]
    congr 2
    omega

theorem pack_eq (S : List (String × Nat)) (buf : List Nat) (u : bch_inode_unpacked)
    (hw : ∀ j, j < S.length → u.field j < 2 ^ 64)
    (hroom : pack_fits S buf u) :
    bch2_inode_pack S buf u =
      some { p_inode := u.inum, p_offset := 0, type := BCH_INODE_FS,
             val_u64s := ((encoded_fields u (last_nonzero u S.length)).length + 14 + 7) / 8,
             i_hash_seed := u.i_hash_seed,
             i_flags := u.i_flags % 2 ^ 24 + (last_nonzero u S.length % 2 ^ 8) * 2 ^ 24,
             i_mode := u.i_mode,
             fields := memset0 (memcpy buf 0 (encoded_fields u S.length))
               (encoded_fields u (last_nonzero u S.length)).length
               (((encoded_fields u (last_nonzero u S.length)).length + 14 + 7) / 8 * 8 - 14 -
                 (encoded_fields u (last_nonzero u S.length)).length) } := by
  obtain ⟨hroom1, hroom2⟩ := hroom
  simp only [INODE_HEADER_BYTES] at hroom2
  have hrun := pack_fields_run u buf S 0 (by simpa using hw) (by simpa using hroom1)
  have h0 : pack_state_after u buf 0 =
      { mem := buf, out := 0, nr_fields := 0, last_nonzero_field := 0,
        last_nonzero_fieldnr := 0 } := by
    simp [pack_state_after, encoded_fields, last_nonzero, memcpy_nil]
  rw [h0, Nat.zero_add] at hrun
  unfold bch2_inode_pack
  simp only [hrun]
  simp only [pack_state_after, set_bkey_val_bytes, bkey_val_bytes, bkey_inode_init,
    INODE_HEADER_BYTES, SET_INODE_NR_FIELDS]
  rw [if_neg (by omega)]

theorem memcpy_zero (mem src : List Nat) : memcpy mem 0 src = src ++ mem.drop src.length := by
  simp [memcpy]

/-- The memory of a packed key: the encodings up to the last nonzero member, the zero
padding, and whatever follows the value in the buffer. -/
theorem packed_fields_eq (buf : List Nat) (u : bch_inode_unpacked) (n nr pad : Nat)
    (hnr : nr ≤ n) :
    ∃ junk, memset0 (memcpy buf 0 (encoded_fields u n)) (encoded_fields u nr).length pad =
      encoded_fields u nr ++ List.replicate pad 0 ++ junk := by
  obtain ⟨t, ht⟩ := encoded_fields_initial u nr n hnr
  refine ⟨(memcpy buf 0 (encoded_fields u n)).drop ((encoded_fields u nr).length + pad), ?_⟩
  unfold memset0
  congr 2
  rw [memcpy_zero, ht, List.append_assoc, List.take_left]

theorem drop_succ_of_drop_eq (l : List Nat) (i x : Nat) (xs : List Nat)
    (h : l.drop i = x :: xs) : l.drop (i + 1) = xs := by
  have : l.drop (i + 1) = (l.drop i).drop 1 := by
    rw [List.drop_drop, Nat.add_comm]
  rw [this, h]
  rfl

theorem field_of_drop_eq (u : bch_inode_unpacked) (i x : Nat) (xs : List Nat)
    (h : u.fields.drop i = x :: xs) : u.field i = x :=
  getD_of_drop_eq u.fields i x xs h

theorem encoded_fields_drop (u : bch_inode_unpacked) (i nr : Nat) (h : i < nr)
    (t : List Nat) :
    ∃ t1, (encoded_fields u nr ++ t).drop (encoded_fields u i).length =
      encoded_field 0 (u.field i) ++ t1 := by
  obtain ⟨t0, ht0⟩ := encoded_fields_initial u (i + 1) nr (by omega)
  refine ⟨t0 ++ t, ?_⟩
  rw [ht0]
  simp only [encoded_fields, List.append_assoc]
  rw [List.drop_left]

theorem unpack_fields_packed (u : bch_inode_unpacked) (mem : List Nat) (e nr : Nat)
    (t : List Nat) (hmem : mem = encoded_fields u nr ++ t)
    (hend : (encoded_fields u nr).length ≤ e)
    (hzero : ∀ j, nr ≤ j → u.field j = 0) :
    ∀ (rest : List (String × Nat)) (vs : List Nat) (i : Nat),
      List.Forall₂ (fun v f => v < 2 ^ f.2 ∧ f.2 ≤ 64) vs rest →
      u.fields.drop i = vs → i ≤ nr →
      unpack_fields mem e nr rest (encoded_fields u i).length i = some vs := by
  intro rest
  induction rest with
  | nil =>
    intro vs i hf _ _
    cases hf
    simp [unpack_fields]
  | cons f rest ih =>
    intro vs i hf hdrop hi
    obtain ⟨name, bits⟩ := f
    cases hf with
    | cons hv hrest =>
      rename_i v vs1
      have hlen : vs1.length = rest.length := hrest.length_eq
      have hvi : u.field i = v := field_of_drop_eq u i v vs1 hdrop
      have hdrop1 : u.fields.drop (i + 1) = vs1 := drop_succ_of_drop_eq _ i v vs1 hdrop
      unfold unpack_fields
      by_cases hnr : i = nr
      · rw [if_pos hnr]
        congr 1
        symm
        rw [List.eq_replicate_iff]
        refine ⟨by simp [hlen], ?_⟩
        intro b hb
        rw [← hdrop] at hb
        obtain ⟨j, hj, rfl⟩ := List.mem_iff_getElem.1 hb
        have := hzero (i + j) (by omega)
        unfold bch_inode_unpacked.field at this
        rw [List.getD_eq_getElem?_getD, List.getElem?_eq_getElem (by simp at hj; omega)] at this
        simpa using this
      · rw [if_neg hnr]
        have hv64 : v < 2 ^ 64 :=
          lt_of_lt_of_le hv.1 (Nat.pow_le_pow_right (by norm_num) hv.2)
        obtain ⟨t1, ht1⟩ := encoded_fields_drop u i nr (by omega) t
        have hroom : (encoded_fields u i).length + (encoded_field 0 (u.field i)).length ≤ e := by
          have := encoded_fields_length_mono u (i + 1) nr (by omega)
          simp only [encoded_fields, List.length_append] at this
          omega
        rw [hvi] at ht1 hroom
        rw [decode_encoded mem _ e 0 v t1 (by norm_num) hv64 (field_bits_zero_hi v hv64)
          (by rw [hmem]; exact ht1) hroom]
        simp only
        have hbits : ¬ field_bits 0 v > bits := by
          unfold field_bits
          simp only [if_true, not_lt]
          exact (fls64_le v bits hv64).2 hv.1
        rw [if_neg hbits]
        have hnext : (encoded_fields u i).length + (encoded_field 0 v).length =
            (encoded_fields u (i + 1)).length := by
          simp [encoded_fields, hvi]
        rw [hnext, ih vs1 (i + 1) hrest hdrop1 (by omega), Nat.mod_eq_of_lt hv.1]

theorem byte_table_pos (i : Nat) : 1 ≤ byte_table.getD i 0 ∨ 7 < i := by
  rcases Nat.lt_or_ge 7 i with h | h
  · exact Or.inr h
  · left; interval_cases i <;> decide

theorem byte_table_le (i : Nat) : byte_table.getD i 0 ≤ 13 := by
  rcases Nat.lt_or_ge 7 i with h | h
  · have : byte_table.getD i 0 = 0 := by
      rw [List.getD_eq_getElem?_getD, List.getElem?_eq_none (by simp [byte_table]; omega)]
      rfl
    omega
  · interval_cases i <;> decide

/-- What a successful call of the decoder tells about its input. -/
theorem decode_some (mem : List Nat) (i e : Nat) (d : decoded)
    (h : inode_decode_field mem i e = some d) :
    i < e ∧ mem.getD i 0 ≠ 0 ∧
    d.ret = byte_table.getD ((8 - __fls (mem.getD i 0)) - 1) 0 ∧ i + d.ret ≤ e ∧
    1 ≤ d.ret ∧ d.ret ≤ 13 := by
  unfold inode_decode_field at h
  by_cases h1 : i ≥ e
  · rw [if_pos h1] at h; cases h
  · rw [if_neg h1] at h
    by_cases h2 : mem.getD i 0 = 0
    · rw [if_pos h2] at h; cases h
    · rw [if_neg h2] at h
      dsimp only at h
      by_cases h3 : i + byte_table.getD ((8 - __fls (mem.getD i 0)) - 1) 0 > e
      · rw [if_pos h3] at h; cases h
      · rw [if_neg h3] at h
        simp only [Option.some.injEq] at h
        subst h
        simp only
        refine ⟨by omega, h2, trivial, by omega, ?_, byte_table_le _⟩
        rcases byte_table_pos ((8 - __fls (mem.getD i 0)) - 1) with h4 | h4
        · exact h4
        · omega

theorem be_value_lt (bs : List Nat) (h : ∀ b ∈ bs, b < 256) : be_value bs < 256 ^ bs.length := by
  induction bs using List.reverseRecOn with
  | nil => simp [be_value]
  | append_singleton bs b ih =>
    rw [be_value_append]
    have h1 := ih (fun x hx => h x (by simp [hx]))
    have h2 : b < 256 := h b (by simp)
    have h3 : be_value [b] = b := by simp [be_value]
    simp only [List.length_append, List.length_singleton, pow_succ, pow_one, h3]
    have : (be_value bs + 1) * 256 ≤ 256 ^ bs.length * 256 := Nat.mul_le_mul_right _ h1
    linarith

theorem field_bits_le (hi lo k : Nat) (hhi : hi < 2 ^ 64) (hlo : lo < 2 ^ 64) :
    field_bits hi lo ≤ k ↔ hi * 2 ^ 64 + lo < 2 ^ k := by
  unfold field_bits
  by_cases h0 : hi = 0
  · subst h0
    simpa using fls64_le lo k hlo
  · rw [if_neg h0]
    constructor
    · intro h
      have hk : k = (k - 64) + 64 := by omega
      have h1 : hi < 2 ^ (k - 64) := (fls64_le hi (k - 64) hhi).1 (by omega)
      rw [hk, pow_add]
      have : (hi + 1) * 2 ^ 64 ≤ 2 ^ (k - 64) * 2 ^ 64 := Nat.mul_le_mul_right _ h1
      linarith
    · intro h
      have hk64 : 64 < k := by
        by_contra hc
        have : (2 : Nat) ^ k ≤ 2 ^ 64 := Nat.pow_le_pow_right (by norm_num) (by omega)
        have : 1 * 2 ^ 64 ≤ hi * 2 ^ 64 := Nat.mul_le_mul_right _ (by omega)
        omega
      have hk : k = (k - 64) + 64 := by omega
      rw [hk, pow_add] at h
      have h1 : hi < 2 ^ (k - 64) := by
        by_contra hc
        have : 2 ^ (k - 64) * 2 ^ 64 ≤ hi * 2 ^ 64 := Nat.mul_le_mul_right _ (by omega)
        omega
      have := (fls64_le hi (k - 64) hhi).2 h1
      omega

theorem be_halves_lt (l : List Nat) (hl : l.length = 16) (hb : ∀ b ∈ l, b < 256) :
    be_value (l.take 8) < 2 ^ 64 ∧ be_value (l.drop 8) < 2 ^ 64 := by
  have h1 := be_value_lt (l.take 8) (fun b hb1 => hb b (List.mem_of_mem_take hb1))
  have h2 := be_value_lt (l.drop 8) (fun b hb1 => hb b (List.mem_of_mem_drop hb1))
  have e1 : (l.take 8).length = 8 := by simp [hl]
  have e2 : (l.drop 8).length = 8 := by simp [hl]
  rw [e1] at h1
  rw [e2] at h2
  norm_num at h1 h2 ⊢
  exact ⟨h1, h2⟩

theorem memcpy_bytes (mem src : List Nat) (off : Nat) (hm : ∀ b ∈ mem, b < 256)
    (hs : ∀ b ∈ src, b < 256) : ∀ b ∈ memcpy mem off src, b < 256 := by
  intro b hb
  unfold memcpy at hb
  simp only [List.mem_append] at hb
  rcases hb with (hb | hb) | hb
  · exact hm b (List.mem_of_mem_take hb)
  · exact hs b hb
  · exact hm b (List.mem_of_mem_drop hb)

/-- On memory made of bytes the decoder outputs two 64-bit words and their bit length. -/
theorem decode_bounds (mem : List Nat) (i e : Nat) (d : decoded)
    (hmem : ∀ b ∈ mem, b < 256)
    (h : inode_decode_field mem i e = some d) :
    d.hi < 2 ^ 64 ∧ d.lo < 2 ^ 64 ∧ d.out_bits = field_bits d.hi d.lo := by
  unfold inode_decode_field at h
  by_cases h1 : i ≥ e
  · rw [if_pos h1] at h; cases h
  · rw [if_neg h1] at h
    by_cases h2 : mem.getD i 0 = 0
    · rw [if_pos h2] at h; cases h
    · rw [if_neg h2] at h
      dsimp only at h
      by_cases h3 : i + byte_table.getD ((8 - __fls (mem.getD i 0)) - 1) 0 > e
      · rw [if_pos h3] at h; cases h
      · rw [if_neg h3] at h
        simp only [Option.some.injEq] at h
        subst h
        simp only [be64_to_cpu]
        generalize hL : byte_table.getD ((8 - __fls (mem.getD i 0)) - 1) 0 = L
        have hL13 : L ≤ 13 := hL ▸ byte_table_le _
        generalize hsrc : List.take L (List.drop i mem) = src
        have hsl : src.length ≤ L := by rw [← hsrc]; simp
        have hsb : ∀ b ∈ src, b < 256 := by
          intro b hb
          rw [← hsrc] at hb
          exact hmem b (List.mem_of_mem_drop (List.mem_of_mem_take hb))
        have hz : ∀ b ∈ List.replicate 16 (0 : Nat), b < 256 := by
          intro b hb
          rw [List.eq_of_mem_replicate hb]; norm_num
        have hcl : (memcpy (List.replicate 16 0) (16 - L) src).length = 16 := by
          rw [memcpy_length _ _ _ (by simp; omega)]; simp
        have hcb := memcpy_bytes (List.replicate 16 0) src (16 - L) hz hsb
        generalize memcpy (List.replicate 16 0) (16 - L) src = be1 at hcl hcb
        generalize hx : (be1.getD (16 - L) 0 ^^^ marker (8 - __fls (mem.getD i 0))) % 256 = x
        have hx256 : x < 256 := by rw [← hx]; exact Nat.mod_lt _ (by norm_num)
        have hsetl : (be1.set (16 - L) x).length = 16 := by simp [hcl]
        have hsetb : ∀ b ∈ be1.set (16 - L) x, b < 256 := by
          intro b hb
          rcases List.mem_or_eq_of_mem_set hb with hb1 | hb1
          · exact hcb b hb1
          · rw [hb1]; exact hx256
        obtain ⟨g1, g2⟩ := be_halves_lt _ hsetl hsetb
        refine ⟨g1, g2, ?_⟩
        unfold field_bits
        by_cases h0 : be_value (List.take 8 (be1.set (16 - L) x)) = 0
        · simp [h0]
        · simp [h0, Nat.add_comm]

theorem getD_of_take_eq (m1 m2 : List Nat) (m i : Nat) (h : m1.take m = m2.take m)
    (hi : i < m) : m1.getD i 0 = m2.getD i 0 := by
  have h1 : (m1.take m)[i]? = (m2.take m)[i]? := by rw [h]
  rw [List.getElem?_take_of_lt hi, List.getElem?_take_of_lt hi] at h1
  simp [List.getD_eq_getElem?_getD, h1]

theorem take_drop_of_take_eq (m1 m2 : List Nat) (m i n : Nat) (h : m1.take m = m2.take m)
    (hi : i + n ≤ m) : (m1.drop i).take n = (m2.drop i).take n := by
  have e : ∀ l : List Nat, (l.drop i).take n = ((l.take m).drop i).take n := by
    intro l
    rw [List.drop_take, List.take_take, Nat.min_eq_left (by omega)]
  rw [e m1, e m2, h]

/-- The decoder reads nothing outside the bytes from `in` to `in + ret`. -/
theorem decode_congr (m1 m2 : List Nat) (m i e : Nat) (d : decoded)
    (h : inode_decode_field m1 i e = some d) (hm : m1.take m = m2.take m)
    (hle : i + d.ret ≤ m) : inode_decode_field m2 i e = some d := by
  obtain ⟨h1, h2, h3, h4, h5, -⟩ := decode_some m1 i e d h
  have hb : m2.getD i 0 = m1.getD i 0 := (getD_of_take_eq m1 m2 m i hm (by omega)).symm
  have ht : (m2.drop i).take d.ret = (m1.drop i).take d.ret :=
    (take_drop_of_take_eq m1 m2 m i d.ret hm hle).symm
  rw [← h]
  rw [h3] at ht
  unfold inode_decode_field
  rw [hb]
  simp only [ht]

/-- The unpacking loop in terms of the successive decodes. -/
theorem unpack_fields_spec (mem : List Nat) (e nr : Nat) :
    ∀ (S : List (String × Nat)) (i fieldnr : Nat), fieldnr ≤ nr →
    unpack_fields mem e nr S i fieldnr =
      if (decode_run mem e (min (nr - fieldnr) S.length) i).length =
            min (nr - fieldnr) S.length ∧
          ∀ p ∈ (decode_run mem e (min (nr - fieldnr) S.length) i).zip S,
            p.1.out_bits ≤ p.2.2
      then some (((decode_run mem e (min (nr - fieldnr) S.length) i).zip S).map
              (fun p => p.1.lo % 2 ^ p.2.2) ++
            List.replicate (S.length - min (nr - fieldnr) S.length) 0)
      else none := by
  intro S
  induction S with
  | nil =>
    intro i fieldnr _
    simp [unpack_fields, decode_run]
  | cons f rest ih =>
    intro i fieldnr hle
    obtain ⟨name, bits⟩ := f
    unfold unpack_fields
    by_cases hnr : fieldnr = nr
    · subst hnr
      simp [decode_run]
    · rw [if_neg hnr]
      have hk : min (nr - fieldnr) (List.length ((name, bits) :: rest)) =
          min (nr - (fieldnr + 1)) rest.length + 1 := by
        simp only [List.length_cons]; omega
      rw [hk]
      simp only [decode_run]
      cases hdec : inode_decode_field mem i e with
      | none => simp
      | some d =>
        simp only
        by_cases hb : d.out_bits > bits
        · rw [if_pos hb, if_neg]
          simp only [List.zip_cons_cons, List.mem_cons, forall_eq_or_imp, not_and]
          intro _ h
          omega
        · rw [if_neg hb, ih (i + d.ret) (fieldnr + 1) (by omega)]
          have hbl : d.out_bits ≤ bits := by omega
          by_cases hc : (decode_run mem e (min (nr - (fieldnr + 1)) rest.length)
              (i + d.ret)).length = min (nr - (fieldnr + 1)) rest.length ∧
              ∀ p ∈ (decode_run mem e (min (nr - (fieldnr + 1)) rest.length)
                (i + d.ret)).zip rest, p.1.out_bits ≤ p.2.2
          · rw [if_pos hc, if_pos]
            · simp only [List.zip_cons_cons, List.map_cons, List.cons_append, List.length_cons]
              congr 2
              rw [Nat.add_sub_add_right]
            · refine ⟨by simp [hc.1], ?_⟩
              simp only [List.zip_cons_cons, List.mem_cons, forall_eq_or_imp]
              exact ⟨hbl, hc.2⟩
          · rw [if_neg hc, if_neg]
            intro hcon
            apply hc
            refine ⟨by simpa using hcon.1, ?_⟩
            have := hcon.2
            simp only [List.zip_cons_cons, List.mem_cons, forall_eq_or_imp] at this
            exact this.2

theorem decode_run_length_le (mem : List Nat) (e : Nat) :
    ∀ n i, (decode_run mem e n i).length ≤ n := by
  intro n
  induction n with
  | zero => intro i; simp [decode_run]
  | succ n ih =>
    intro i
    unfold decode_run
    cases inode_decode_field mem i e with
    | none => simp
    | some d => simpa using ih (i + d.ret)

theorem decode_run_bounds (mem : List Nat) (e : Nat) (hmem : ∀ b ∈ mem, b < 256) :
    ∀ n i, ∀ d ∈ decode_run mem e n i,
      d.hi < 2 ^ 64 ∧ d.lo < 2 ^ 64 ∧ d.out_bits = field_bits d.hi d.lo := by
  intro n
  induction n with
  | zero => intro i d hd; simp [decode_run] at hd
  | succ n ih =>
    intro i d hd
    unfold decode_run at hd
    cases hdec : inode_decode_field mem i e with
    | none => rw [hdec] at hd; simp at hd
    | some d0 =>
      rw [hdec] at hd
      simp only [List.mem_cons] at hd
      rcases hd with rfl | hd
      · exact decode_bounds mem i e _ hmem hdec
      · exact ih _ d hd

/-- The successive decodes read nothing after the last byte they consume. -/
theorem decode_run_congr (m1 m2 : List Nat) (e : Nat) :
    ∀ n i, (decode_run m1 e n i).length = n →
      m1.take (i + ((decode_run m1 e n i).map (fun d => d.ret)).sum) =
        m2.take (i + ((decode_run m1 e n i).map (fun d => d.ret)).sum) →
      decode_run m2 e n i = decode_run m1 e n i := by
  intro n
  induction n with
  | zero => intro i _ _; simp [decode_run]
  | succ n ih =>
    intro i hlen htake
    unfold decode_run at hlen htake ⊢
    cases hdec : inode_decode_field m1 i e with
    | none => rw [hdec] at hlen; simp at hlen
    | some d =>
      rw [hdec] at hlen htake
      simp only [List.length_cons, Nat.add_right_cancel_iff, List.map_cons,
        List.sum_cons] at hlen htake
      rw [decode_congr m1 m2 _ i e d hdec htake (by omega)]
      simp only
      rw [ih (i + d.ret) hlen (by rw [Nat.add_assoc]; exact htake)]

theorem narrow_of_bits_le (hi lo bits : Nat) (hhi : hi < 2 ^ 64) (hlo : lo < 2 ^ 64)
    (hb : bits ≤ 64) (h : field_bits hi lo ≤ bits) : hi = 0 ∧ lo < 2 ^ bits := by
  have h1 := (field_bits_le hi lo bits hhi hlo).1 h
  have h2 : (2 : Nat) ^ bits ≤ 2 ^ 64 := Nat.pow_le_pow_right (by norm_num) hb
  have h0 : hi = 0 := by
    by_contra hc
    have : 1 * 2 ^ 64 ≤ hi * 2 ^ 64 := Nat.mul_le_mul_right _ (by omega)
    omega
  subst h0
  exact ⟨rfl, by simpa using h1⟩

/-- When every decoded field passes the width test, the values assigned are the decoded
low words, which are the full decoded integers. -/
theorem assigned_eq_decoded (mem : List Nat) (e n i : Nat) (S : List (String × Nat))
    (hmem : ∀ b ∈ mem, b < 256) (hw : ∀ f ∈ S, f.2 ≤ 64)
    (hlen : (decode_run mem e n i).length ≤ S.length)
    (hbits : ∀ p ∈ (decode_run mem e n i).zip S, p.1.out_bits ≤ p.2.2) :
    ((decode_run mem e n i).zip S).map (fun p => p.1.lo % 2 ^ p.2.2) =
        (decode_run mem e n i).map (fun d => d.lo) ∧
    ((decode_run mem e n i).zip S).map (fun p => p.1.lo % 2 ^ p.2.2) =
        (decode_run mem e n i).map (fun d => d.hi * 2 ^ 64 + d.lo) := by
  have hb := decode_run_bounds mem e hmem n i
  generalize decode_run mem e n i = ds at hlen hbits hb
  have key : ∀ p ∈ ds.zip S, p.1.hi = 0 ∧ p.1.lo < 2 ^ p.2.2 := by
    intro p hp
    obtain ⟨d, f⟩ := p
    have hd := hb d (List.of_mem_zip hp).1
    have hf := hw f (List.of_mem_zip hp).2
    have := hbits _ hp
    simp only at this ⊢
    rw [hd.2.2] at this
    exact narrow_of_bits_le d.hi d.lo f.2 hd.1 hd.2.1 hf this
  have hfst : (ds.zip S).map Prod.fst = ds := List.map_fst_zip _ _ hlen
  constructor
  · conv_rhs => rw [← hfst, List.map_map]
    apply List.map_congr_left
    intro p hp
    simp [Nat.mod_eq_of_lt (key p hp).2]
  · conv_rhs => rw [← hfst, List.map_map]
    apply List.map_congr_left
    intro p hp
    simp [Nat.mod_eq_of_lt (key p hp).2, (key p hp).1]

theorem last_nonzero_zero (u : bch_inode_unpacked) :
    ∀ n j, last_nonzero u n ≤ j → j < n → u.field j = 0 := by
  intro n
  induction n with
  | zero => intro j _ h; omega
  | succ n ih =>
    intro j h1 h2
    unfold last_nonzero at h1
    by_cases hz : u.field n ≠ 0
    · rw [if_pos hz] at h1; omega
    · rw [if_neg hz] at h1
      rcases Nat.lt_or_ge j n with h3 | h3
      · exact ih j h1 h3
      · have : j = n := by omega
        subst this
        simpa using hz

theorem last_nonzero_ne (u : bch_inode_unpacked) :
    ∀ n, last_nonzero u n ≠ 0 → u.field (last_nonzero u n - 1) ≠ 0 := by
  intro n
  induction n with
  | zero => intro h; simp [last_nonzero] at h
  | succ n ih =>
    intro h
    unfold last_nonzero at h ⊢
    by_cases hz : u.field n ≠ 0
    · rw [if_pos hz]; simpa using hz
    · rw [if_neg hz] at h ⊢; exact ih h

theorem field_of_length_le (u : bch_inode_unpacked) (j : Nat) (h : u.fields.length ≤ j) :
    u.field j = 0 := by
  unfold bch_inode_unpacked.field
  rw [List.getD_eq_getElem?_getD, List.getElem?_eq_none h]
  rfl

theorem fields_fit_lt (S : List (String × Nat)) (u : bch_inode_unpacked)
    (h : fields_fit S u) : ∀ j, j < S.length → u.field j < 2 ^ 64 := by
  intro j hj
  have hl : u.fields.length = S.length := h.length_eq
  have := h.get (i := j) (by omega) hj
  have e : u.field j = u.fields.get ⟨j, by omega⟩ := by
    unfold bch_inode_unpacked.field
    rw [List.getD_eq_getElem?_getD, List.getElem?_eq_getElem (by omega)]
    rfl
  rw [e]
  exact lt_of_lt_of_le this.1 (Nat.pow_le_pow_right (by norm_num) this.2)

theorem nr_fields_get (flags nr : Nat) (h : nr < 256) :
    (flags % 2 ^ 24 + (nr % 2 ^ 8) * 2 ^ 24) / 2 ^ 24 % 2 ^ 8 = nr := by
  norm_num
  omega

theorem round_up_ge (x : Nat) : x + 14 ≤ (x + 14 + 7) / 8 * 8 := by omega

/-- Packing succeeds and unpacking the packed key gives back every member except that
`i_flags` comes back with the field count in its bits 24 to 31. -/
theorem unpack_pack (S : List (String × Nat)) (buf : List Nat) (u : bch_inode_unpacked)
    (hfit : fields_fit S u) (hS : S.length < 256) (hroom : pack_fits S buf u) :
    ∃ k, bch2_inode_pack S buf u = some k ∧
      INODE_NR_FIELDS k = last_nonzero u S.length ∧
      bch2_inode_unpack S k =
        some { inum := u.inum, i_hash_seed := u.i_hash_seed,
               i_flags := u.i_flags % 2 ^ 24 + last_nonzero u S.length * 2 ^ 24,
               i_mode := u.i_mode, fields := u.fields } := by
  have hw := fields_fit_lt S u hfit
  have hl : u.fields.length = S.length := hfit.length_eq
  have hnr := last_nonzero_le u S.length
  refine ⟨_, pack_eq S buf u hw hroom, ?_, ?_⟩
  · exact nr_fields_get _ _ (by omega)
  · obtain ⟨junk, hj⟩ := packed_fields_eq buf u S.length (last_nonzero u S.length)
      (((encoded_fields u (last_nonzero u S.length)).length + 14 + 7) / 8 * 8 - 14 -
        (encoded_fields u (last_nonzero u S.length)).length) hnr
    have hzero : ∀ j, last_nonzero u S.length ≤ j → u.field j = 0 := by
      intro j hj1
      rcases Nat.lt_or_ge j S.length with h | h
      · exact last_nonzero_zero u _ j hj1 h
      · exact field_of_length_le u j (by omega)
    have hrun := unpack_fields_packed u
      (memset0 (memcpy buf 0 (encoded_fields u S.length))
        (encoded_fields u (last_nonzero u S.length)).length
        (((encoded_fields u (last_nonzero u S.length)).length + 14 + 7) / 8 * 8 - 14 -
          (encoded_fields u (last_nonzero u S.length)).length))
      (((encoded_fields u (last_nonzero u S.length)).length + 14 + 7) / 8 * 8 - 14)
      (last_nonzero u S.length)
      (List.replicate (((encoded_fields u (last_nonzero u S.length)).length + 14 + 7) / 8 * 8
          - 14 - (encoded_fields u (last_nonzero u S.length)).length) 0 ++ junk)
      (by rw [hj, List.append_assoc])
      (by have := round_up_ge (encoded_fields u (last_nonzero u S.length)).length; omega)
      hzero S u.fields 0 hfit (by simp) (Nat.zero_le _)
    unfold bch2_inode_unpack
    simp only [bkey_val_bytes, INODE_HEADER_BYTES, INODE_NR_FIELDS]
    rw [nr_fields_get _ _ (by omega)]
    simp only [encoded_fields, List.length_nil] at hrun
    rw [hrun]
    simp only [Nat.mod_eq_of_lt (show last_nonzero u S.length < 2 ^ 8 by norm_num; omega)]

theorem packed_val_tail (buf : List Nat) (u : bch_inode_unpacked) (n nr : Nat)
    (hnr : nr ≤ n) (k : bkey_i_inode)
    (hk1 : k.val_u64s = ((encoded_fields u nr).length + 14 + 7) / 8)
    (hk2 : k.fields = memset0 (memcpy buf 0 (encoded_fields u n)) (encoded_fields u nr).length
      (((encoded_fields u nr).length + 14 + 7) / 8 * 8 - 14 - (encoded_fields u nr).length)) :
    k.val_tail = encoded_fields u nr ++
      List.replicate (bkey_val_bytes k - INODE_HEADER_BYTES - (encoded_fields u nr).length) 0 := by
  obtain ⟨junk, hj⟩ := packed_fields_eq buf u n nr
    (((encoded_fields u nr).length + 14 + 7) / 8 * 8 - 14 - (encoded_fields u nr).length) hnr
  unfold bkey_i_inode.val_tail bkey_val_bytes
  rw [hk2, hj, hk1]
  simp only [INODE_HEADER_BYTES]
  apply List.take_left'
  simp only [List.length_append, List.length_replicate]
  have := round_up_ge (encoded_fields u nr).length
  omega

theorem last_nonzero_succ_zero (u : bch_inode_unpacked) (n : Nat) (h : u.field n = 0) :
    last_nonzero u (n + 1) = last_nonzero u n := by
  simp [last_nonzero, h]

theorem getLast?_cons_append_singleton (x y : Nat) (l : List Nat) :
    (x :: (l ++ [y])).getLast? = some y := by
  have : x :: (l ++ [y]) = (x :: l) ++ [y] := rfl
  rw [this, List.getLast?_append]
  simp

/-- The final byte of the encoding of a nonzero value is nonzero exactly when the value is
not a multiple of 256. -/
theorem encoded_field_last (v : Nat) (hv : v < 2 ^ 64) :
    ∃ b, (encoded_field 0 v).getLast? = some b ∧ (v ≠ 0 → (b ≠ 0 ↔ v % 256 ≠ 0)) := by
  obtain ⟨s, hs, -⟩ := find_shift_spec _ (field_bits_zero_hi v hv)
  obtain ⟨h1, h8, hL1, hL13, hd, hvL, -⟩ := encode_bytes 0 v s (by norm_num) hv hs
  rw [encoded_field_eq 0 v s (by norm_num) hv hs]
  simp only [Nat.zero_mul, Nat.zero_add] at hd hvL ⊢
  generalize byte_table.getD (s - 1) 0 = L at *
  obtain ⟨m, rfl⟩ : ∃ m, L = m + 1 := ⟨L - 1, by omega⟩
  simp only [Nat.add_sub_cancel] at hd ⊢
  cases m with
  | zero =>
    refine ⟨v / 256 ^ 0 + marker s, by simp [be_bytes], ?_⟩
    intro hv0
    simp only [pow_zero, Nat.div_one] at hd ⊢
    have := marker_le s
    have hmod : v % 256 = v := Nat.mod_eq_of_lt (by omega)
    rw [hmod]
    constructor
    · intro _; exact hv0
    · intro _; omega
  | succ m =>
    refine ⟨v % 256, ?_, fun _ => Iff.rfl⟩
    simp only [be_bytes]
    exact getLast?_cons_append_singleton _ _ _

set_option maxRecDepth 1000000 in
theorem marker_disjoint : ∀ s, s < 9 → ∀ d, d < 256 → 1 ≤ s → d < marker s →
    d &&& marker s = 0 ∧ d ||| marker s = d + marker s ∧
    2 ^ __fls (d + marker s) = marker s := by
  decide

/-! ## The field codec -/

/-- C2. Field codec round trip: for every 128-bit value `(hi, lo)` of bit length below 96
and every buffer with room for its encoding, `inode_encode_field` succeeds, and
`inode_decode_field` on the bytes it wrote succeeds, returns the byte count the encoder
returned, outputs exactly `(hi, lo)`, and reports as `out_bits` the bit length of the value:
`fls64(lo)` when `hi == 0` and `64 + fls64(hi)` otherwise. -/
theorem field_codec_round_trip (mem : List Nat) (out e hi lo : Nat)
    (hhi : hi < 2 ^ 64) (hlo : lo < 2 ^ 64) (hbits : field_bits hi lo < 96)
    (hend : e ≤ mem.length) (hroom : out + (encoded_field hi lo).length ≤ e) :
    ∃ mem1 bytes, inode_encode_field mem out e hi lo = some (mem1, bytes) ∧
      inode_decode_field mem1 out e =
        some { ret := bytes, hi := hi, lo := lo,
               out_bits := if hi = 0 then fls64 lo else 64 + fls64 hi } := by
  refine ⟨_, _, encode_eq mem out e hi lo hhi hlo hbits (by omega) hroom, ?_⟩
  obtain ⟨p, r, rfl, rfl⟩ := mem_split mem out (by omega)
  rw [decode_encoded _ p.length e hi lo (r.drop (encoded_field hi lo).length) hhi hlo hbits
    (by rw [memcpy_append, List.append_assoc, List.drop_left]) hroom]
  unfold field_bits
  by_cases h0 : hi = 0
  · simp [h0]
  · simp [h0, Nat.add_comm]

set_option maxRecDepth 100000 in
/-- C2, at a concrete input: the value `(1, 5)`, which needs 65 bits, in a 16-byte buffer. -/
theorem field_codec_round_trip_witness :
    ((1 : Nat) < 2 ^ 64 ∧ (5 : Nat) < 2 ^ 64 ∧ field_bits 1 5 < 96 ∧
      16 ≤ (List.replicate 16 0).length ∧ 3 + (encoded_field 1 5).length ≤ 16) ∧
    ∃ mem1 bytes, inode_encode_field (List.replicate 16 0) 3 16 1 5 = some (mem1, bytes) ∧
      inode_decode_field mem1 3 16 =
        some { ret := bytes, hi := 1, lo := 5,
               out_bits := if 1 = 0 then fls64 5 else 64 + fls64 1 } :=
  ⟨by decide,
   field_codec_round_trip (List.replicate 16 0) 3 16 1 5 (by decide) (by decide) (by decide)
     (by decide) (by decide)⟩

/-- C3. Length self-description: for every value of bit length below 96, in the bytes
`inode_encode_field` writes, the length marker `(1 << 8) >> shift` shares no bit with the
data bits of the first byte, it is the highest set bit of the first byte, and
`byte_table[(8 - __fls(first_byte)) - 1]`, the length the decoder derives from the first
byte alone, is the number of bytes the encoder wrote. -/
theorem length_self_description (mem : List Nat) (out e hi lo : Nat)
    (hhi : hi < 2 ^ 64) (hlo : lo < 2 ^ 64) (hbits : field_bits hi lo < 96)
    (hend : e ≤ mem.length) (hroom : out + (encoded_field hi lo).length ≤ e) :
    ∃ mem1 bytes shift, inode_encode_field mem out e hi lo = some (mem1, bytes) ∧
      find_shift (field_bits hi lo) = some shift ∧
      ((cpu_to_be64 hi ++ cpu_to_be64 lo).drop (16 - bytes)).getD 0 0 &&& marker shift = 0 ∧
      mem1.getD out 0 =
        ((cpu_to_be64 hi ++ cpu_to_be64 lo).drop (16 - bytes)).getD 0 0 ||| marker shift ∧
      2 ^ __fls (mem1.getD out 0) = marker shift ∧
      byte_table.getD ((8 - __fls (mem1.getD out 0)) - 1) 0 = bytes := by
  obtain ⟨s, hs, -⟩ := find_shift_spec _ hbits
  obtain ⟨h1, h8, hL1, hL13, hd, hv, hdrop⟩ := encode_bytes hi lo s hhi hlo hs
  have hlen := encoded_field_length hi lo s hhi hlo hs
  have hrun := encode_run mem out e hi lo s hhi hlo hs (by omega)
  rw [if_neg (by omega)] at hrun
  have hd256 := lt_of_lt_of_le hd (marker_le s)
  have hm := marker_facts s (by omega) _ hd256 h1 hd
  have hm2 := marker_disjoint s (by omega) _ hd256 h1 hd
  refine ⟨_, _, s, hrun, hs, ?_, ?_, ?_, ?_⟩
  · rw [hdrop]; exact hm2.1
  · rw [hdrop, memcpy_getD _ _ _ _ (by omega)]; exact hm2.2.1.symm
  · rw [memcpy_getD _ _ _ _ (by omega)]; exact hm2.2.2
  · rw [memcpy_getD _ _ _ _ (by omega), hm.2.1]
    congr 2
    omega

set_option maxRecDepth 100000 in
/-- C3, at a concrete input: the value `U64_MAX` in a 16-byte buffer. -/
theorem length_self_description_witness :
    ((0 : Nat) < 2 ^ 64 ∧ 2 ^ 64 - 1 < 2 ^ 64 ∧ field_bits 0 (2 ^ 64 - 1) < 96 ∧
      16 ≤ (List.replicate 16 0).length ∧ 0 + (encoded_field 0 (2 ^ 64 - 1)).length ≤ 16) ∧
    ∃ mem1 bytes shift,
      inode_encode_field (List.replicate 16 0) 0 16 0 (2 ^ 64 - 1) = some (mem1, bytes) ∧
      find_shift (field_bits 0 (2 ^ 64 - 1)) = some shift ∧
      ((cpu_to_be64 0 ++ cpu_to_be64 (2 ^ 64 - 1)).drop (16 - bytes)).getD 0 0
        &&& marker shift = 0 ∧
      mem1.getD 0 0 =
        ((cpu_to_be64 0 ++ cpu_to_be64 (2 ^ 64 - 1)).drop (16 - bytes)).getD 0 0
          ||| marker shift ∧
      2 ^ __fls (mem1.getD 0 0) = marker shift ∧
      byte_table.getD ((8 - __fls (mem1.getD 0 0)) - 1) 0 = bytes :=
  ⟨by decide,
   length_self_description (List.replicate 16 0) 0 16 0 (2 ^ 64 - 1) (by decide) (by decide)
     (by decide) (by decide) (by decide)⟩

/-! ## The packer -/

set_option maxRecDepth 100000 in
/-- C1, as stated, fails on `i_flags`: packing the inode of `bch2_inode_pack_test` (whose
`i_flags` is `0`) and unpacking the result succeeds, but the record that comes back has
`i_flags = 11 << 24`, because `SET_INODE_NR_FIELDS` stores the field count in bits 24 to 31
of `i_flags` and `bch2_inode_unpack` returns `i_flags` whole. -/
theorem inode_round_trip_counterexample :
    ∃ k u, bch2_inode_pack BCH_INODE_FIELDS (List.replicate inode_buf_bytes 0) test_inode
        = some k ∧
      bch2_inode_unpack BCH_INODE_FIELDS k = some u ∧
      u.i_flags = 11 * 2 ^ 24 ∧ test_inode.i_flags = 0 ∧ u ≠ test_inode := by
  refine ⟨_, _, rfl, rfl, ?_, ?_, ?_⟩ <;> decide

/-- C1, amended. Inode round trip: for every unpacked inode `u` whose schema members fit
their declared widths and whose encoding fits the pack buffer, `bch2_inode_pack` succeeds
and `bch2_inode_unpack` on the key it produced returns `0` with a record equal to `u` in
`inum`, `i_hash_seed`, `i_mode` and every schema member; `i_flags` comes back with its low
24 bits equal to those of `u` and the stored field count in bits 24 to 31, so the whole
record equals `u` when `u.i_flags` already has that count there. -/
theorem inode_round_trip (S : List (String × Nat)) (buf : List Nat) (u : bch_inode_unpacked)
    (hfit : fields_fit S u) (hS : S.length < 256) (hroom : pack_fits S buf u) :
    ∃ k u1, bch2_inode_pack S buf u = some k ∧ bch2_inode_unpack S k = some u1 ∧
      u1.inum = u.inum ∧ u1.i_hash_seed = u.i_hash_seed ∧ u1.i_mode = u.i_mode ∧
      u1.fields = u.fields ∧
      u1.i_flags = u.i_flags % 2 ^ 24 + INODE_NR_FIELDS k * 2 ^ 24 ∧
      (u.i_flags = u.i_flags % 2 ^ 24 + INODE_NR_FIELDS k * 2 ^ 24 → u1 = u) := by
  obtain ⟨k, hk, hnr, hun⟩ := unpack_pack S buf u hfit hS hroom
  refine ⟨k, _, hk, hun, rfl, rfl, rfl, rfl, by rw [hnr], ?_⟩
  intro h
  rw [hnr] at h
  cases u
  simp only at h ⊢
  rw [← h]

set_option maxRecDepth 100000 in
/-- C1, amended, at the inode of `bch2_inode_pack_test`: every 64-bit member `U64_MAX`,
every 32-bit member `U32_MAX`. -/
theorem inode_round_trip_witness :
    (fields_fit BCH_INODE_FIELDS test_inode ∧ BCH_INODE_FIELDS.length < 256 ∧
      pack_fits BCH_INODE_FIELDS (List.replicate inode_buf_bytes 0) test_inode) ∧
    ∃ k u1, bch2_inode_pack BCH_INODE_FIELDS (List.replicate inode_buf_bytes 0) test_inode
        = some k ∧
      bch2_inode_unpack BCH_INODE_FIELDS k = some u1 ∧
      u1.inum = test_inode.inum ∧ u1.i_hash_seed = test_inode.i_hash_seed ∧
      u1.i_mode = test_inode.i_mode ∧ u1.fields = test_inode.fields ∧
      u1.i_flags = test_inode.i_flags % 2 ^ 24 + INODE_NR_FIELDS k * 2 ^ 24 ∧
      (test_inode.i_flags = test_inode.i_flags % 2 ^ 24 + INODE_NR_FIELDS k * 2 ^ 24 →
        u1 = test_inode) :=
  ⟨⟨by simp [fields_fit, test_inode, BCH_INODE_FIELDS], by decide, by decide⟩,
   inode_round_trip BCH_INODE_FIELDS (List.replicate inode_buf_bytes 0) test_inode
     (by simp [fields_fit, test_inode, BCH_INODE_FIELDS]) (by decide) (by decide)⟩

/-- C4. Packed layout and minimality: `bch2_inode_pack` stores `NR_FIELDS = 0` when every
schema member is zero and otherwise one more than the schema index of the last nonzero
member; the value is as long as the header plus the encodings of the first `NR_FIELDS`
members, rounded up to 8 bytes; after the header it holds exactly those encodings, in schema
order, followed by zero bytes up to the end of the value. -/
theorem packed_layout (S : List (String × Nat)) (buf : List Nat) (u : bch_inode_unpacked)
    (hw : ∀ j, j < S.length → u.field j < 2 ^ 64) (hS : S.length < 256)
    (hroom : pack_fits S buf u) :
    ∃ k, bch2_inode_pack S buf u = some k ∧
      INODE_NR_FIELDS k ≤ S.length ∧
      ((∀ j, j < S.length → u.field j = 0) →
        INODE_NR_FIELDS k = 0 ∧ encoded_fields u (INODE_NR_FIELDS k) = []) ∧
      (∀ j, INODE_NR_FIELDS k ≤ j → j < S.length → u.field j = 0) ∧
      (INODE_NR_FIELDS k ≠ 0 → u.field (INODE_NR_FIELDS k - 1) ≠ 0) ∧
      bkey_val_bytes k =
        (INODE_HEADER_BYTES + (encoded_fields u (INODE_NR_FIELDS k)).length + 7) / 8 * 8 ∧
      k.val_tail = encoded_fields u (INODE_NR_FIELDS k) ++
        List.replicate (bkey_val_bytes k - INODE_HEADER_BYTES -
          (encoded_fields u (INODE_NR_FIELDS k)).length) 0 := by
  have hnrle := last_nonzero_le u S.length
  have hnr : INODE_NR_FIELDS
      { p_inode := u.inum, p_offset := 0, type := BCH_INODE_FS,
        val_u64s := ((encoded_fields u (last_nonzero u S.length)).length + 14 + 7) / 8,
        i_hash_seed := u.i_hash_seed,
        i_flags := u.i_flags % 2 ^ 24 + (last_nonzero u S.length % 2 ^ 8) * 2 ^ 24,
        i_mode := u.i_mode,
        fields := memset0 (memcpy buf 0 (encoded_fields u S.length))
          (encoded_fields u (last_nonzero u S.length)).length
          (((encoded_fields u (last_nonzero u S.length)).length + 14 + 7) / 8 * 8 - 14 -
            (encoded_fields u (last_nonzero u S.length)).length) }
      = last_nonzero u S.length := nr_fields_get _ _ (by omega)
  refine ⟨_, pack_eq S buf u hw hroom, ?_⟩
  rw [hnr]
  have hz0 : (∀ j, j < S.length → u.field j = 0) → last_nonzero u S.length = 0 := by
    intro hall
    by_contra hne
    exact last_nonzero_ne u S.length hne (hall _ (by omega))
  refine ⟨hnrle, ?_, last_nonzero_zero u S.length, last_nonzero_ne u S.length, ?_, ?_⟩
  · intro hall
    rw [hz0 hall]
    exact ⟨rfl, rfl⟩
  · simp only [bkey_val_bytes, INODE_HEADER_BYTES]
    omega
  · exact packed_val_tail buf u S.length _ hnrle _ rfl rfl

set_option maxRecDepth 100000 in
/-- C4 at the inode `{i_size = 42, rest = 0}`, and the two scenarios of the spec evaluated:
that inode gets `NR_FIELDS` equal to the schema index of `i_size` plus one, and the
all-zero inode gets `NR_FIELDS == 0` and no encoded byte. -/
theorem packed_layout_witness :
    ((∀ j, j < BCH_INODE_FIELDS.length → inode_size_42.field j < 2 ^ 64) ∧
      BCH_INODE_FIELDS.length < 256 ∧
      pack_fits BCH_INODE_FIELDS (List.replicate inode_buf_bytes 0) inode_size_42) ∧
    (∃ k, bch2_inode_pack BCH_INODE_FIELDS (List.replicate inode_buf_bytes 0) inode_size_42
        = some k ∧
      INODE_NR_FIELDS k ≤ BCH_INODE_FIELDS.length ∧
      ((∀ j, j < BCH_INODE_FIELDS.length → inode_size_42.field j = 0) →
        INODE_NR_FIELDS k = 0 ∧ encoded_fields inode_size_42 (INODE_NR_FIELDS k) = []) ∧
      (∀ j, INODE_NR_FIELDS k ≤ j → j < BCH_INODE_FIELDS.length →
        inode_size_42.field j = 0) ∧
      (INODE_NR_FIELDS k ≠ 0 → inode_size_42.field (INODE_NR_FIELDS k - 1) ≠ 0) ∧
      bkey_val_bytes k =
        (INODE_HEADER_BYTES + (encoded_fields inode_size_42 (INODE_NR_FIELDS k)).length + 7)
          / 8 * 8 ∧
      k.val_tail = encoded_fields inode_size_42 (INODE_NR_FIELDS k) ++
        List.replicate (bkey_val_bytes k - INODE_HEADER_BYTES -
          (encoded_fields inode_size_42 (INODE_NR_FIELDS k)).length) 0) ∧
    (bch2_inode_pack BCH_INODE_FIELDS (List.replicate inode_buf_bytes 0) inode_size_42).map
        INODE_NR_FIELDS = some ((BCH_INODE_FIELDS.map Prod.fst).indexOf "i_size" + 1) ∧
    (bch2_inode_pack BCH_INODE_FIELDS (List.replicate inode_buf_bytes 0) inode_zero).map
        (fun k => (INODE_NR_FIELDS k, (encoded_fields inode_zero (INODE_NR_FIELDS k)).length))
      = some (0, 0) :=
  ⟨⟨by decide, by decide, by decide⟩,
   packed_layout BCH_INODE_FIELDS (List.replicate inode_buf_bytes 0) inode_size_42
     (by decide) (by decide) (by decide),
   by decide, by decide⟩

set_option maxRecDepth 100000 in
/-- C5, as stated, fails: packing `{i_size = 256, rest = 0}` stores `NR_FIELDS = 5`, the
last encoded field is the two bytes `0x41 0x00`, and so the last byte of the packed tail,
at offset 5, is zero. -/
theorem last_byte_counterexample :
    ∃ k, bch2_inode_pack BCH_INODE_FIELDS (List.replicate inode_buf_bytes 0) inode_size_256
        = some k ∧
      INODE_NR_FIELDS k = 5 ∧
      encoded_fields inode_size_256 (INODE_NR_FIELDS k) = [128, 128, 128, 128, 65, 0] ∧
      k.fields.getD 5 0 = 0 := by
  refine ⟨_, rfl, ?_, ?_, ?_⟩ <;> decide

/-- C5, amended. Minimality of the last field: after `bch2_inode_pack(u)`, unless
`NR_FIELDS == 0`, the last encoded field of the packed tail is the encoding of a nonzero
member, and the last byte of the tail is nonzero exactly when that member's value is not a
multiple of 256. -/
theorem last_field_nonzero (S : List (String × Nat)) (buf : List Nat)
    (u : bch_inode_unpacked)
    (hw : ∀ j, j < S.length → u.field j < 2 ^ 64) (hS : S.length < 256)
    (hroom : pack_fits S buf u) :
    ∃ k, bch2_inode_pack S buf u = some k ∧
      (INODE_NR_FIELDS k ≠ 0 →
        u.field (INODE_NR_FIELDS k - 1) ≠ 0 ∧
        ∃ b, (encoded_fields u (INODE_NR_FIELDS k)).getLast? = some b ∧
          k.fields.getD ((encoded_fields u (INODE_NR_FIELDS k)).length - 1) 0 = b ∧
          (b ≠ 0 ↔ u.field (INODE_NR_FIELDS k - 1) % 256 ≠ 0)) := by
  have hnrle := last_nonzero_le u S.length
  have hnr : INODE_NR_FIELDS
      { p_inode := u.inum, p_offset := 0, type := BCH_INODE_FS,
        val_u64s := ((encoded_fields u (last_nonzero u S.length)).length + 14 + 7) / 8,
        i_hash_seed := u.i_hash_seed,
        i_flags := u.i_flags % 2 ^ 24 + (last_nonzero u S.length % 2 ^ 8) * 2 ^ 24,
        i_mode := u.i_mode,
        fields := memset0 (memcpy buf 0 (encoded_fields u S.length))
          (encoded_fields u (last_nonzero u S.length)).length
          (((encoded_fields u (last_nonzero u S.length)).length + 14 + 7) / 8 * 8 - 14 -
            (encoded_fields u (last_nonzero u S.length)).length) }
      = last_nonzero u S.length := nr_fields_get _ _ (by omega)
  refine ⟨_, pack_eq S buf u hw hroom, ?_⟩
  rw [hnr]
  intro hne
  have hnz := last_nonzero_ne u S.length hne
  refine ⟨hnz, ?_⟩
  obtain ⟨junk, hj⟩ := packed_fields_eq buf u S.length (last_nonzero u S.length)
    (((encoded_fields u (last_nonzero u S.length)).length + 14 + 7) / 8 * 8 - 14 -
      (encoded_fields u (last_nonzero u S.length)).length) hnrle
  simp only
  rw [hj]
  obtain ⟨m, hm⟩ : ∃ m, last_nonzero u S.length = m + 1 :=
    ⟨last_nonzero u S.length - 1, by omega⟩
  rw [hm] at hnz ⊢
  simp only [Nat.add_sub_cancel] at hnz ⊢
  obtain ⟨b, hb1, hb2⟩ := encoded_field_last (u.field m) (hw m (by omega))
  have hne2 : encoded_field 0 (u.field m) ≠ [] := by
    intro h; rw [h] at hb1; simp at hb1
  refine ⟨b, ?_, ?_, hb2 hnz⟩
  · simp only [encoded_fields]
    rw [List.getLast?_append, hb1]
    rfl
  · have hlast : (encoded_fields u (m + 1)).getLast? = some b := by
      simp only [encoded_fields]
      rw [List.getLast?_append, hb1]
      rfl
    have hpos : 0 < (encoded_fields u (m + 1)).length := by
      simp only [encoded_fields, List.length_append]
      have := List.length_pos.2 hne2
      omega
    rw [List.getLast?_eq_getElem?] at hlast
    rw [List.getD_eq_getElem?_getD, List.append_assoc,
      List.getElem?_append_left (by omega), hlast]
    rfl

set_option maxRecDepth 100000 in
/-- C5, amended, at the inode `{i_size = 256, rest = 0}`. -/
theorem last_field_nonzero_witness :
    ((∀ j, j < BCH_INODE_FIELDS.length → inode_size_256.field j < 2 ^ 64) ∧
      BCH_INODE_FIELDS.length < 256 ∧
      pack_fits BCH_INODE_FIELDS (List.replicate inode_buf_bytes 0) inode_size_256) ∧
    ∃ k, bch2_inode_pack BCH_INODE_FIELDS (List.replicate inode_buf_bytes 0) inode_size_256
        = some k ∧
      (INODE_NR_FIELDS k ≠ 0 →
        inode_size_256.field (INODE_NR_FIELDS k - 1) ≠ 0 ∧
        ∃ b, (encoded_fields inode_size_256 (INODE_NR_FIELDS k)).getLast? = some b ∧
          k.fields.getD ((encoded_fields inode_size_256 (INODE_NR_FIELDS k)).length - 1) 0
            = b ∧
          (b ≠ 0 ↔ inode_size_256.field (INODE_NR_FIELDS k - 1) % 256 ≠ 0)) :=
  ⟨⟨by decide, by decide, by decide⟩,
   last_field_nonzero BCH_INODE_FIELDS (List.replicate inode_buf_bytes 0) inode_size_256
     (by decide) (by decide) (by decide)⟩

/-- C6. Forward compatibility of pack: for every schema `S`, every field `f` appended at its
end and every inode `u` whose value for `f` is zero, packing `u` under `S ++ [f]` (into a
buffer `buf1` sized for that schema) produces the same key members, the same header (with
the same `NR_FIELDS`), the same value length and the same value bytes as packing `u` under
`S` (into a buffer `buf`). -/
theorem pack_forward_compatible (S : List (String × Nat)) (f : String × Nat)
    (buf buf1 : List Nat) (u : bch_inode_unpacked)
    (hw : ∀ j, j < S.length → u.field j < 2 ^ 64) (hz : u.field S.length = 0)
    (hroom : pack_fits S buf u) (hroom1 : pack_fits (S ++ [f]) buf1 u) :
    ∃ k k1, bch2_inode_pack S buf u = some k ∧ bch2_inode_pack (S ++ [f]) buf1 u = some k1 ∧
      k1.p_inode = k.p_inode ∧ k1.p_offset = k.p_offset ∧ k1.type = k.type ∧
      k1.i_hash_seed = k.i_hash_seed ∧ k1.i_flags = k.i_flags ∧ k1.i_mode = k.i_mode ∧
      INODE_NR_FIELDS k1 = INODE_NR_FIELDS k ∧
      bkey_val_bytes k1 = bkey_val_bytes k ∧ k1.val_tail = k.val_tail := by
  have hw1 : ∀ j, j < (S ++ [f]).length → u.field j < 2 ^ 64 := by
    intro j hj
    simp only [List.length_append, List.length_singleton] at hj
    rcases Nat.lt_or_ge j S.length with h | h
    · exact hw j h
    · have : j = S.length := by omega
      rw [this, hz]; norm_num
  have hlen : (S ++ [f]).length = S.length + 1 := by simp
  have hnr : last_nonzero u (S.length + 1) = last_nonzero u S.length :=
    last_nonzero_succ_zero u _ hz
  have hp := pack_eq S buf u hw hroom
  have hp1 := pack_eq (S ++ [f]) buf1 u hw1 hroom1
  rw [hlen, hnr] at hp1
  refine ⟨_, _, hp, hp1, rfl, rfl, rfl, rfl, rfl, rfl, rfl, rfl, ?_⟩
  rw [packed_val_tail buf1 u (S.length + 1) (last_nonzero u S.length)
      (by have := last_nonzero_le u S.length; omega) _ rfl rfl,
    packed_val_tail buf u S.length (last_nonzero u S.length)
      (last_nonzero_le u S.length) _ rfl rfl]
  rfl

set_option maxRecDepth 100000 in
/-- C6 at the inode `{i_size = 42, rest = 0}` and a twelfth schema field, whose buffer is
`8 + 32 / 8` bytes longer. -/
theorem pack_forward_compatible_witness :
    ((∀ j, j < BCH_INODE_FIELDS.length → inode_size_42.field j < 2 ^ 64) ∧
      inode_size_42.field BCH_INODE_FIELDS.length = 0 ∧
      pack_fits BCH_INODE_FIELDS (List.replicate inode_buf_bytes 0) inode_size_42 ∧
      pack_fits (BCH_INODE_FIELDS ++ [("i_new", 32)])
        (List.replicate (inode_buf_bytes + 12) 0) inode_size_42) ∧
    ∃ k k1,
      bch2_inode_pack BCH_INODE_FIELDS (List.replicate inode_buf_bytes 0) inode_size_42
        = some k ∧
      bch2_inode_pack (BCH_INODE_FIELDS ++ [("i_new", 32)])
        (List.replicate (inode_buf_bytes + 12) 0) inode_size_42 = some k1 ∧
      k1.p_inode = k.p_inode ∧ k1.p_offset = k.p_offset ∧ k1.type = k.type ∧
      k1.i_hash_seed = k.i_hash_seed ∧ k1.i_flags = k.i_flags ∧ k1.i_mode = k.i_mode ∧
      INODE_NR_FIELDS k1 = INODE_NR_FIELDS k ∧
      bkey_val_bytes k1 = bkey_val_bytes k ∧ k1.val_tail = k.val_tail :=
  ⟨⟨by decide, by decide, by decide, by decide⟩,
   pack_forward_compatible BCH_INODE_FIELDS ("i_new", 32) (List.replicate inode_buf_bytes 0)
     (List.replicate (inode_buf_bytes + 12) 0) inode_size_42
     (by decide) (by decide) (by decide) (by decide)⟩

/-! ## The unpacker -/

theorem unpack_eq_spec (S : List (String × Nat)) (k : bkey_i_inode) :
    bch2_inode_unpack S k =
      if (decoded_fields S k).length = stored_count S k ∧
          ∀ p ∈ (decoded_fields S k).zip S, p.1.out_bits ≤ p.2.2
      then some { inum := k.p_inode, i_hash_seed := k.i_hash_seed, i_flags := k.i_flags,
                  i_mode := k.i_mode,
                  fields := ((decoded_fields S k).zip S).map (fun p => p.1.lo % 2 ^ p.2.2) ++
                    List.replicate (S.length - stored_count S k) 0 }
      else none := by
  unfold bch2_inode_unpack
  simp only
  rw [unpack_fields_spec k.fields _ (INODE_NR_FIELDS k) S 0 0 (Nat.zero_le _)]
  simp only [Nat.sub_zero]
  unfold decoded_fields stored_count
  by_cases hc : (decode_run k.fields (bkey_val_bytes k - INODE_HEADER_BYTES)
      (min (INODE_NR_FIELDS k) S.length) 0).length = min (INODE_NR_FIELDS k) S.length ∧
      ∀ p ∈ (decode_run k.fields (bkey_val_bytes k - INODE_HEADER_BYTES)
        (min (INODE_NR_FIELDS k) S.length) 0).zip S, p.1.out_bits ≤ p.2.2
  · rw [if_pos hc, if_pos hc]
  · rw [if_neg hc, if_neg hc]

/-- C7. Unpack semantics and trailing-byte independence: when `bch2_inode_unpack` succeeds
on a value, with `k = min(NR_FIELDS, number of schema fields)`, exactly `k` fields are
decoded in order from the tail, the first `k` schema members are the decoded values, every
schema member at index `k` or above is zero, and every value that agrees with this one on
the key, the header and the bytes of the first `k` encoded fields unpacks to the same
record, whatever bytes follow. -/
theorem unpack_semantics (S : List (String × Nat)) (k : bkey_i_inode)
    (u : bch_inode_unpacked)
    (hmem : ∀ b ∈ k.fields, b < 256) (hw : ∀ f ∈ S, f.2 ≤ 64)
    (h : bch2_inode_unpack S k = some u) :
    (decoded_fields S k).length = stored_count S k ∧
    u.fields = (decoded_fields S k).map (fun d => d.lo) ++
      List.replicate (S.length - stored_count S k) 0 ∧
    (∀ j, stored_count S k ≤ j → u.field j = 0) ∧
    ∀ k2 : bkey_i_inode,
      k2.p_inode = k.p_inode → k2.val_u64s = k.val_u64s →
      k2.i_hash_seed = k.i_hash_seed → k2.i_flags = k.i_flags → k2.i_mode = k.i_mode →
      k2.fields.take (((decoded_fields S k).map (fun d => d.ret)).sum) =
        k.fields.take (((decoded_fields S k).map (fun d => d.ret)).sum) →
      bch2_inode_unpack S k2 = some u := by
  rw [unpack_eq_spec] at h
  split at h
  next hc =>
    obtain ⟨hlen, hbits⟩ := hc
    have hle : (decoded_fields S k).length ≤ S.length := by
      rw [hlen]; exact Nat.min_le_right _ _
    have hassign := (assigned_eq_decoded k.fields _ _ 0 S hmem hw hle hbits).1
    simp only [Option.some.injEq] at h
    have hfields : u.fields = (decoded_fields S k).map (fun d => d.lo) ++
        List.replicate (S.length - stored_count S k) 0 := by
      rw [← h]
      simp only
      unfold decoded_fields at hassign ⊢
      rw [hassign]
    refine ⟨hlen, hfields, ?_, ?_⟩
    · intro j hj
      unfold bch_inode_unpacked.field
      rw [hfields, List.getD_eq_getElem?_getD,
        List.getElem?_append_right (by simp [hlen]; exact hj)]
      simp only [List.length_map, hlen]
      by_cases hjl : j - stored_count S k < S.length - stored_count S k
      · rw [List.getElem?_replicate_of_lt hjl]; rfl
      · rw [List.getElem?_eq_none (by simp; omega)]; rfl
    · intro k2 h1 h2 h3 h4 h5 h6
      have hend : bkey_val_bytes k2 = bkey_val_bytes k := by
        unfold bkey_val_bytes; rw [h2]
      have hcnt : stored_count S k2 = stored_count S k := by
        unfold stored_count INODE_NR_FIELDS; rw [h4]
      have hds : decoded_fields S k2 = decoded_fields S k := by
        unfold decoded_fields at hlen h6 ⊢
        rw [hend, hcnt]
        exact decode_run_congr k.fields k2.fields _ _ 0 hlen (by simpa using h6.symm)
      rw [unpack_eq_spec, hds, hcnt, if_pos ⟨hlen, hbits⟩, ← h, h1, h3, h4, h5]
  next => cases h

set_option maxRecDepth 100000 in
/-- C7 at a value with two stored fields, `42` and `256`, followed by seven spare bytes;
replacing the spare bytes leaves the unpacked record as it is. -/
theorem unpack_semantics_witness :
    ((∀ b ∈ sample_key.fields, b < 256) ∧ (∀ f ∈ BCH_INODE_FIELDS, f.2 ≤ 64) ∧
      bch2_inode_unpack BCH_INODE_FIELDS sample_key =
        some { inum := 4096, i_hash_seed := 7, i_flags := 2 * 2 ^ 24, i_mode := 0,
               fields := [42, 256, 0, 0, 0, 0, 0, 0, 0, 0, 0] }) ∧
    bch2_inode_unpack BCH_INODE_FIELDS sample_key_other =
      some { inum := 4096, i_hash_seed := 7, i_flags := 2 * 2 ^ 24, i_mode := 0,
             fields := [42, 256, 0, 0, 0, 0, 0, 0, 0, 0, 0] } :=
  ⟨⟨by decide, by decide, by decide⟩,
   (unpack_semantics BCH_INODE_FIELDS sample_key
      { inum := 4096, i_hash_seed := 7, i_flags := 2 * 2 ^ 24, i_mode := 0,
        fields := [42, 256, 0, 0, 0, 0, 0, 0, 0, 0, 0] }
      (by decide) (by decide) (by decide)).2.2.2 sample_key_other rfl rfl rfl rfl rfl
      (by decide)⟩

/-- C8. Unpack rejects over-wide fields and never truncates: `bch2_inode_unpack` returns an
error exactly when, among the first `min(NR_FIELDS, schema count)` fields, some field fails
to decode or decodes to a bit width above the declared width of its schema member, which
is the case exactly when the decoded 128-bit integer is `2 ^ width` or more; and whenever
it returns `0`, every assigned member equals the full decoded integer. -/
theorem unpack_rejects_overwide (S : List (String × Nat)) (k : bkey_i_inode)
    (hmem : ∀ b ∈ k.fields, b < 256) (hw : ∀ f ∈ S, f.2 ≤ 64) :
    (bch2_inode_unpack S k = none ↔
      (decoded_fields S k).length < stored_count S k ∨
      ∃ p ∈ (decoded_fields S k).zip S, p.1.out_bits > p.2.2) ∧
    (∀ p ∈ (decoded_fields S k).zip S,
      (p.1.out_bits > p.2.2 ↔ 2 ^ p.2.2 ≤ p.1.hi * 2 ^ 64 + p.1.lo)) ∧
    (∀ u, bch2_inode_unpack S k = some u →
      u.fields = (decoded_fields S k).map (fun d => d.hi * 2 ^ 64 + d.lo) ++
        List.replicate (S.length - stored_count S k) 0) := by
  have hlenle : (decoded_fields S k).length ≤ stored_count S k :=
    decode_run_length_le _ _ _ _
  refine ⟨?_, ?_, ?_⟩
  · rw [unpack_eq_spec]
    constructor
    · intro h
      split at h
      · cases h
      next hc =>
        by_cases hl : (decoded_fields S k).length = stored_count S k
        · right
          by_contra hne
          apply hc
          refine ⟨hl, fun p hp => ?_⟩
          by_contra hgt
          exact hne ⟨p, hp, by omega⟩
        · left; omega
    · intro h
      rw [if_neg]
      rintro ⟨hl, hb⟩
      rcases h with h | ⟨p, hp, hgt⟩
      · omega
      · have := hb p hp; omega
  · intro p hp
    have hd := decode_run_bounds k.fields _ hmem _ _ p.1 (List.of_mem_zip hp).1
    rw [hd.2.2]
    have := field_bits_le p.1.hi p.1.lo p.2.2 hd.1 hd.2.1
    constructor
    · intro h1
      by_contra h2
      have := this.2 (by omega)
      omega
    · intro h1
      by_contra h2
      have := this.1 (by omega)
      omega
  · intro u h
    rw [unpack_eq_spec] at h
    split at h
    next hc =>
      obtain ⟨hlen, hbits⟩ := hc
      have hle : (decoded_fields S k).length ≤ S.length := by
        rw [hlen]; exact Nat.min_le_right _ _
      have hassign := (assigned_eq_decoded k.fields _ _ 0 S hmem hw hle hbits).2
      simp only [Option.some.injEq] at h
      rw [← h]
      simp only
      unfold decoded_fields at hassign ⊢
      rw [hassign]
    next => cases h

set_option maxRecDepth 100000 in
/-- C8 at a value whose seventh field, the 32-bit `i_uid`, holds `2 ^ 32`: unpacking
fails. -/
theorem unpack_rejects_overwide_witness :
    ((∀ b ∈ overwide_key.fields, b < 256) ∧ (∀ f ∈ BCH_INODE_FIELDS, f.2 ≤ 64)) ∧
    ((bch2_inode_unpack BCH_INODE_FIELDS overwide_key = none ↔
      (decoded_fields BCH_INODE_FIELDS overwide_key).length
          < stored_count BCH_INODE_FIELDS overwide_key ∨
      ∃ p ∈ (decoded_fields BCH_INODE_FIELDS overwide_key).zip BCH_INODE_FIELDS,
        p.1.out_bits > p.2.2) ∧
    (∀ p ∈ (decoded_fields BCH_INODE_FIELDS overwide_key).zip BCH_INODE_FIELDS,
      (p.1.out_bits > p.2.2 ↔ 2 ^ p.2.2 ≤ p.1.hi * 2 ^ 64 + p.1.lo)) ∧
    (∀ u, bch2_inode_unpack BCH_INODE_FIELDS overwide_key = some u →
      u.fields = (decoded_fields BCH_INODE_FIELDS overwide_key).map
          (fun d => d.hi * 2 ^ 64 + d.lo) ++
        List.replicate
          (BCH_INODE_FIELDS.length - stored_count BCH_INODE_FIELDS overwide_key) 0)) ∧
    bch2_inode_unpack BCH_INODE_FIELDS overwide_key = none ∧
    (decoded_fields BCH_INODE_FIELDS overwide_key).map (fun d => (d.lo, d.out_bits)) =
      [(0, 0), (0, 0), (0, 0), (0, 0), (0, 0), (0, 0), (2 ^ 32, 33)] :=
  ⟨⟨by decide, by decide⟩,
   unpack_rejects_overwide BCH_INODE_FIELDS overwide_key (by decide) (by decide),
   by decide, by decide⟩

/-! ## Decode failures and width selection -/

set_option maxRecDepth 100000 in
/-- C9. Decode failure conditions: `inode_decode_field` returns an error if and only if the
input range is empty, or its first byte is zero, or fewer than `L` bytes remain, where
`L = byte_table[(8 - __fls(first_byte)) - 1]`; in every other case it succeeds and returns
`L`.  A first byte `0x01` advertises 13 bytes: with only 5 bytes after it the decoder
fails, and a value whose tail starts that way in fewer than 13 bytes makes
`bch2_inode_unpack` fail and `bch2_inode_invalid` answer "invalid variable length fields". -/
theorem decode_failure_conditions :
    (∀ (mem : List Nat) (i e : Nat),
      (inode_decode_field mem i e = none ↔
        i ≥ e ∨ mem.getD i 0 = 0 ∨
          i + byte_table.getD ((8 - __fls (mem.getD i 0)) - 1) 0 > e) ∧
      (¬ (i ≥ e ∨ mem.getD i 0 = 0 ∨
          i + byte_table.getD ((8 - __fls (mem.getD i 0)) - 1) 0 > e) →
        ∃ d, inode_decode_field mem i e = some d ∧
          d.ret = byte_table.getD ((8 - __fls (mem.getD i 0)) - 1) 0)) ∧
    byte_table.getD ((8 - __fls 1) - 1) 0 = 13 ∧
    inode_decode_field [1, 0, 0, 0, 0, 0] 0 6 = none ∧
    truncated_key.val_tail = [1, 0, 0, 0, 0, 0, 0, 0, 0, 0] ∧
    bch2_inode_unpack BCH_INODE_FIELDS truncated_key = none ∧
    bch2_inode_invalid BCH_INODE_FIELDS truncated_key =
      some "invalid variable length fields" := by
  refine ⟨?_, by decide, by decide, by decide, by decide, by decide⟩
  intro mem i e
  have key : ¬ (i ≥ e ∨ mem.getD i 0 = 0 ∨
      i + byte_table.getD ((8 - __fls (mem.getD i 0)) - 1) 0 > e) →
      ∃ d, inode_decode_field mem i e = some d ∧
        d.ret = byte_table.getD ((8 - __fls (mem.getD i 0)) - 1) 0 := by
    intro h
    simp only [not_or] at h
    obtain ⟨h1, h2, h3⟩ := h
    unfold inode_decode_field
    rw [if_neg h1, if_neg h2]
    dsimp only
    rw [if_neg h3]
    exact ⟨_, rfl, rfl⟩
  refine ⟨⟨?_, ?_⟩, key⟩
  · intro hnone
    by_contra hc
    obtain ⟨d, hd, -⟩ := key hc
    rw [hd] at hnone
    cases hnone
  · intro h
    cases hdec : inode_decode_field mem i e with
    | none => rfl
    | some d =>
      obtain ⟨h1, h2, h3, h4, -⟩ := decode_some mem i e d hdec
      rw [h3] at h4
      omega

set_option maxRecDepth 100000 in
/-- C10, as stated, fails in "no smaller table length can hold v": the value 64 has bit
length 7, the one-byte form has `bits_table[0] = 7` data bits and the decoder reads 64 back
from the single byte `0xC0`, yet the encoder writes two bytes for it. -/
theorem width_selection_counterexample :
    fls64 64 = 7 ∧ bits_table.getD 0 0 = 7 ∧ byte_table.getD 0 0 = 1 ∧
    inode_decode_field [192] 0 1 = some { ret := 1, hi := 0, lo := 64, out_bits := 7 } ∧
    inode_encode_field [0, 0] 0 2 0 64 = some ([64, 64], 2) := by
  refine ⟨?_, ?_, ?_, ?_, ?_⟩ <;> decide

/-- C10, amended. Width selection: for every value of bit length `bits` below 96,
`inode_encode_field` writes exactly `L = byte_table[shift - 1]` bytes, where `shift` is the
smallest number in 1..8 with `bits < bits_table[shift - 1]`, and
`bits_table[i] = 8 * byte_table[i] - (i + 1)`; hence `L` is in `{1,2,3,4,6,8,10,13}` and no
smaller `shift` passes the encoder's test `bits < bits_table[shift - 1]` (a value of exactly
`bits_table[i]` bits takes the next length). -/
theorem width_selection (mem : List Nat) (out e hi lo : Nat)
    (hhi : hi < 2 ^ 64) (hlo : lo < 2 ^ 64) (hbits : field_bits hi lo < 96)
    (hend : e ≤ mem.length) (hroom : out + (encoded_field hi lo).length ≤ e) :
    ∃ mem1 shift, inode_encode_field mem out e hi lo
        = some (mem1, byte_table.getD (shift - 1) 0) ∧
      (mem1.drop out).take (byte_table.getD (shift - 1) 0) = encoded_field hi lo ∧
      mem1.take out = mem.take out ∧
      mem1.drop (out + byte_table.getD (shift - 1) 0)
        = mem.drop (out + byte_table.getD (shift - 1) 0) ∧
      1 ≤ shift ∧ shift ≤ 8 ∧
      field_bits hi lo < bits_table.getD (shift - 1) 0 ∧
      (∀ t, 1 ≤ t → t < shift → ¬ field_bits hi lo < bits_table.getD (t - 1) 0) ∧
      (∀ i, i < 8 → bits_table.getD i 0 = 8 * byte_table.getD i 0 - (i + 1)) ∧
      byte_table.getD (shift - 1) 0 ∈ [1, 2, 3, 4, 6, 8, 10, 13] := by
  obtain ⟨s, hs, h1, h8, hb, hmin⟩ := find_shift_spec _ hbits
  have hlen := encoded_field_length hi lo s hhi hlo hs
  have henc := encode_eq mem out e hi lo hhi hlo hbits (by omega) hroom
  rw [hlen] at henc
  obtain ⟨p, r, rfl, rfl⟩ := mem_split mem out (by omega)
  refine ⟨_, s, henc, ?_, ?_, ?_, h1, h8, hb, fun t ht1 ht2 => hmin t ht2 ht1, ?_, ?_⟩
  · rw [← hlen]
    exact memcpy_drop_take _ _ _ (by simp)
  · rw [memcpy_append, List.append_assoc, List.take_left, List.take_left]
  · rw [memcpy_append, ← hlen, ← List.length_append, List.drop_left, List.length_append,
      List.drop_append]
  · decide
  · interval_cases s <;> decide

set_option maxRecDepth 100000 in
/-- C10, amended, at the value `U64_MAX`, with the lengths of the spec's examples
evaluated: the value 0 takes 1 byte, `U64_MAX` takes exactly 10 bytes, `U32_MAX` takes 6. -/
theorem width_selection_witness :
    ((0 : Nat) < 2 ^ 64 ∧ 2 ^ 64 - 1 < 2 ^ 64 ∧ field_bits 0 (2 ^ 64 - 1) < 96 ∧
      16 ≤ (List.replicate 16 0).length ∧ 0 + (encoded_field 0 (2 ^ 64 - 1)).length ≤ 16) ∧
    (∃ mem1 shift, inode_encode_field (List.replicate 16 0) 0 16 0 (2 ^ 64 - 1)
        = some (mem1, byte_table.getD (shift - 1) 0) ∧
      (mem1.drop 0).take (byte_table.getD (shift - 1) 0) = encoded_field 0 (2 ^ 64 - 1) ∧
      mem1.take 0 = (List.replicate 16 0).take 0 ∧
      mem1.drop (0 + byte_table.getD (shift - 1) 0)
        = (List.replicate 16 0).drop (0 + byte_table.getD (shift - 1) 0) ∧
      1 ≤ shift ∧ shift ≤ 8 ∧
      field_bits 0 (2 ^ 64 - 1) < bits_table.getD (shift - 1) 0 ∧
      (∀ t, 1 ≤ t → t < shift → ¬ field_bits 0 (2 ^ 64 - 1) < bits_table.getD (t - 1) 0) ∧
      (∀ i, i < 8 → bits_table.getD i 0 = 8 * byte_table.getD i 0 - (i + 1)) ∧
      byte_table.getD (shift - 1) 0 ∈ [1, 2, 3, 4, 6, 8, 10, 13]) ∧
    (encoded_field 0 0).length = 1 ∧ (encoded_field 0 (2 ^ 64 - 1)).length = 10 ∧
    (encoded_field 0 (2 ^ 32 - 1)).length = 6 :=
  ⟨by decide,
   width_selection (List.replicate 16 0) 0 16 0 (2 ^ 64 - 1) (by decide) (by decide)
     (by decide) (by decide) (by decide),
   by decide, by decide, by decide⟩

/-! ## The validator -/

/-- C11. Validator for `INODE_FS` keys: on a key of type `INODE_FS`, `bch2_inode_invalid`
returns no error if and only if the offset is 0, the value is at least as long as the fixed
header, `inum >= BLOCKDEV_INODE_MAX`, the string-hash selector of `i_flags` is below
`BCH_STR_HASH_NR` and `bch2_inode_unpack` succeeds; otherwise it returns the message of the
first of these checks that fails, in this order. -/
theorem validator_inode_fs (S : List (String × Nat)) (k : bkey_i_inode)
    (hty : k.type = BCH_INODE_FS) :
    (bch2_inode_invalid S k = none ↔
      k.p_offset = 0 ∧ sizeof_bch_inode ≤ bkey_val_bytes k ∧ BLOCKDEV_INODE_MAX ≤ k.p_inode ∧
      INODE_STR_HASH k < BCH_STR_HASH_NR ∧ (bch2_inode_unpack S k).isSome) ∧
    (k.p_offset ≠ 0 → bch2_inode_invalid S k = some "nonzero offset") ∧
    (k.p_offset = 0 → bkey_val_bytes k < sizeof_bch_inode →
      bch2_inode_invalid S k = some "incorrect value size") ∧
    (k.p_offset = 0 → sizeof_bch_inode ≤ bkey_val_bytes k → k.p_inode < BLOCKDEV_INODE_MAX →
      bch2_inode_invalid S k = some "fs inode in blockdev range") ∧
    (k.p_offset = 0 → sizeof_bch_inode ≤ bkey_val_bytes k → BLOCKDEV_INODE_MAX ≤ k.p_inode →
      BCH_STR_HASH_NR ≤ INODE_STR_HASH k →
      bch2_inode_invalid S k = some "invalid str hash type") ∧
    (k.p_offset = 0 → sizeof_bch_inode ≤ bkey_val_bytes k → BLOCKDEV_INODE_MAX ≤ k.p_inode →
      INODE_STR_HASH k < BCH_STR_HASH_NR → bch2_inode_unpack S k = none →
      bch2_inode_invalid S k = some "invalid variable length fields") := by
  unfold bch2_inode_invalid
  rw [if_pos hty]
  by_cases h1 : k.p_offset = 0
  · by_cases h2 : bkey_val_bytes k < sizeof_bch_inode
    · simp [h1, h2]
    · by_cases h3 : k.p_inode < BLOCKDEV_INODE_MAX
      · simp [h1, h2, h3, Nat.not_lt.1 h2]
      · by_cases h4 : INODE_STR_HASH k ≥ BCH_STR_HASH_NR
        · simp [h1, h2, h3, h4, Nat.not_lt.1 h2, Nat.not_lt.1 h3, Nat.not_lt.2 h4]
        · cases h5 : bch2_inode_unpack S k <;>
            simp [h1, h2, h3, h4, h5, Nat.not_lt.1 h2, Nat.not_lt.1 h3, Nat.not_le.1 h4]
  · simp [h1]

set_option maxRecDepth 100000 in
/-- C11 at the value of scenario S4, whose tail does not decode. -/
theorem validator_inode_fs_witness :
    truncated_key.type = BCH_INODE_FS ∧
    bch2_inode_invalid BCH_INODE_FIELDS truncated_key
      = some "invalid variable length fields" :=
  ⟨by decide,
   (validator_inode_fs BCH_INODE_FIELDS truncated_key (by decide)).2.2.2.2.2
     (by decide) (by decide) (by decide) (by decide) (by decide)⟩

set_option maxRecDepth 100000 in
/-- C12, as stated, fails: a key of type 0, which is neither `INODE_FS` nor
`INODE_BLOCKDEV`, with offset 1 draws "nonzero offset", because the offset is tested before
the type. -/
theorem validator_unknown_type_counterexample :
    stray_key.type ≠ BCH_INODE_FS ∧ stray_key.type ≠ BCH_INODE_BLOCKDEV ∧
    bch2_inode_invalid BCH_INODE_FIELDS stray_key = some "nonzero offset" := by
  refine ⟨?_, ?_, ?_⟩ <;> decide

/-- C12, amended. Validator on unknown types: on a key whose type is neither `INODE_FS`
nor `INODE_BLOCKDEV`, `bch2_inode_invalid` returns "invalid type" when the offset is 0 and
"nonzero offset" otherwise. -/
theorem validator_unknown_type (S : List (String × Nat)) (k : bkey_i_inode)
    (h1 : k.type ≠ BCH_INODE_FS) (h2 : k.type ≠ BCH_INODE_BLOCKDEV) :
    (k.p_offset = 0 → bch2_inode_invalid S k = some "invalid type") ∧
    (k.p_offset ≠ 0 → bch2_inode_invalid S k = some "nonzero offset") := by
  unfold bch2_inode_invalid
  constructor
  · intro h0
    simp [h0, h1, h2]
  · intro h0
    simp [h0]

set_option maxRecDepth 100000 in
/-- C12, amended, at the key of a hole. -/
theorem validator_unknown_type_witness :
    ((hole_key 5).type ≠ BCH_INODE_FS ∧ (hole_key 5).type ≠ BCH_INODE_BLOCKDEV) ∧
    (((hole_key 5).p_offset = 0 →
        bch2_inode_invalid BCH_INODE_FIELDS (hole_key 5) = some "invalid type") ∧
      ((hole_key 5).p_offset ≠ 0 →
        bch2_inode_invalid BCH_INODE_FIELDS (hole_key 5) = some "nonzero offset")) :=
  ⟨⟨by decide, by decide⟩,
   validator_unknown_type BCH_INODE_FIELDS (hole_key 5) (by decide) (by decide)⟩

/-! ## Bounds of the reads -/

theorem decode_reads_lt (mem : List Nat) (i e : Nat) :
    ∀ off ∈ inode_decode_field_reads mem i e, i ≤ off ∧ off < e := by
  intro off hoff
  unfold inode_decode_field_reads at hoff
  by_cases h1 : i ≥ e
  · rw [if_pos h1] at hoff; simp at hoff
  · rw [if_neg h1] at hoff
    by_cases h2 : mem.getD i 0 = 0
    · rw [if_pos h2] at hoff
      simp only [List.mem_singleton] at hoff
      omega
    · rw [if_neg h2] at hoff
      dsimp only at hoff
      by_cases h3 : i + byte_table.getD ((8 - __fls (mem.getD i 0)) - 1) 0 > e
      · rw [if_pos h3] at hoff
        simp only [List.mem_singleton] at hoff
        omega
      · rw [if_neg h3] at hoff
        simp only [List.mem_cons, List.mem_range'_1] at hoff
        omega

theorem unpack_fields_reads_lt (mem : List Nat) (e nr : Nat) :
    ∀ (S : List (String × Nat)) (i fieldnr : Nat),
      ∀ off ∈ unpack_fields_reads mem e nr S i fieldnr, off < e := by
  intro S
  induction S with
  | nil => intro i f off h; simp [unpack_fields_reads] at h
  | cons f rest ih =>
    intro i fieldnr off h
    obtain ⟨name, bits⟩ := f
    unfold unpack_fields_reads at h
    by_cases hnr : fieldnr = nr
    · rw [if_pos hnr] at h; simp at h
    · rw [if_neg hnr] at h
      rw [List.mem_append] at h
      rcases h with h | h
      · exact (decode_reads_lt mem i e off h).2
      · cases hd : inode_decode_field mem i e with
        | none => rw [hd] at h; simp at h
        | some d =>
          rw [hd] at h
          simp only at h
          by_cases hb : d.out_bits > bits
          · rw [if_pos hb] at h; simp at h
          · rw [if_neg hb] at h
            exact ih _ _ off h

/-- The decoder's result depends only on the bytes below `end`. -/
theorem decode_ext (m1 m2 : List Nat) (i e : Nat) (h : m1.take e = m2.take e) :
    inode_decode_field m1 i e = inode_decode_field m2 i e := by
  cases hd : inode_decode_field m1 i e with
  | some d =>
    obtain ⟨-, -, -, h4, -⟩ := decode_some m1 i e d hd
    exact (decode_congr m1 m2 e i e d hd h h4).symm
  | none =>
    cases hd2 : inode_decode_field m2 i e with
    | none => rfl
    | some d =>
      obtain ⟨-, -, -, h4, -⟩ := decode_some m2 i e d hd2
      have := decode_congr m2 m1 e i e d hd2 h.symm h4
      rw [hd] at this
      cases this

theorem unpack_fields_ext (m1 m2 : List Nat) (e nr : Nat) (h : m1.take e = m2.take e) :
    ∀ (S : List (String × Nat)) (i fieldnr : Nat),
      unpack_fields m1 e nr S i fieldnr = unpack_fields m2 e nr S i fieldnr := by
  intro S
  induction S with
  | nil => intro i f; simp [unpack_fields]
  | cons f rest ih =>
    intro i fieldnr
    obtain ⟨name, bits⟩ := f
    unfold unpack_fields
    rw [decode_ext m1 m2 i e h]
    by_cases hnr : fieldnr = nr
    · rw [if_pos hnr, if_pos hnr]
    · rw [if_neg hnr, if_neg hnr]
      cases inode_decode_field m2 i e with
      | none => rfl
      | some d =>
        simp only
        rw [ih]

/-- Validation depends only on the key, the header and the bytes of the value. -/
theorem invalid_ext (S : List (String × Nat)) (k k2 : bkey_i_inode)
    (h1 : k2.p_inode = k.p_inode) (h2 : k2.p_offset = k.p_offset) (h3 : k2.type = k.type)
    (h4 : k2.val_u64s = k.val_u64s) (h5 : k2.i_hash_seed = k.i_hash_seed)
    (h6 : k2.i_flags = k.i_flags) (h7 : k2.i_mode = k.i_mode)
    (h8 : k2.val_tail = k.val_tail) :
    bch2_inode_invalid S k2 = bch2_inode_invalid S k := by
  have hb : bkey_val_bytes k2 = bkey_val_bytes k := by unfold bkey_val_bytes; rw [h4]
  have hu : bch2_inode_unpack S k2 = bch2_inode_unpack S k := by
    unfold bch2_inode_unpack INODE_NR_FIELDS
    unfold bkey_i_inode.val_tail at h8
    rw [hb] at h8 ⊢
    simp only
    rw [unpack_fields_ext k2.fields k.fields _ _ h8, h1, h5, h6, h7]
  unfold bch2_inode_invalid INODE_STR_HASH
  rw [h2, h3, hb, h1, h6, hu]

set_option maxRecDepth 1000000 in
theorem fls_byte : ∀ b, b < 256 → b ≠ 0 → __fls b ≤ 7 ∧ 1 ≤ 8 - __fls b := by
  decide

/-- The validator returns `NULL` or one of its seven static strings. -/
theorem invalid_range (S : List (String × Nat)) (k : bkey_i_inode) :
    bch2_inode_invalid S k ∈
      [none, some "nonzero offset", some "incorrect value size",
       some "fs inode in blockdev range", some "invalid str hash type",
       some "invalid variable length fields", some "blockdev inode in fs range",
       some "invalid type"] := by
  unfold bch2_inode_invalid
  split_ifs <;> simp

/-- C13. Validator totality and bounds safety: on every raw key and value whose memory is
made of bytes (any type, any value length, any tail, any `NR_FIELDS`), `bch2_inode_invalid`
returns `NULL` or one of its static strings; every offset it reads through
`bch2_inode_unpack` and `inode_decode_field` lies below the end of the value, so that its
answer is the same on any other memory with the same key, header and value bytes; and for a
nonzero first byte, `8 - __fls(first_byte)` is between 1 and 8, so that the index into
`byte_table` is between 0 and 7. -/
theorem validator_total_and_in_bounds (S : List (String × Nat)) (k : bkey_i_inode)
    (hmem : ∀ b ∈ k.fields, b < 256) :
    bch2_inode_invalid S k ∈
      [none, some "nonzero offset", some "incorrect value size",
       some "fs inode in blockdev range", some "invalid str hash type",
       some "invalid variable length fields", some "blockdev inode in fs range",
       some "invalid type"] ∧
    (∀ off ∈ bch2_inode_invalid_reads S k, off < bkey_val_bytes k - INODE_HEADER_BYTES) ∧
    (∀ i e, ∀ off ∈ inode_decode_field_reads k.fields i e, i ≤ off ∧ off < e) ∧
    (∀ i, k.fields.getD i 0 ≠ 0 →
      1 ≤ 8 - __fls (k.fields.getD i 0) ∧ 8 - __fls (k.fields.getD i 0) ≤ 8 ∧
      __fls (k.fields.getD i 0) ≤ 7 ∧
      (8 - __fls (k.fields.getD i 0)) - 1 < byte_table.length) ∧
    (∀ k2 : bkey_i_inode, k2.p_inode = k.p_inode → k2.p_offset = k.p_offset →
      k2.type = k.type → k2.val_u64s = k.val_u64s → k2.i_hash_seed = k.i_hash_seed →
      k2.i_flags = k.i_flags → k2.i_mode = k.i_mode → k2.val_tail = k.val_tail →
      bch2_inode_invalid S k2 = bch2_inode_invalid S k) := by
  refine ⟨invalid_range S k, ?_, decode_reads_lt k.fields, ?_, ?_⟩
  · intro off hoff
    unfold bch2_inode_invalid_reads at hoff
    split_ifs at hoff
    all_goals first
      | exact unpack_fields_reads_lt _ _ _ _ _ _ off hoff
      | simp at hoff
  · intro i hne
    have hlt : k.fields.getD i 0 < 256 := by
      rcases Nat.lt_or_ge i k.fields.length with h | h
      · rw [List.getD_eq_getElem?_getD, List.getElem?_eq_getElem h]
        exact hmem _ (List.getElem_mem h)
      · rw [List.getD_eq_getElem?_getD, List.getElem?_eq_none h]
        norm_num
    have := fls_byte _ hlt hne
    have hl : byte_table.length = 8 := rfl
    omega
  · intro k2 h1 h2 h3 h4 h5 h6 h7 h8
    exact invalid_ext S k k2 h1 h2 h3 h4 h5 h6 h7 h8

set_option maxRecDepth 100000 in
/-- C13 at a value with two stored fields and seven spare bytes: the validator accepts it,
reads the offsets 0, 1 and 2 of its ten tail bytes, and answers the same when other bytes
follow the value in memory. -/
theorem validator_total_and_in_bounds_witness :
    (∀ b ∈ sample_key.fields, b < 256) ∧
    bch2_inode_invalid BCH_INODE_FIELDS sample_key_longer
      = bch2_inode_invalid BCH_INODE_FIELDS sample_key ∧
    bch2_inode_invalid BCH_INODE_FIELDS sample_key = none ∧
    bch2_inode_invalid_reads BCH_INODE_FIELDS sample_key = [0, 0, 1, 1, 2] ∧
    bkey_val_bytes sample_key - INODE_HEADER_BYTES = 10 :=
  ⟨by decide,
   (validator_total_and_in_bounds BCH_INODE_FIELDS sample_key (by decide)).2.2.2.2
     sample_key_longer rfl rfl rfl rfl rfl rfl rfl (by decide),
   by decide, by decide, by decide⟩

theorem str_hash_kept (flags nr : Nat) :
    (flags % 2 ^ 24 + (nr % 2 ^ 8) * 2 ^ 24) / 2 ^ 20 % 2 ^ 4 = flags / 2 ^ 20 % 2 ^ 4 := by
  norm_num
  omega

/-- C19. Packed inodes always validate: for every unpacked inode `u` with
`inum >= BLOCKDEV_INODE_MAX`, a string-hash selector in `i_flags` below `BCH_STR_HASH_NR`
and schema members that fit their declared widths, `bch2_inode_pack(u)` produces a key of
offset 0 and type `INODE_FS` on which `bch2_inode_invalid` returns no error. -/
theorem packed_inode_validates (S : List (String × Nat)) (buf : List Nat)
    (u : bch_inode_unpacked)
    (hfit : fields_fit S u) (hS : S.length < 256) (hroom : pack_fits S buf u)
    (hinum : BLOCKDEV_INODE_MAX ≤ u.inum)
    (hhash : u.i_flags / 2 ^ 20 % 2 ^ 4 < BCH_STR_HASH_NR) :
    ∃ k, bch2_inode_pack S buf u = some k ∧ k.p_offset = 0 ∧ k.type = BCH_INODE_FS ∧
      bch2_inode_invalid S k = none := by
  obtain ⟨k, hk, -, hun⟩ := unpack_pack S buf u hfit hS hroom
  have hk2 := pack_eq S buf u (fields_fit_lt S u hfit) hroom
  rw [hk] at hk2
  simp only [Option.some.injEq] at hk2
  have hoff : k.p_offset = 0 := by rw [hk2]
  have hty : k.type = BCH_INODE_FS := by rw [hk2]
  have hinode : k.p_inode = u.inum := by rw [hk2]
  have hval : sizeof_bch_inode ≤ bkey_val_bytes k := by
    rw [hk2]
    simp only [bkey_val_bytes, sizeof_bch_inode, INODE_HEADER_BYTES]
    omega
  have hsh : INODE_STR_HASH k = u.i_flags / 2 ^ 20 % 2 ^ 4 := by
    rw [hk2]
    exact str_hash_kept _ _
  refine ⟨k, hk, hoff, hty, ?_⟩
  unfold bch2_inode_invalid
  rw [if_neg (by simp [hoff]), if_pos hty, if_neg (by omega), if_neg (by omega),
    if_neg (by omega), hun]
  rfl

set_option maxRecDepth 100000 in
/-- C19 at the inode `{inum = 4096, i_size = 42, rest = 0}`. -/
theorem packed_inode_validates_witness :
    (fields_fit BCH_INODE_FIELDS inode_size_42 ∧ BCH_INODE_FIELDS.length < 256 ∧
      pack_fits BCH_INODE_FIELDS (List.replicate inode_buf_bytes 0) inode_size_42 ∧
      BLOCKDEV_INODE_MAX ≤ inode_size_42.inum ∧
      inode_size_42.i_flags / 2 ^ 20 % 2 ^ 4 < BCH_STR_HASH_NR) ∧
    ∃ k, bch2_inode_pack BCH_INODE_FIELDS (List.replicate inode_buf_bytes 0) inode_size_42
        = some k ∧
      k.p_offset = 0 ∧ k.type = BCH_INODE_FS ∧
      bch2_inode_invalid BCH_INODE_FIELDS k = none :=
  ⟨⟨by simp [fields_fit, inode_size_42, BCH_INODE_FIELDS], by decide, by decide, by decide,
    by decide⟩,
   packed_inode_validates BCH_INODE_FIELDS (List.replicate inode_buf_bytes 0) inode_size_42
     (by simp [fields_fit, inode_size_42, BCH_INODE_FIELDS]) (by decide) (by decide)
     (by decide) (by decide)⟩

/-! ## The allocator -/

theorem peek_p_inode (tree : List bkey_i_inode) (n : Nat) :
    (bch2_btree_iter_peek_with_holes tree n).p_inode = n := by
  unfold bch2_btree_iter_peek_with_holes
  cases h : tree.find? (fun k => decide (k.p_inode = n ∧ k.p_offset = 0)) with
  | none => rfl
  | some k =>
    have := List.find?_some h
    simp only [decide_eq_true_eq] at this
    exact this.1

theorem effective_max_lt (env : alloc_env) (max : Nat) (h : max < 2 ^ 64) :
    effective_max env max < 2 ^ 64 := by
  unfold effective_max ULLONG_MAX U32_MAX
  simp only
  have g1 : Nat.min (2 ^ 64 - 1) (2 ^ 32 - 1) ≤ 2 ^ 64 - 1 := Nat.min_le_left _ _
  have g2 : Nat.min max (2 ^ 32 - 1) ≤ max := Nat.min_le_left _ _
  split_ifs <;> omega

/-- More fuel does not change the outcome of a scan. -/
theorem scan_mono (env : alloc_env) (tree : List bkey_i_inode) (max : Nat) :
    ∀ (fuel pos calls : Nat) (r : scan_exit),
      scan_loop env tree max fuel pos calls = some r →
      ∀ fuel1, fuel ≤ fuel1 → scan_loop env tree max fuel1 pos calls = some r := by
  intro fuel
  induction fuel with
  | zero => intro pos calls r h; simp [scan_loop] at h
  | succ fuel ih =>
    intro pos calls r h fuel1 hle
    obtain ⟨f1, rfl⟩ : ∃ f1, fuel1 = f1 + 1 := ⟨fuel1 - 1, by omega⟩
    unfold scan_loop at h ⊢
    dsimp only at h ⊢
    split_ifs at h ⊢
    · exact h
    · exact ih _ _ r h f1 (by omega)
    · exact h
    · exact h
    · exact ih _ _ r h f1 (by omega)

/-- A scan that starts at or below a free slot, with used slots in between, no peek error
and an insert that does not ask for a retry, ends with the insert at that slot. -/
theorem scan_found (env : alloc_env) (tree : List bkey_i_inode) (max : Nat)
    (hmax : max < 2 ^ 64) (hpe : ∀ p, env.peek_err p = 0) (n calls : Nat)
    (hret : env.insert_ret calls ≠ -EINTR) (hn : n ≤ max) (hfree : slot_free tree n) :
    ∀ (d pos fuel : Nat), pos + d = n → d < fuel →
      (∀ m, pos ≤ m → m < n → ¬ slot_free tree m) →
      scan_loop env tree max fuel pos calls =
        some (scan_exit.returned (env.insert_ret calls) (some n) (calls + 1)) := by
  intro d
  induction d with
  | zero =>
    intro pos fuel hpos hfuel _
    obtain ⟨f, rfl⟩ : ∃ f, fuel = f + 1 := ⟨fuel - 1, by omega⟩
    have : pos = n := by omega
    subst this
    unfold scan_loop
    dsimp only
    unfold slot_free at hfree
    rw [if_neg (by simp [hpe]), if_pos hfree, if_neg hret, peek_p_inode]
  | succ d ih =>
    intro pos fuel hpos hfuel hused
    obtain ⟨f, rfl⟩ : ∃ f, fuel = f + 1 := ⟨fuel - 1, by omega⟩
    have hu := hused pos (le_refl _) (by omega)
    unfold slot_free at hu
    unfold scan_loop
    dsimp only
    rw [if_neg (by simp [hpe]), if_neg hu, if_neg (by omega),
      Nat.mod_eq_of_lt (by omega)]
    exact ih (pos + 1) f (by omega) (by omega) (fun m h1 h2 => hused m (by omega) h2)

/-- A scan over used slots up to `max`, with no peek error, ends at the `break`. -/
theorem scan_full (env : alloc_env) (tree : List bkey_i_inode) (max : Nat)
    (hmax : max < 2 ^ 64) (hpe : ∀ p, env.peek_err p = 0) (calls : Nat) :
    ∀ (d pos fuel : Nat), pos + d = max → d < fuel →
      (∀ m, pos ≤ m → m ≤ max → ¬ slot_free tree m) →
      scan_loop env tree max fuel pos calls = some (scan_exit.broke calls) := by
  intro d
  induction d with
  | zero =>
    intro pos fuel hpos hfuel hused
    obtain ⟨f, rfl⟩ : ∃ f, fuel = f + 1 := ⟨fuel - 1, by omega⟩
    have hu := hused pos (le_refl _) (by omega)
    unfold slot_free at hu
    unfold scan_loop
    dsimp only
    rw [if_neg (by simp [hpe]), if_neg hu, if_pos (by omega)]
  | succ d ih =>
    intro pos fuel hpos hfuel hused
    obtain ⟨f, rfl⟩ : ∃ f, fuel = f + 1 := ⟨fuel - 1, by omega⟩
    have hu := hused pos (le_refl _) (by omega)
    unfold slot_free at hu
    unfold scan_loop
    dsimp only
    rw [if_neg (by simp [hpe]), if_neg hu, if_neg (by omega),
      Nat.mod_eq_of_lt (by omega)]
    exact ih (pos + 1) f (by omega) (by omega) (fun m h1 h2 => hused m (by omega) h2)

/-- Whatever the collaborators answer, a scan that starts at or below `max` attempts its
insert at a free slot between its start and `max`, `max` included. -/
theorem scan_returned (env : alloc_env) (tree : List bkey_i_inode) (max : Nat)
    (hmax : max < 2 ^ 64) :
    ∀ (fuel pos calls : Nat) (ret : Int) (n c1 : Nat), pos ≤ max →
      scan_loop env tree max fuel pos calls = some (scan_exit.returned ret (some n) c1) →
      pos ≤ n ∧ n ≤ max ∧ slot_free tree n := by
  intro fuel
  induction fuel with
  | zero => intro pos calls ret n c1 _ h; simp [scan_loop] at h
  | succ fuel ih =>
    intro pos calls ret n c1 hpos h
    unfold scan_loop at h
    dsimp only at h
    split_ifs at h with h1 h2 h3 h4
    · simp at h
    · exact ih pos _ ret n c1 hpos h
    · simp only [Option.some.injEq, scan_exit.returned.injEq] at h
      rw [peek_p_inode] at h
      obtain ⟨-, hn, -⟩ := h
      subst hn
      exact ⟨le_refl _, hpos, h2⟩
    · simp at h
    · have hlt : pos + 1 ≤ max := by omega
      rw [Nat.mod_eq_of_lt (by omega)] at h
      have := ih (pos + 1) calls ret n c1 hlt h
      exact ⟨by omega, this.2⟩

theorem create_eq (env : alloc_env) (fuel : Nat) (tree : List bkey_i_inode)
    (inode : bkey_i_inode) (min max hint : Nat) :
    bch2_inode_create env fuel tree inode min max hint =
      match scan_loop env tree (effective_max env max) fuel
          (normalised_hint env min max hint) 0 with
      | none => none
      | some (scan_exit.returned ret pos _) =>
        some (create_return tree inode (normalised_hint env min max hint) ret pos)
      | some (scan_exit.broke calls) =>
        if !decide (normalised_hint env min max hint = min) then
          match scan_loop env tree (effective_max env max) fuel min calls with
          | none => none
          | some (scan_exit.returned ret pos _) => some (create_return tree inode min ret pos)
          | some (scan_exit.broke _) =>
            some { ret := -ENOSPC, hint := min, tree := tree, inode := inode }
        else some { ret := -ENOSPC, hint := normalised_hint env min max hint, tree := tree,
                    inode := inode } := rfl

theorem normalised_hint_ge (env : alloc_env) (min max hint : Nat) :
    min ≤ normalised_hint env min max hint := by
  unfold normalised_hint
  split_ifs with h
  · exact le_refl _
  · omega

theorem normalised_hint_le (env : alloc_env) (min max hint : Nat)
    (h : min ≤ effective_max env max) :
    normalised_hint env min max hint ≤ effective_max env max := by
  unfold normalised_hint
  split_ifs with h1
  · exact h
  · omega

theorem normalised_hint_ne (env : alloc_env) (min max hint : Nat)
    (h : normalised_hint env min max hint ≠ min) :
    normalised_hint env min max hint < effective_max env max := by
  unfold normalised_hint at h ⊢
  split_ifs at h ⊢ with h1
  · exact absurd rfl h
  · omega

theorem create_return_zero (tree : List bkey_i_inode) (inode : bkey_i_inode) (hint n : Nat) :
    create_return tree inode hint 0 (some n) = created_at tree inode n := by
  simp [create_return, created_at]

/-- The insert lands on the first free slot at or after the normalised hint. -/
theorem create_first (env : alloc_env) (fuel : Nat) (tree : List bkey_i_inode)
    (inode : bkey_i_inode) (min max hint : Nat)
    (hmax : max < 2 ^ 64) (hpe : ∀ p, env.peek_err p = 0) (hins : ∀ i, env.insert_ret i = 0)
    (hfuel : effective_max env max - min < fuel) (n : Nat)
    (h1 : normalised_hint env min max hint ≤ n) (h2 : n ≤ effective_max env max)
    (hfree : slot_free tree n)
    (hused : ∀ m, normalised_hint env min max hint ≤ m → m < n → ¬ slot_free tree m) :
    bch2_inode_create env fuel tree inode min max hint = some (created_at tree inode n) := by
  have hM := effective_max_lt env max hmax
  have hge := normalised_hint_ge env min max hint
  have hret : env.insert_ret 0 ≠ -EINTR := by rw [hins]; decide
  rw [create_eq, scan_found env tree _ hM hpe n 0 hret h2 hfree
    (n - normalised_hint env min max hint) _ fuel (by omega) (by omega) hused]
  simp only [hins]
  exact congrArg some (create_return_zero tree inode _ n)

/-- After a first scan over used slots only, the insert lands on the first free slot at or
after `min`. -/
theorem create_second (env : alloc_env) (fuel : Nat) (tree : List bkey_i_inode)
    (inode : bkey_i_inode) (min max hint : Nat)
    (hmax : max < 2 ^ 64) (hpe : ∀ p, env.peek_err p = 0) (hins : ∀ i, env.insert_ret i = 0)
    (hfuel : effective_max env max - min < fuel)
    (hfull : ∀ m, normalised_hint env min max hint ≤ m → m ≤ effective_max env max →
      ¬ slot_free tree m)
    (hne : normalised_hint env min max hint ≠ min) (n : Nat)
    (h1 : min ≤ n) (h2 : n ≤ effective_max env max) (hfree : slot_free tree n)
    (hused : ∀ m, min ≤ m → m < n → ¬ slot_free tree m) :
    bch2_inode_create env fuel tree inode min max hint = some (created_at tree inode n) := by
  have hM := effective_max_lt env max hmax
  have hge := normalised_hint_ge env min max hint
  have hlt := normalised_hint_ne env min max hint hne
  have hret : env.insert_ret 0 ≠ -EINTR := by rw [hins]; decide
  rw [create_eq, scan_full env tree _ hM hpe 0
    (effective_max env max - normalised_hint env min max hint) _ fuel (by omega) (by omega)
    hfull]
  simp only [hne, decide_False, Bool.not_false, if_true]
  rw [scan_found env tree _ hM hpe n 0 hret h2 hfree (n - min) _ fuel (by omega) (by omega)
    hused]
  simp only [hins]
  exact congrArg some (create_return_zero tree inode _ n)

/-- With every slot from `min` to the effective `max` used, nothing is inserted and
`-ENOSPC` comes back with `*hint` at `min`. -/
theorem create_no_space (env : alloc_env) (fuel : Nat) (tree : List bkey_i_inode)
    (inode : bkey_i_inode) (min max hint : Nat)
    (hmax : max < 2 ^ 64) (hpe : ∀ p, env.peek_err p = 0)
    (hfuel : effective_max env max - min < fuel)
    (hmin : min ≤ effective_max env max)
    (hfull : ∀ m, min ≤ m → m ≤ effective_max env max → ¬ slot_free tree m) :
    bch2_inode_create env fuel tree inode min max hint =
      some { ret := -ENOSPC, hint := min, tree := tree, inode := inode } := by
  have hM := effective_max_lt env max hmax
  have hge := normalised_hint_ge env min max hint
  have hle := normalised_hint_le env min max hint hmin
  rw [create_eq, scan_full env tree _ hM hpe 0
    (effective_max env max - normalised_hint env min max hint) _ fuel (by omega) (by omega)
    (fun m hm1 hm2 => hfull m (by omega) hm2)]
  by_cases hne : normalised_hint env min max hint = min
  · simp only [hne, decide_True, Bool.not_true]
    rfl
  · simp only [hne, decide_False, Bool.not_false, if_true]
    rw [scan_full env tree _ hM hpe 0 (effective_max env max - min) _ fuel (by omega)
      (by omega) hfull]

theorem scan_returned_none (env : alloc_env) (tree : List bkey_i_inode) (max : Nat) :
    ∀ (fuel pos calls : Nat) (ret : Int) (c1 : Nat),
      scan_loop env tree max fuel pos calls = some (scan_exit.returned ret none c1) →
      ret ≠ 0 := by
  intro fuel
  induction fuel with
  | zero => intro pos calls ret c1 h; simp [scan_loop] at h
  | succ fuel ih =>
    intro pos calls ret c1 h
    unfold scan_loop at h
    dsimp only at h
    split_ifs at h with h1 h2 h3 h4
    · simp only [Option.some.injEq, scan_exit.returned.injEq] at h
      rw [← h.1]; exact h1
    · exact ih _ _ ret c1 h
    · simp at h
    · simp at h
    · exact ih _ _ ret c1 h

/-- Whatever the collaborators answer, a successful `bch2_inode_create` has inserted at a
free slot between `min` and the effective `max`, `max` included. -/
theorem create_success_range (env : alloc_env) (fuel : Nat) (tree : List bkey_i_inode)
    (inode : bkey_i_inode) (min max hint : Nat) (r : create_result)
    (hmax : max < 2 ^ 64) (hmin : min ≤ effective_max env max)
    (h : bch2_inode_create env fuel tree inode min max hint = some r) (hret : r.ret = 0) :
    min ≤ r.inode.p_inode ∧ r.inode.p_inode ≤ effective_max env max ∧
    slot_free tree r.inode.p_inode ∧ r = created_at tree inode r.inode.p_inode := by
  have hM := effective_max_lt env max hmax
  have hge := normalised_hint_ge env min max hint
  have hle := normalised_hint_le env min max hint hmin
  have key : ∀ (hint0 pos calls : Nat) (ret : Int) (p : Option Nat) (c1 : Nat),
      min ≤ pos → pos ≤ effective_max env max →
      scan_loop env tree (effective_max env max) fuel pos calls
        = some (scan_exit.returned ret p c1) →
      r = create_return tree inode hint0 ret p →
      min ≤ r.inode.p_inode ∧ r.inode.p_inode ≤ effective_max env max ∧
      slot_free tree r.inode.p_inode ∧ r = created_at tree inode r.inode.p_inode := by
    intro hint0 pos calls ret p c1 hp1 hp2 hs hr
    cases p with
    | none =>
      have := scan_returned_none env tree _ fuel pos calls ret c1 hs
      rw [hr] at hret
      simp only [create_return] at hret
      exact absurd hret this
    | some n =>
      obtain ⟨g1, g2, g3⟩ := scan_returned env tree _ hM fuel pos calls ret n c1 hp2 hs
      have hr0 : ret = 0 := by
        rw [hr] at hret
        simp only [create_return] at hret
        split_ifs at hret with h0
        · exact h0
        · exact hret
      subst hr0
      rw [create_return_zero] at hr
      have hn : r.inode.p_inode = n := by rw [hr]; rfl
      rw [hn]
      exact ⟨by omega, g2, g3, hr⟩
  rw [create_eq] at h
  cases hs : scan_loop env tree (effective_max env max) fuel
      (normalised_hint env min max hint) 0 with
  | none => rw [hs] at h; cases h
  | some ex =>
    rw [hs] at h
    cases ex with
    | returned ret p c1 =>
      simp only [Option.some.injEq] at h
      exact key _ _ 0 ret p c1 hge hle hs h.symm
    | broke calls =>
      simp only at h
      split_ifs at h with hss
      · cases hs2 : scan_loop env tree (effective_max env max) fuel min calls with
        | none => rw [hs2] at h; cases h
        | some ex2 =>
          rw [hs2] at h
          cases ex2 with
          | returned ret p c1 =>
            simp only [Option.some.injEq] at h
            exact key _ _ calls ret p c1 (le_refl _) hmin hs2 h.symm
          | broke c2 =>
            simp only [Option.some.injEq] at h
            rw [← h] at hret
            simp [ENOSPC] at hret
      · simp only [Option.some.injEq] at h
        rw [← h] at hret
        simp [ENOSPC] at hret

set_option maxRecDepth 100000 in
/-- C14 evaluated where the code leaves the claimed range: with `min = 100`, `max = 110`,
inodes at 100 to 109 and `hint = 100`, `bch2_inode_create` returns success with the inode
inserted at 110, which is `max` itself, and `*hint = 111`.  In general a successful
`bch2_inode_create` has inserted at a slot `n` that was free when peeked, with
`min <= n <= max'`. -/
theorem allocator_inserts_at_max :
    effective_max quiet_env 110 = 110 ∧
    bch2_inode_create quiet_env (2 ^ 64) tree_100_109 (fs_key 0) 100 110 100
      = some (created_at tree_100_109 (fs_key 0) 110) ∧
    (created_at tree_100_109 (fs_key 0) 110).ret = 0 ∧
    (created_at tree_100_109 (fs_key 0) 110).inode.p_inode = 110 ∧
    (created_at tree_100_109 (fs_key 0) 110).hint = 111 ∧
    (∀ (env : alloc_env) (fuel : Nat) (tree : List bkey_i_inode) (inode : bkey_i_inode)
        (min max hint : Nat) (r : create_result),
      max < 2 ^ 64 → min ≤ effective_max env max →
      bch2_inode_create env fuel tree inode min max hint = some r → r.ret = 0 →
      min ≤ r.inode.p_inode ∧ r.inode.p_inode ≤ effective_max env max ∧
      slot_free tree r.inode.p_inode) := by
  refine ⟨by decide, by decide, by decide, by decide, by decide, ?_⟩
  intro env fuel tree inode min max hint r hmax hmin h hret
  obtain ⟨h1, h2, h3, -⟩ := create_success_range env fuel tree inode min max hint r hmax hmin
    h hret
  exact ⟨h1, h2, h3⟩

set_option maxRecDepth 100000 in
/-- C15 evaluated at its own witness: with `min = 100`, `max = 110`, inodes at 100 to 109
(every slot of `[min, max)` used) and `hint = 105`, `bch2_inode_create` does not return
`-ENOSPC`: the scan from 105 goes on to slot 110, finds it free and inserts there.
`-ENOSPC` comes back, with nothing inserted and after two scans, when the slots from `min`
to `max'` with `max'` included are all used. -/
theorem allocator_wrap_at_max :
    (∀ m, 100 ≤ m → m < 110 → ¬ slot_free tree_100_109 m) ∧
    bch2_inode_create quiet_env (2 ^ 64) tree_100_109 (fs_key 0) 100 110 105
      = some (created_at tree_100_109 (fs_key 0) 110) ∧
    bch2_inode_create quiet_env (2 ^ 64) tree_100_110 (fs_key 0) 100 110 105
      = some { ret := -ENOSPC, hint := 100, tree := tree_100_110, inode := fs_key 0 } ∧
    (∀ (env : alloc_env) (fuel : Nat) (tree : List bkey_i_inode) (inode : bkey_i_inode)
        (min max hint : Nat),
      max < 2 ^ 64 → (∀ p, env.peek_err p = 0) → effective_max env max - min < fuel →
      min ≤ effective_max env max →
      (∀ m, min ≤ m → m ≤ effective_max env max → ¬ slot_free tree m) →
      bch2_inode_create env fuel tree inode min max hint =
        some { ret := -ENOSPC, hint := min, tree := tree, inode := inode }) := by
  refine ⟨by decide, by decide, by decide, ?_⟩
  intro env fuel tree inode min max hint hmax hpe hfuel hmin hfull
  exact create_no_space env fuel tree inode min max hint hmax hpe hfuel hmin hfull

/-- C20. Allocator picks the first free slot and advances the hint: with no peek error and
inserts that succeed, and `h` the normalised hint, `bch2_inode_create` inserts at the
smallest free number `n >= h` up to `max'`; if every slot from `h` to `max'` is used and
`h != min`, it inserts at the smallest free number `n >= min` up to `max'`; on success
`*hint` is `n + 1` (in 64 bits); and if every slot from `min` to `max'` is used it returns
`-ENOSPC`, inserts nothing, and leaves `*hint` equal to `min`. -/
theorem allocator_first_free (env : alloc_env) (fuel : Nat) (tree : List bkey_i_inode)
    (inode : bkey_i_inode) (min max hint : Nat)
    (hmax : max < 2 ^ 64) (hpe : ∀ p, env.peek_err p = 0) (hins : ∀ i, env.insert_ret i = 0)
    (hfuel : effective_max env max - min < fuel) :
    (∀ n, normalised_hint env min max hint ≤ n → n ≤ effective_max env max →
      slot_free tree n →
      (∀ m, normalised_hint env min max hint ≤ m → m < n → ¬ slot_free tree m) →
      bch2_inode_create env fuel tree inode min max hint = some (created_at tree inode n)) ∧
    ((∀ m, normalised_hint env min max hint ≤ m → m ≤ effective_max env max →
        ¬ slot_free tree m) →
      normalised_hint env min max hint ≠ min →
      ∀ n, min ≤ n → n ≤ effective_max env max → slot_free tree n →
      (∀ m, min ≤ m → m < n → ¬ slot_free tree m) →
      bch2_inode_create env fuel tree inode min max hint = some (created_at tree inode n)) ∧
    (∀ n, (created_at tree inode n).ret = 0 ∧
      (created_at tree inode n).hint = (n + 1) % 2 ^ 64 ∧
      (created_at tree inode n).inode.p_inode = n ∧
      bch2_btree_iter_peek_with_holes (created_at tree inode n).tree n
        = { inode with p_inode := n, p_offset := 0 }) ∧
    (min ≤ effective_max env max →
      (∀ m, min ≤ m → m ≤ effective_max env max → ¬ slot_free tree m) →
      bch2_inode_create env fuel tree inode min max hint =
        some { ret := -ENOSPC, hint := min, tree := tree, inode := inode }) := by
  refine ⟨?_, ?_, ?_, ?_⟩
  · intro n h1 h2 hfree hused
    exact create_first env fuel tree inode min max hint hmax hpe hins hfuel n h1 h2 hfree
      hused
  · intro hfull hne n h1 h2 hfree hused
    exact create_second env fuel tree inode min max hint hmax hpe hins hfuel hfull hne n
      h1 h2 hfree hused
  · intro n
    refine ⟨rfl, rfl, rfl, ?_⟩
    simp [created_at, bch2_btree_iter_peek_with_holes, btree_insert_key, List.find?]
  · intro hmin hfull
    exact create_no_space env fuel tree inode min max hint hmax hpe hfuel hmin hfull

set_option maxRecDepth 100000 in
/-- C20 with `min = 100`, `max = 110`, `hint = 105` and inodes everywhere from 100 to 110
but at 102: the scan from 105 finds no free slot, the scan from 100 inserts at 102 and
`*hint` becomes 103. -/
theorem allocator_first_free_witness :
    ((110 : Nat) < 2 ^ 64 ∧ (∀ p, quiet_env.peek_err p = 0) ∧
      (∀ i, quiet_env.insert_ret i = 0) ∧ effective_max quiet_env 110 - 100 < 2 ^ 64) ∧
    bch2_inode_create quiet_env (2 ^ 64) tree_gap_102 (fs_key 0) 100 110 105
      = some (created_at tree_gap_102 (fs_key 0) 102) ∧
    (created_at tree_gap_102 (fs_key 0) 102).hint = 103 :=
  ⟨⟨by decide, fun _ => rfl, fun _ => rfl, by decide⟩,
   (allocator_first_free quiet_env (2 ^ 64) tree_gap_102 (fs_key 0) 100 110 105 (by decide)
      (fun _ => rfl) (fun _ => rfl) (by decide)).2.1 (by decide) (by decide) 102 (by decide)
      (by decide) (by decide) (by decide),
   by decide⟩

/-! ## The remover and the lookup -/

theorem delete_range_none (tree : List bkey) (s e : Nat × Nat) :
    ∀ k ∈ btree_delete_range tree s e, in_range k s e = false := by
  intro k hk
  unfold btree_delete_range at hk
  have := (List.mem_filter.1 hk).2
  simpa using this

theorem delete_range_idem (tree : List bkey) (s e : Nat × Nat) :
    btree_delete_range (btree_delete_range tree s e) s e = btree_delete_range tree s e := by
  unfold btree_delete_range
  rw [List.filter_filter]
  congr 1
  funext k
  simp

theorem insert_key_idem (tree : List bkey_i_inode) (k : bkey_i_inode) :
    btree_insert_key (btree_insert_key tree k) k = btree_insert_key tree k := by
  unfold btree_insert_key
  rw [List.filter_cons]
  simp only [and_self, decide_True, Bool.not_true, Bool.false_eq_true, if_false,
    List.filter_filter]
  congr 2
  funext x
  simp

theorem peek_insert_key (tree : List bkey_i_inode) (k : bkey_i_inode) (h : k.p_offset = 0) :
    bch2_btree_iter_peek_with_holes (btree_insert_key tree k) k.p_inode = k := by
  simp [bch2_btree_iter_peek_with_holes, btree_insert_key, List.find?, h]

/-- When its four collaborator calls return 0, `bch2_inode_rm(n)` returns 0, has cleared the
three ranges it passed on, and has put the empty key at `(n, 0)`. -/
theorem rm_all_ok (env : rm_env) (t : fs_trees) (n : Nat)
    (h1 : env.discard_ret = 0) (h2 : env.xattrs_ret = 0) (h3 : env.dirents_ret = 0)
    (h4 : env.insert_ret = 0) :
    bch2_inode_rm env t n =
      { ret := 0,
        trees :=
          { extents := btree_delete_range t.extents (POS n 0) (POS ((n + 1) % 2 ^ 64) 0),
            inodes := btree_insert_key t.inodes (delete_key n),
            dirents := btree_delete_range t.dirents (POS n 0) (POS ((n + 1) % 2 ^ 64) 0),
            xattrs := btree_delete_range t.xattrs (POS n 0) (POS ((n + 1) % 2 ^ 64) 0) },
        ops := [btree_op.discard (POS n 0) (POS ((n + 1) % 2 ^ 64) 0),
                btree_op.delete_range btree_id.BTREE_ID_XATTRS (POS n 0)
                  (POS ((n + 1) % 2 ^ 64) 0),
                btree_op.delete_range btree_id.BTREE_ID_DIRENTS (POS n 0)
                  (POS ((n + 1) % 2 ^ 64) 0),
                btree_op.insert btree_id.BTREE_ID_INODES (delete_key n) true] } := by
  simp [bch2_inode_rm, bch2_inode_truncate, h1, h2, h3, h4]

/-- After the empty key was inserted at `(n, 0)`, the lookup of `n` returns `-ENOENT`. -/
theorem find_after_delete_key (S : List (String × Nat)) (fenv : find_env)
    (tree : List bkey_i_inode) (n : Nat)
    (h5 : fenv.peek_failed = false) (h6 : fenv.unlock_ret = 0) :
    (bch2_inode_find_by_inum S fenv (btree_insert_key tree (delete_key n)) n).ret
      = -ENOENT := by
  have hp := peek_insert_key tree (delete_key n) rfl
  have hpn : (delete_key n).p_inode = n := rfl
  rw [hpn] at hp
  unfold bch2_inode_find_by_inum
  simp only [hp, h5, h6]
  simp [delete_key, hole_key, KEY_TYPE_DELETED, BCH_INODE_FS]

set_option maxRecDepth 100000 in
/-- C16 evaluated at the last inode number.  The allocator hands out `n = U64_MAX` (with
`max = 0`, `min = hint = U64_MAX - 1` and that slot used), and the lookup finds such an
inode.  With every collaborator returning 0, `bch2_inode_rm(U64_MAX)` returns 0 and the
lookup then returns `-ENOENT`, but the range end `POS(inode_nr + 1, 0)` has wrapped to
`POS(0, 0)`: the three calls get an empty range, and the extent, the xattr and the dirent of
the inode are still there, each inside `[(n, 0), (n + 1, 0))`.  For scenario S6 (inode 4097)
the three ranges are cleared and the keys of the neighbours stay.  In general, with all
collaborator calls returning 0: `bch2_inode_rm(n)` returns 0, the lookup of `n` then returns
`-ENOENT`, a second `bch2_inode_rm(n)` returns 0 and leaves the four trees as they are, and,
for `n` below `U64_MAX`, no key of the extents, xattrs and dirents trees is left in
`[(n, 0), (n + 1, 0))`. -/
theorem remover_wraps_at_last_inode :
    (ULLONG_MAX = 2 ^ 64 - 1 ∧
     bch2_inode_create quiet_env (2 ^ 64) tree_before_last (fs_key 0) (ULLONG_MAX - 1) 0
        (ULLONG_MAX - 1) = some (created_at tree_before_last (fs_key 0) ULLONG_MAX) ∧
     (bch2_inode_find_by_inum BCH_INODE_FIELDS find_ok trees_last.inodes ULLONG_MAX).ret = 0) ∧
    ((bch2_inode_rm rm_ok trees_last ULLONG_MAX).ret = 0 ∧
     (bch2_inode_rm rm_ok trees_last ULLONG_MAX).ops
       = [btree_op.discard (POS ULLONG_MAX 0) (POS 0 0),
          btree_op.delete_range btree_id.BTREE_ID_XATTRS (POS ULLONG_MAX 0) (POS 0 0),
          btree_op.delete_range btree_id.BTREE_ID_DIRENTS (POS ULLONG_MAX 0) (POS 0 0),
          btree_op.insert btree_id.BTREE_ID_INODES (delete_key ULLONG_MAX) true] ∧
     (bch2_inode_find_by_inum BCH_INODE_FIELDS find_ok
       (bch2_inode_rm rm_ok trees_last ULLONG_MAX).trees.inodes ULLONG_MAX).ret = -ENOENT ∧
     (bch2_inode_rm rm_ok trees_last ULLONG_MAX).trees.extents
       = [{ p_inode := ULLONG_MAX, p_offset := 8, type := 1 }] ∧
     (bch2_inode_rm rm_ok trees_last ULLONG_MAX).trees.xattrs
       = [{ p_inode := ULLONG_MAX, p_offset := 0, type := 1 }] ∧
     (bch2_inode_rm rm_ok trees_last ULLONG_MAX).trees.dirents
       = [{ p_inode := ULLONG_MAX, p_offset := 5, type := 1 }] ∧
     in_range { p_inode := ULLONG_MAX, p_offset := 8, type := 1 }
       (POS ULLONG_MAX 0) (POS (ULLONG_MAX + 1) 0) = true ∧
     in_range { p_inode := ULLONG_MAX, p_offset := 0, type := 1 }
       (POS ULLONG_MAX 0) (POS (ULLONG_MAX + 1) 0) = true ∧
     in_range { p_inode := ULLONG_MAX, p_offset := 5, type := 1 }
       (POS ULLONG_MAX 0) (POS (ULLONG_MAX + 1) 0) = true) ∧
    ((bch2_inode_rm rm_ok trees_s6 4097).trees.extents
       = [{ p_inode := 4098, p_offset := 0, type := 1 }] ∧
     (bch2_inode_rm rm_ok trees_s6 4097).trees.xattrs = [] ∧
     (bch2_inode_rm rm_ok trees_s6 4097).trees.dirents
       = [{ p_inode := 4096, p_offset := 77, type := 1 }]) ∧
    (∀ (S : List (String × Nat)) (env : rm_env) (fenv : find_env) (t : fs_trees) (n : Nat),
      env.discard_ret = 0 → env.xattrs_ret = 0 → env.dirents_ret = 0 →
      env.insert_ret = 0 → fenv.peek_failed = false → fenv.unlock_ret = 0 →
      (bch2_inode_rm env t n).ret = 0 ∧
      (bch2_inode_find_by_inum S fenv (bch2_inode_rm env t n).trees.inodes n).ret = -ENOENT ∧
      (bch2_inode_rm env (bch2_inode_rm env t n).trees n).ret = 0 ∧
      (bch2_inode_rm env (bch2_inode_rm env t n).trees n).trees
        = (bch2_inode_rm env t n).trees ∧
      (n + 1 < 2 ^ 64 →
        (∀ k ∈ (bch2_inode_rm env t n).trees.extents,
          in_range k (POS n 0) (POS (n + 1) 0) = false) ∧
        (∀ k ∈ (bch2_inode_rm env t n).trees.xattrs,
          in_range k (POS n 0) (POS (n + 1) 0) = false) ∧
        (∀ k ∈ (bch2_inode_rm env t n).trees.dirents,
          in_range k (POS n 0) (POS (n + 1) 0) = false))) := by
  refine ⟨⟨by decide, by decide, by decide⟩,
    ⟨by decide, by decide, by decide, by decide, by decide, by decide, by decide, by decide,
      by decide⟩,
    ⟨by decide, by decide, by decide⟩, ?_⟩
  intro S env fenv t n h1 h2 h3 h4 h5 h6
  have hrm := fun t0 => rm_all_ok env t0 n h1 h2 h3 h4
  rw [hrm t]
  simp only
  refine ⟨trivial, find_after_delete_key S fenv t.inodes n h5 h6, ?_, ?_, ?_⟩
  · rw [hrm]
  · rw [hrm]
    simp only [delete_range_idem, insert_key_idem]
  · intro hn
    have hm : (n + 1) % 2 ^ 64 = n + 1 := Nat.mod_eq_of_lt hn
    rw [hm]
    exact ⟨delete_range_none _ _ _, delete_range_none _ _ _, delete_range_none _ _ _⟩

/-- C17. Remover ordering and stop on first error: `bch2_inode_rm(n)` issues, in this
order, the discard of the extents from `POS(n, 0)` to `POS(n + 1, 0)`, the range delete of
the xattrs and the range delete of the dirents in the same range, and the no-fail insert of
an empty key at `(n, 0)` into the inodes tree; when one of the first three returns a
negative value, that value is returned as it is and no later call is issued. -/
theorem remover_order (env : rm_env) (t : fs_trees) (n : Nat) :
    (env.discard_ret < 0 →
      (bch2_inode_rm env t n).ret = env.discard_ret ∧
      (bch2_inode_rm env t n).ops
        = [btree_op.discard (POS n 0) (POS ((n + 1) % 2 ^ 64) 0)]) ∧
    (0 ≤ env.discard_ret → env.xattrs_ret < 0 →
      (bch2_inode_rm env t n).ret = env.xattrs_ret ∧
      (bch2_inode_rm env t n).ops
        = [btree_op.discard (POS n 0) (POS ((n + 1) % 2 ^ 64) 0),
           btree_op.delete_range btree_id.BTREE_ID_XATTRS (POS n 0)
             (POS ((n + 1) % 2 ^ 64) 0)]) ∧
    (0 ≤ env.discard_ret → 0 ≤ env.xattrs_ret → env.dirents_ret < 0 →
      (bch2_inode_rm env t n).ret = env.dirents_ret ∧
      (bch2_inode_rm env t n).ops
        = [btree_op.discard (POS n 0) (POS ((n + 1) % 2 ^ 64) 0),
           btree_op.delete_range btree_id.BTREE_ID_XATTRS (POS n 0)
             (POS ((n + 1) % 2 ^ 64) 0),
           btree_op.delete_range btree_id.BTREE_ID_DIRENTS (POS n 0)
             (POS ((n + 1) % 2 ^ 64) 0)]) ∧
    (0 ≤ env.discard_ret → 0 ≤ env.xattrs_ret → 0 ≤ env.dirents_ret →
      (bch2_inode_rm env t n).ret = env.insert_ret ∧
      (bch2_inode_rm env t n).ops
        = [btree_op.discard (POS n 0) (POS ((n + 1) % 2 ^ 64) 0),
           btree_op.delete_range btree_id.BTREE_ID_XATTRS (POS n 0)
             (POS ((n + 1) % 2 ^ 64) 0),
           btree_op.delete_range btree_id.BTREE_ID_DIRENTS (POS n 0)
             (POS ((n + 1) % 2 ^ 64) 0),
           btree_op.insert btree_id.BTREE_ID_INODES
             { p_inode := n, p_offset := 0, type := KEY_TYPE_DELETED, val_u64s := 0,
               i_hash_seed := 0, i_flags := 0, i_mode := 0, fields := [] } true]) := by
  refine ⟨?_, ?_, ?_, ?_⟩
  · intro h1
    simp [bch2_inode_rm, bch2_inode_truncate, h1]
  · intro h1 h2
    simp [bch2_inode_rm, bch2_inode_truncate, Int.not_lt.2 h1, h2]
  · intro h1 h2 h3
    simp [bch2_inode_rm, bch2_inode_truncate, Int.not_lt.2 h1, Int.not_lt.2 h2, h3]
  · intro h1 h2 h3
    simp [bch2_inode_rm, bch2_inode_truncate, Int.not_lt.2 h1, Int.not_lt.2 h2,
      Int.not_lt.2 h3, delete_key, hole_key]

set_option maxRecDepth 100000 in
/-- C18, as stated, fails on a key of type `INODE_FS` whose value does not decode: with the
value of scenario S4 stored at `(4096, 0)` and a cursor that reports no error,
`bch2_inode_find_by_inum(4096)` returns -1, the error of `bch2_inode_unpack`, and not
success. -/
theorem lookup_counterexample :
    (bch2_btree_iter_peek_with_holes [truncated_key] 4096).type = BCH_INODE_FS ∧
    find_ok.peek_failed = false ∧ find_ok.unlock_ret = 0 ∧
    (bch2_inode_find_by_inum BCH_INODE_FIELDS find_ok [truncated_key] 4096).ret = -1 := by
  refine ⟨?_, ?_, ?_, ?_⟩ <;> decide

/-- C18, amended. Lookup by number: on a cursor whose peek gives a key,
`bch2_inode_find_by_inum(n)` peeks exactly the slot `(n, 0)`; if the peeked key has type
`INODE_FS` it returns what `bch2_inode_unpack` returns on that key, success with the
unpacked record in the output or the error -1; otherwise (a hole or a key of any other
type, `INODE_BLOCKDEV` included) it returns `-ENOENT`; and a nonzero value returned when the
cursor is unlocked is returned in preference to all of these. -/
theorem lookup_by_number (S : List (String × Nat)) (env : find_env)
    (tree : List bkey_i_inode) (n : Nat) (hpeek : env.peek_failed = false) :
    (bch2_inode_find_by_inum S env tree n).peeked = [POS n 0] ∧
    (∀ u, (bch2_btree_iter_peek_with_holes tree n).type = BCH_INODE_FS →
      bch2_inode_unpack S (bch2_btree_iter_peek_with_holes tree n) = some u →
      (bch2_inode_find_by_inum S env tree n).inode = some u ∧
      (env.unlock_ret = 0 → (bch2_inode_find_by_inum S env tree n).ret = 0)) ∧
    ((bch2_btree_iter_peek_with_holes tree n).type = BCH_INODE_FS →
      bch2_inode_unpack S (bch2_btree_iter_peek_with_holes tree n) = none →
      env.unlock_ret = 0 → (bch2_inode_find_by_inum S env tree n).ret = -1) ∧
    ((bch2_btree_iter_peek_with_holes tree n).type ≠ BCH_INODE_FS →
      env.unlock_ret = 0 → (bch2_inode_find_by_inum S env tree n).ret = -ENOENT) ∧
    (env.unlock_ret ≠ 0 → (bch2_inode_find_by_inum S env tree n).ret = env.unlock_ret) := by
  refine ⟨rfl, ?_, ?_, ?_, ?_⟩
  · intro u hty hun
    simp [bch2_inode_find_by_inum, hpeek, hty, hun]
  · intro hty hun hul
    simp [bch2_inode_find_by_inum, hpeek, hty, hun, hul]
  · intro hty hul
    simp [bch2_inode_find_by_inum, hpeek, hty, hul]
  · intro hul
    simp [bch2_inode_find_by_inum, hul]

set_option maxRecDepth 100000 in
/-- C18, amended, on a tree that holds the inode 4096 and a blockdev inode at 7: the first
is found, the second and the hole at 4097 are not. -/
theorem lookup_by_number_witness :
    find_ok.peek_failed = false ∧
    ((bch2_inode_find_by_inum BCH_INODE_FIELDS find_ok [sample_key, blockdev_key] 4096).peeked
      = [POS 4096 0]) ∧
    (bch2_inode_find_by_inum BCH_INODE_FIELDS find_ok [sample_key, blockdev_key] 4096).ret
      = 0 ∧
    (bch2_inode_find_by_inum BCH_INODE_FIELDS find_ok [sample_key, blockdev_key] 7).ret
      = -ENOENT ∧
    (bch2_inode_find_by_inum BCH_INODE_FIELDS find_ok [sample_key, blockdev_key] 4097).ret
      = -ENOENT :=
  ⟨rfl,
   (lookup_by_number BCH_INODE_FIELDS find_ok [sample_key, blockdev_key] 4096 rfl).1,
   by decide, by decide, by decide⟩

set_option maxRecDepth 100000 in
/-- C17 with a range delete of the xattrs that returns -5: `bch2_inode_rm` returns -5 after
two calls, and neither the dirents nor the inodes tree is touched. -/
theorem remover_order_witness :
    ((0 : Int) ≤ rm_xattrs_fail.discard_ret ∧ rm_xattrs_fail.xattrs_ret < 0) ∧
    ((bch2_inode_rm rm_xattrs_fail trees_s6 4097).ret = rm_xattrs_fail.xattrs_ret ∧
      (bch2_inode_rm rm_xattrs_fail trees_s6 4097).ops
        = [btree_op.discard (POS 4097 0) (POS ((4097 + 1) % 2 ^ 64) 0),
           btree_op.delete_range btree_id.BTREE_ID_XATTRS (POS 4097 0)
             (POS ((4097 + 1) % 2 ^ 64) 0)]) ∧
    (bch2_inode_rm rm_xattrs_fail trees_s6 4097).trees.dirents = trees_s6.dirents ∧
    (bch2_inode_rm rm_xattrs_fail trees_s6 4097).trees.inodes = trees_s6.inodes :=
  ⟨⟨by decide, by decide⟩,
   (remover_order rm_xattrs_fail trees_s6 4097).2.1 (by decide) (by decide),
   by decide, by decide⟩

end Bcachefs
